import Mathlib

/-!
Verification of the task data engine of the obsidian-task-consolidator
repository against its natural-language specification.

The TypeScript sources are shallowly embedded: JS strings are modeled as
lists of characters (ASCII; the regular expressions of the source only
distinguish ASCII classes on the inputs), JS numbers that hold line
numbers, timestamps and counts are modeled as Nat, and the regular
expressions of src/types/constants.ts are hand-compiled to executable
scanning functions whose doc comments quote the pattern they embed.
All definitions are structural recursions (or take explicit fuel bounded
by the input length) so that concrete runs reduce inside the kernel.
-/

namespace TC

/-- JS strings as lists of characters. -/
abbrev Str := List Char

/-- The character class of the regex escape backslash-s restricted to ASCII
(space, tab, newline, vertical tab, form feed, carriage return); the same
set backs the modelling of trim. -/
def isWsChar (c : Char) : Bool :=
  c = ' ' || c = '\t' || c = '\n' || c = '\r' || c = Char.ofNat 11 || c = Char.ofNat 12

/-- ASCII digit, the class backslash-d. -/
def isDigitChar (c : Char) : Bool :=
  '0' ≤ c && c ≤ '9'

/-- ASCII letter. -/
def isAsciiAlpha (c : Char) : Bool :=
  ('a' ≤ c && c ≤ 'z') || ('A' ≤ c && c ≤ 'Z')

/-- The class backslash-w restricted to ASCII: letters, digits, underscore. -/
def isWordChar (c : Char) : Bool :=
  isAsciiAlpha c || isDigitChar c || c = '_'

/-- What the regex dot matches: any character except the line terminators
newline and carriage return. -/
def isDotChar (c : Char) : Bool :=
  !(c = '\n' || c = '\r')

/-- The character class of OWNER_PATTERN, `[\w\s\-.']`. -/
def isOwnerChar (c : Char) : Bool :=
  isWordChar c || isWsChar c || c = '-' || c = '.' || c = Char.ofNat 39

/-- The character class of PROJECT_PATTERN, `[\w\s\-_]`. -/
def isProjectChar (c : Char) : Bool :=
  isWordChar c || isWsChar c || c = '-' || c = '_'

/-- The character class of the TAGS pattern group, `[\w\-_]`. -/
def isTagChar (c : Char) : Bool :=
  isWordChar c || c = '-' || c = '_'

/-- JS String.prototype.trim. -/
def jsTrim (l : Str) : Str :=
  ((l.dropWhile isWsChar).reverse.dropWhile isWsChar).reverse

/-- JS String.prototype.toLowerCase on ASCII content. -/
def toLowerStr (l : Str) : Str :=
  l.map Char.toLower

/-- JS replace of the global pattern backslash-s-plus by a single space:
every maximal whitespace run becomes one space. -/
def collapseWs : Str → Str
  | [] => []
  | [c] => if isWsChar c then [' '] else [c]
  | c :: d :: rest =>
    if isWsChar c then
      if isWsChar d then collapseWs (d :: rest)
      else ' ' :: d :: collapseWs rest
    else c :: collapseWs (d :: rest)

/-- Decimal digits of a natural number, most significant first. -/
def natToStr (n : Nat) : Str :=
  Nat.toDigits 10 n

/-- JS String() of an integer. -/
def intToStr (i : Int) : Str :=
  if i < 0 then '-' :: natToStr i.natAbs else natToStr i.toNat

/-- padStart(2, zero) as used when formatting months and days. -/
def pad2 (n : Nat) : Str :=
  if n < 10 then '0' :: natToStr n else natToStr n

/-- parseInt on a run of decimal digits. -/
def parseNatDigits (l : Str) : Nat :=
  l.foldl (fun a c => a * 10 + (c.toNat - 48)) 0

/-- JS String.prototype.includes for a single-character needle. -/
def containsChar (c : Char) (l : Str) : Bool :=
  l.any (· = c)

/-- Whether `pat` occurs as a contiguous substring of `l`
(JS String.prototype.includes). -/
def hasSub (pat : Str) : Str → Bool
  | [] => pat.isEmpty
  | c :: cs => pat.isPrefixOf (c :: cs) || hasSub pat cs

/-- JS String.prototype.replace with a plain-substring pattern: replaces the
first occurrence only. -/
def replaceFirstSub (pat repl : Str) : Str → Str
  | [] => []
  | c :: cs =>
    if pat.isPrefixOf (c :: cs) && !pat.isEmpty then repl ++ (c :: cs).drop pat.length
    else c :: replaceFirstSub pat repl cs

/-- JS string comparison a < b (code-unit lexicographic, ASCII content). -/
def strLtB : Str → Str → Bool
  | [], [] => false
  | [], _ :: _ => true
  | _ :: _, [] => false
  | a :: as_, b :: bs =>
    if a.toNat < b.toNat then true
    else if b.toNat < a.toNat then false
    else strLtB as_ bs

/-- JS String.prototype.split on a single-character separator. -/
def jsSplit (sep : Char) : Str → List Str
  | [] => [[]]
  | c :: cs =>
    if c = sep then [] :: jsSplit sep cs
    else
      match jsSplit sep cs with
      | [] => [[c]]
      | h :: t => (c :: h) :: t

/-- Array.prototype.join with the newline separator. -/
def joinLines : List Str → Str
  | [] => []
  | [l] => l
  | l :: ls => l ++ '\n' :: joinLines ls

/-- Case-insensitive literal prefix test: `pat` is given in lowercase. -/
def startsWithCI (pat l : Str) : Bool :=
  toLowerStr (l.take pat.length) = pat

/-- The position scan all unanchored regex patterns share: try the matcher at
every suffix, left to right, and return the text before the leftmost match
together with the match data (JS String.prototype.match without the g flag). -/
def findFirstMap (f : Str → Option α) : Str → Option (Str × α)
  | [] =>
    match f [] with
    | some a => some ([], a)
    | none => none
  | c :: cs =>
    match f (c :: cs) with
    | some a => some ([], a)
    | none =>
      match findFirstMap f cs with
      | some (p, a) => some (c :: p, a)
      | none => none

/-- The shape `\d{4}-\d{2}-\d{2}` anchored on the whole string
(PATTERNS.DATE and the DATE_PATTERN of the validators). -/
def dateShape : Str → Bool
  | [a, b, c, d, e, f, g, h, i, j] =>
    isDigitChar a && isDigitChar b && isDigitChar c && isDigitChar d &&
    e = '-' && isDigitChar f && isDigitChar g && h = '-' &&
    isDigitChar i && isDigitChar j
  | _ => false

/-- PATTERNS.DATE_WITH_PREFIX, `^(?:Due\s+)?(\d{4}-\d{2}-\d{2})$` with the i
flag: returns the captured date. -/
def matchDueDate (l : Str) : Option Str :=
  if dateShape l then some l
  else if startsWithCI (("due").data) l then
    let r := l.drop 3
    let w := r.takeWhile isWsChar
    let d := r.dropWhile isWsChar
    if w.isEmpty then none
    else if dateShape d then some d else none
  else none

/-- PATTERNS.COMPLETED_DATE tried at one position:
`\s*\[done:(\d{4}-\d{2}-\d{2})\]\s*$` must consume the rest of the string. -/
def matchDoneAt (l : Str) : Option Str :=
  let r := l.dropWhile isWsChar
  if (("[done:").data).isPrefixOf r then
    let r2 := r.drop 6
    let d := r2.take 10
    if dateShape d then
      match r2.drop 10 with
      | ']' :: rest => if rest.all isWsChar then some d else none
      | _ => none
    else none
  else none

/-- PATTERNS.CREATED_DATE tried at one position:
`\s*\[created:(\d{4}-\d{2}-\d{2})\]\s*$`. -/
def matchCreatedAt (l : Str) : Option Str :=
  let r := l.dropWhile isWsChar
  if (("[created:").data).isPrefixOf r then
    let r2 := r.drop 9
    let d := r2.take 10
    if dateShape d then
      match r2.drop 10 with
      | ']' :: rest => if rest.all isWsChar then some d else none
      | _ => none
    else none
  else none

/-- The leftmost match of COMPLETED_DATE: the text kept by replacing it with
the empty string is exactly the returned first component, because the match
runs to the end of the string. -/
def findDone (l : Str) : Option (Str × Str) :=
  findFirstMap matchDoneAt l

/-- The leftmost match of CREATED_DATE. -/
def findCreated (l : Str) : Option (Str × Str) :=
  findFirstMap matchCreatedAt l

/-- One alternative of `(high|medium|low)` with the i flag, tried at the head
of `l`; returns the lowercased word and the rest after the closing bracket. -/
def matchPriorityWord (l : Str) : Option (Str × Str) :=
  if startsWithCI (("high]").data) l then some (("high").data, l.drop 5)
  else if startsWithCI (("medium]").data) l then some (("medium").data, l.drop 7)
  else if startsWithCI (("low]").data) l then some (("low").data, l.drop 4)
  else none

/-- PATTERNS.PRIORITY tried at one position:
`\[priority:(high|medium|low)\]` with the i flag. -/
def matchPriorityAt (l : Str) : Option (Str × Str) :=
  if startsWithCI (("[priority:").data) l then matchPriorityWord (l.drop 10)
  else none

/-- The leftmost PRIORITY match: (text before, (lowercased word, text after)). -/
def findPriority (l : Str) : Option (Str × (Str × Str)) :=
  findFirstMap matchPriorityAt l

/-- PATTERNS.RECURRENCE tried at one position: `\[repeat:([^\]]+)\]` with the
i flag; the group keeps its original case. -/
def matchRepeatAt (l : Str) : Option (Str × Str) :=
  if startsWithCI (("[repeat:").data) l then
    let r := l.drop 8
    let g := r.takeWhile (· ≠ ']')
    if g.isEmpty then none
    else
      match r.drop g.length with
      | ']' :: rest => some (g, rest)
      | _ => none
  else none

/-- The leftmost RECURRENCE match. -/
def findRepeat (l : Str) : Option (Str × (Str × Str)) :=
  findFirstMap matchRepeatAt l

/-- A bracket tag `[<name>:([^\]]+)\]` tried at one position, for the
estimate, logged, blocked-by and blocks tags; `tag` is the literal opener
such as `[estimate:`. -/
def matchBracketTagAt (tag : Str) (l : Str) : Option (Str × Str) :=
  if tag.isPrefixOf l then
    let r := l.drop tag.length
    let g := r.takeWhile (· ≠ ']')
    if g.isEmpty then none
    else
      match r.drop g.length with
      | ']' :: rest => some (g, rest)
      | _ => none
  else none

/-- The leftmost bracket-tag match (match without the g flag). -/
def findBracketTag (tag : Str) (l : Str) : Option (Str × (Str × Str)) :=
  findFirstMap (matchBracketTagAt tag) l

/-- All non-overlapping matches of a bracket tag, left to right, together
with the text that remains after replacing every match by the empty string
(matchAll and replace with the g flag walk the same match positions). -/
def scanBracketTagAll (tag : Str) : Nat → Str → List Str × Str
  | 0, l => ([], l)
  | _ + 1, [] => ([], [])
  | fuel + 1, c :: cs =>
    match matchBracketTagAt tag (c :: cs) with
    | some (g, rest) =>
      let (gs, out) := scanBracketTagAll tag fuel rest
      (g :: gs, out)
    | none =>
      let (gs, out) := scanBracketTagAll tag fuel cs
      (gs, c :: out)

/-- All matches of PATTERNS.TAGS, `#([\w\-_]+)` with the g flag: the list of
lowercased groups and the text with every match removed. -/
def scanTagsGo : Nat → Str → List Str × Str
  | 0, l => ([], l)
  | _ + 1, [] => ([], [])
  | fuel + 1, c :: cs =>
    if c = '#' then
      let g := cs.takeWhile isTagChar
      if g.isEmpty then
        let (gs, out) := scanTagsGo fuel cs
        (gs, c :: out)
      else
        let (gs, out) := scanTagsGo fuel (cs.drop g.length)
        (toLowerStr g :: gs, out)
    else
      let (gs, out) := scanTagsGo fuel cs
      (gs, c :: out)

/-- Entry point of the TAGS scan with enough fuel for the whole string. -/
def scanTags (l : Str) : List Str × Str :=
  scanTagsGo (l.length + 1) l

/-- PATTERNS.TASK_LINE, `^(\s*)-\s+\[([ xX])\]\s+(.+)$`: the indent group,
the checkbox character and the content group. The trailing `\s+(.+)$` takes
the maximal whitespace run that still leaves content, and the content may
not contain a line terminator. -/
def matchTaskLine (l : Str) : Option (Str × Char × Str) :=
  let indent := l.takeWhile isWsChar
  match l.dropWhile isWsChar with
  | '-' :: r1 =>
    if (r1.takeWhile isWsChar).isEmpty then none
    else
      match r1.dropWhile isWsChar with
      | '[' :: m :: ']' :: r3 =>
        if m = ' ' || m = 'x' || m = 'X' then
          let w := r3.takeWhile isWsChar
          let c0 := r3.dropWhile isWsChar
          if w.isEmpty then none
          else if c0.isEmpty then
            match r3.getLast? with
            | some lastc =>
              if r3.length ≥ 2 && isDotChar lastc then some (indent, m, [lastc])
              else none
            | none => none
          else if c0.all isDotChar then some (indent, m, c0)
          else none
        else none
      | _ => none
  | _ => none

/-- PATTERNS.METADATA, `^\*\*(.+?):\*\*\s*(.*)$`: the lazy group grows until
the earliest `:**` whose remainder also matches `\s*(.*)$` (every group
character must be matched by the dot). Returns the raw first group and the
second group after the whitespace skip. -/
def metaFindGo : Str → Option (Str × Str)
  | [] => none
  | c :: cs =>
    if isDotChar c then
      if ((":**").data).isPrefixOf cs && ((cs.drop 3).dropWhile isWsChar).all isDotChar then
        some ([c], (cs.drop 3).dropWhile isWsChar)
      else
        match metaFindGo cs with
        | some (g, rest) => some (c :: g, rest)
        | none => none
    else none

/-- The whole METADATA match on a string: requires the leading `**`. -/
def matchMetadata (l : Str) : Option (Str × Str) :=
  match l with
  | '*' :: '*' :: r => metaFindGo r
  | _ => none

/-! ## Validators (src/utils/validation.ts) -/

/-- The ValidationResult record of src/types. -/
structure ValidationResult where
  isValid : Bool
  error : Option Str := none
  sanitizedValue : Option Str := none
deriving DecidableEq, Repr

/-- Gregorian leap year, as the JS Date normalization implements it. -/
def isLeapY (y : Int) : Bool :=
  y % 4 = 0 && (y % 100 ≠ 0 || y % 400 = 0)

/-- Days in a month of a year. -/
def daysInMonthC (y : Int) (m : Nat) : Nat :=
  if m = 2 then (if isLeapY y then 29 else 28)
  else if m = 4 || m = 6 || m = 9 || m = 11 then 30
  else 31

/-- Whether `new Date(y, m-1, d)` reproduces (y, m, d) through its getters:
the components must be in range, and the year at least 100 because the Date
constructor maps two-digit years into the twentieth century. -/
def jsValidYMD (y m d : Nat) : Bool :=
  100 ≤ y && 1 ≤ m && m ≤ 12 && 1 ≤ d && d ≤ daysInMonthC (y : Int) m

/-- validateDate of src/utils/validation.ts (empty input is valid with no
sanitized value; shape check, then calendar check through Date). -/
def validateDate (dateStr : Str) : ValidationResult :=
  if dateStr.isEmpty then { isValid := true }
  else
    let trimmed := jsTrim dateStr
    if !dateShape trimmed then
      { isValid := false, error := some (("Date must be in YYYY-MM-DD format").data) }
    else
      let y := parseNatDigits (trimmed.take 4)
      let m := parseNatDigits ((trimmed.drop 5).take 2)
      let d := parseNatDigits ((trimmed.drop 8).take 2)
      if jsValidYMD y m d then { isValid := true, sanitizedValue := some trimmed }
      else { isValid := false, error := some (("Invalid date value").data) }

/-- validateTaskText: non-empty after trim and at most 1000 characters. -/
def validateTaskText (text : Str) : ValidationResult :=
  let trimmed := jsTrim text
  if trimmed.isEmpty then
    { isValid := false, error := some (("Task text cannot be empty").data) }
  else if trimmed.length > 1000 then
    { isValid := false, error := some (("Task text exceeds maximum length").data) }
  else { isValid := true, sanitizedValue := some trimmed }

/-- validateOwner: empty is valid with no value; else the trimmed value must
be at most 50 characters and match `^[\w\s\-.']+$`. -/
def validateOwner (owner : Str) : ValidationResult :=
  if owner.isEmpty then { isValid := true }
  else
    let trimmed := jsTrim owner
    if trimmed.length > 50 then
      { isValid := false, error := some (("Owner name exceeds maximum length").data) }
    else if !trimmed.isEmpty && trimmed.all isOwnerChar then
      { isValid := true, sanitizedValue := some trimmed }
    else
      { isValid := false, error := some (("Owner name contains invalid characters").data) }

/-- validateProject: like validateOwner with limit 100 and `^[\w\s\-_]+$`. -/
def validateProject (project : Str) : ValidationResult :=
  if project.isEmpty then { isValid := true }
  else
    let trimmed := jsTrim project
    if trimmed.length > 100 then
      { isValid := false, error := some (("Project name exceeds maximum length").data) }
    else if !trimmed.isEmpty && trimmed.all isProjectChar then
      { isValid := true, sanitizedValue := some trimmed }
    else
      { isValid := false, error := some (("Project name contains invalid characters").data) }

/-- The fixed stage names of src/types/constants.ts. -/
def STAGES : List Str :=
  [("Requested").data, ("Staged").data, ("In-Progress").data,
   ("In-Review").data, ("Completed").data]

/-- validateStage against the fixed stages plus the custom stages. -/
def validateStage (stage : Str) (customStages : List Str) : ValidationResult :=
  if stage.isEmpty then { isValid := true }
  else
    let trimmed := jsTrim stage
    if (STAGES ++ customStages).contains trimmed then
      { isValid := true, sanitizedValue := some trimmed }
    else { isValid := false, error := some (("Invalid stage").data) }

/-- validateLineNumber on a Nat line index (the null and negative branches of
the source cannot arise in this embedding). -/
def validateLineNumber (lineNumber : Nat) (fileLength : Nat) : ValidationResult :=
  if lineNumber ≥ fileLength then
    { isValid := false, error := some (("Line number exceeds file length").data) }
  else { isValid := true }

/-! ## Text utilities (src/utils/textUtils.ts) -/

/-- The global replacement of the literal `**` by the empty string. -/
def stripBoldPairs : Str → Str
  | [] => []
  | '*' :: '*' :: r => stripBoldPairs r
  | c :: r => c :: stripBoldPairs r

/-- The character replacements of cleanText after the bold strip: pipe and
colon to dash, brackets to parentheses, newline to space, carriage return
removed. -/
def cleanTextChars (l : Str) : Str :=
  (l.map (fun c =>
    if c = '|' then '-'
    else if c = ':' then '-'
    else if c = '[' then '('
    else if c = ']' then ')'
    else if c = '\n' then ' '
    else c)).filter (· ≠ '\r')

/-- cleanText of src/utils/textUtils.ts. -/
def cleanText (l : Str) : Str :=
  jsTrim (cleanTextChars (stripBoldPairs l))

/-- The global removal of `<[^>]*>`: a left angle opens a removed region only
when a closing right angle follows; an unmatched left angle stays. -/
def stripAngleTags : Nat → Str → Str
  | 0, l => l
  | _ + 1, [] => []
  | fuel + 1, c :: cs =>
    if c = '<' then
      let inside := cs.takeWhile (· ≠ '>')
      match cs.drop inside.length with
      | '>' :: rest => stripAngleTags fuel rest
      | _ => c :: stripAngleTags fuel cs
    else c :: stripAngleTags fuel cs

/-- sanitizeOwner: null and empty are null; otherwise cleanText, angle-tag
removal, restriction to the owner character class, cut to 50, trim; empty
becomes null. -/
def sanitizeOwner (owner : Option Str) : Option Str :=
  match owner with
  | none => none
  | some s =>
    if s.isEmpty then none
    else
      let c := cleanText s
      let c := stripAngleTags (c.length + 1) c
      let c := jsTrim ((c.filter isOwnerChar).take 50)
      if c.isEmpty then none else some c

/-- sanitizeProject: like sanitizeOwner with the project class and limit 100
(and no angle-tag removal step). -/
def sanitizeProject (project : Option Str) : Option Str :=
  match project with
  | none => none
  | some s =>
    if s.isEmpty then none
    else
      let c := jsTrim (((cleanText s).filter isProjectChar).take 100)
      if c.isEmpty then none else some c

/-- sanitizeTaskText: newline and tab to space, carriage return removed,
whitespace runs collapsed, cut to 1000, trimmed. -/
def sanitizeTaskText (text : Str) : Str :=
  jsTrim ((collapseWs (((text.map (fun c => if c = '\n' then ' ' else c)).filter
    (· ≠ '\r')).map (fun c => if c = '\t' then ' ' else c))).take 1000)

/-- calculateIndentDepth: tabs count as two spaces, floor-divided by two. -/
def calculateIndentDepth (indent : Str) : Nat :=
  (indent.foldl (fun a c => a + (if c = '\t' then 2 else 1)) 0) / 2

/-! ## Dates (src/utils/dateUtils.ts)

JS Date values at day granularity are modeled as civil calendar dates; the
runtime local timezone is taken to be UTC, so `new Date("YYYY-MM-DD")` (UTC
midnight) and the local getters name the same civil date. -/

/-- A calendar date as the local getters of a JS Date expose it. -/
structure CivilDate where
  year : Int
  month : Nat
  day : Nat
deriving DecidableEq, Repr

/-- Days since the epoch of a civil date (the standard civil-from-days
algorithm; truncating division mirrors the reference arithmetic). -/
def civilToDays (y0 : Int) (m : Nat) (d : Nat) : Int :=
  let y : Int := if m ≤ 2 then y0 - 1 else y0
  let era : Int := (if 0 ≤ y then y else y - 399).tdiv 400
  let yoe : Int := y - era * 400
  let mp : Int := ((m : Int) + 9) % 12
  let doy : Int := (153 * mp + 2).tdiv 5 + (d : Int) - 1
  let doe : Int := yoe * 365 + yoe.tdiv 4 - yoe.tdiv 100 + doy
  era * 146097 + doe - 719468

/-- Civil date of a count of days since the epoch (inverse algorithm). -/
def daysToCivil (z0 : Int) : CivilDate :=
  let z := z0 + 719468
  let era : Int := (if 0 ≤ z then z else z - 146096).tdiv 146097
  let doe : Int := z - era * 146097
  let yoe : Int := (doe - doe.tdiv 1460 + doe.tdiv 36524 - doe.tdiv 146096).tdiv 365
  let y : Int := yoe + era * 400
  let doy : Int := doe - (365 * yoe + yoe.tdiv 4 - yoe.tdiv 100)
  let mp : Int := (5 * doy + 2).tdiv 153
  let d : Int := doy - (153 * mp + 2).tdiv 5 + 1
  let m : Int := if mp < 10 then mp + 3 else mp - 9
  { year := if m ≤ 2 then y + 1 else y, month := m.toNat, day := d.toNat }

/-- Date.prototype.getDay: 0 is Sunday; the epoch day was a Thursday. -/
def getDayOfWeek (c : CivilDate) : Nat :=
  ((civilToDays c.year c.month c.day + 4) % 7).toNat

/-- addDays of src/utils/dateUtils.ts (setDate normalizes through the
timestamp). -/
def addDaysC (c : CivilDate) (n : Int) : CivilDate :=
  daysToCivil (civilToDays c.year c.month c.day + n)

/-- addWeeks. -/
def addWeeksC (c : CivilDate) (n : Int) : CivilDate :=
  addDaysC c (n * 7)

/-- addMonths: setMonth keeps the day of month and lets the timestamp
normalization roll an oversized day into the next month. -/
def addMonthsC (c : CivilDate) (n : Int) : CivilDate :=
  let t : Int := c.year * 12 + (c.month : Int) - 1 + n
  let y : Int := t.fdiv 12
  let m : Nat := (t - y * 12 + 1).toNat
  daysToCivil (civilToDays y m c.day)

/-- addYears: setFullYear keeps month and day, normalized the same way. -/
def addYearsC (c : CivilDate) (n : Int) : CivilDate :=
  daysToCivil (civilToDays (c.year + n) c.month c.day)

/-- formatDateToISO: unpadded year, two-digit month and day. -/
def formatDateToISO (c : CivilDate) : Str :=
  intToStr c.year ++ '-' :: (pad2 c.month ++ '-' :: pad2 c.day)

/-- `new Date(s)` on a YYYY-MM-DD string: UTC midnight of that civil date
when the components form a calendar date, an invalid date otherwise. -/
def parseNewDateISO (s : Str) : Option CivilDate :=
  if dateShape s then
    let y := parseNatDigits (s.take 4)
    let m := parseNatDigits ((s.drop 5).take 2)
    let d := parseNatDigits ((s.drop 8).take 2)
    if 1 ≤ m && m ≤ 12 && 1 ≤ d && d ≤ daysInMonthC (y : Int) m then
      some { year := (y : Int), month := m, day := d }
    else none
  else none

/-! ## Core types (src/types/index.ts) -/

/-- The Priority union type. -/
inductive Priority
  | high
  | medium
  | low
deriving DecidableEq, Repr

/-- The string of a Priority value. -/
def priorityToStr : Priority → Str
  | .high => ("high").data
  | .medium => ("medium").data
  | .low => ("low").data

/-- PRIORITIES.includes on a lowercased string, returning the member. -/
def priorityFromLower (l : Str) : Option Priority :=
  if l = ("high").data then some .high
  else if l = ("medium").data then some .medium
  else if l = ("low").data then some .low
  else none

/-- The RecurrenceType union type. -/
inductive RecurrenceType
  | daily
  | weekly
  | monthly
  | yearly
  | custom
deriving DecidableEq, Repr

/-- RECURRENCE_TYPES.includes on a lowercased string, returning the member. -/
def recurrenceTypeFromStr (l : Str) : Option RecurrenceType :=
  if l = ("daily").data then some .daily
  else if l = ("weekly").data then some .weekly
  else if l = ("monthly").data then some .monthly
  else if l = ("yearly").data then some .yearly
  else if l = ("custom").data then some .custom
  else none

/-- The Recurrence record; the source field `type` is `rtype` here. -/
structure Recurrence where
  rtype : RecurrenceType
  interval : Option Nat := none
  daysOfWeek : Option (List Nat) := none
  endDate : Option Str := none
  rawString : Str
deriving DecidableEq, Repr

/-- The slice of the Obsidian TFile the engine reads: the vault path and the
basename (file name without extension). -/
structure TFile where
  path : Str
  basename : Str
deriving DecidableEq, Repr

/-- The Task record. `children` holds task ids (arena-style stand-in for the
object references the source stores). -/
structure Task where
  id : Str
  file : TFile
  lineNumber : Nat
  text : Str
  completed : Bool
  dueDate : Option Str
  owner : Option Str
  stage : Option Str
  project : Option Str
  completedDate : Option Str
  createdDate : Option Str
  rawLine : Str
  priority : Option Priority
  tags : List Str
  recurrence : Option Recurrence
  parentId : Option Str
  children : List Str
  depth : Nat
  indent : Str
  blockedBy : List Str
  blocks : List Str
  estimate : Option Str
  timeLogged : Option Str
deriving DecidableEq, Repr

/-- The ParsedMetadata record. -/
structure ParsedMetadata where
  owner : Option Str := none
  dueDate : Option Str := none
  stage : Option Str := none
  project : Option Str := none
  priority : Option Priority := none
  tags : List Str := []
  recurrence : Option Recurrence := none
  completedDate : Option Str := none
  createdDate : Option Str := none
  blockedBy : List Str := []
  blocks : List Str := []
  estimate : Option Str := none
  timeLogged : Option Str := none
deriving DecidableEq, Repr

/-- The nullish-coalescing operator on options. -/
def orO (a b : Option α) : Option α :=
  match a with
  | some x => some x
  | none => b

/-- `[...new Set(list)]`: duplicates removed, first occurrences kept in
order. -/
def dedupFirst : List Str → List Str
  | [] => []
  | x :: xs => x :: (dedupFirst xs).filter (· ≠ x)

/-! ## Recurrence parsing (parseRecurrence of src/core/taskParser.ts) -/

/-- The interval rule `^every\s+(\d+)\s+(day|days|week|weeks|month|months|year|years)$`
on the lowercased trimmed text: the count and the unit type. -/
def matchEveryInterval (text : Str) : Option (Nat × RecurrenceType) :=
  if (("every").data).isPrefixOf text then
    let r := text.drop 5
    if (r.takeWhile isWsChar).isEmpty then none
    else
      let r1 := r.dropWhile isWsChar
      let ds := r1.takeWhile isDigitChar
      if ds.isEmpty then none
      else
        let r2 := r1.drop ds.length
        if (r2.takeWhile isWsChar).isEmpty then none
        else
          let unit := r2.dropWhile isWsChar
          let units := [("day").data, ("days").data, ("week").data, ("weeks").data,
                        ("month").data, ("months").data, ("year").data, ("years").data]
          if units.contains unit then
            let ty :=
              if (("day").data).isPrefixOf unit then RecurrenceType.daily
              else if (("week").data).isPrefixOf unit then RecurrenceType.weekly
              else if (("month").data).isPrefixOf unit then RecurrenceType.monthly
              else if (("year").data).isPrefixOf unit then RecurrenceType.yearly
              else RecurrenceType.custom
            some (parseNatDigits ds, ty)
          else none
  else none

/-- One token `(?:mon|tue|wed|thu|fri|sat|sun)(?:day)?` at the head; returns
the rest after the token. -/
def matchDayToken (l : Str) : Option Str :=
  let codes := [("mon").data, ("tue").data, ("wed").data, ("thu").data,
                ("fri").data, ("sat").data, ("sun").data]
  match codes.find? (·.isPrefixOf l) with
  | some code =>
    let rest := l.drop code.length
    if (("day").data).isPrefixOf rest then some (rest.drop 3) else some rest
  | none => none

/-- The tail `(?:,\s*(?:mon|...)(?:day)?)*$` after the first token. -/
def matchDayListRest : Nat → Str → Bool
  | 0, _ => false
  | _ + 1, [] => true
  | fuel + 1, ',' :: r =>
    match matchDayToken (r.dropWhile isWsChar) with
    | some rest => matchDayListRest fuel rest
    | none => false
  | _ + 1, _ => false

/-- The day-name map of parseRecurrence. -/
def dayMapLookup (l : Str) : Option Nat :=
  if l = ("sun").data || l = ("sunday").data then some 0
  else if l = ("mon").data || l = ("monday").data then some 1
  else if l = ("tue").data || l = ("tuesday").data then some 2
  else if l = ("wed").data || l = ("wednesday").data then some 3
  else if l = ("thu").data || l = ("thursday").data then some 4
  else if l = ("fri").data || l = ("friday").data then some 5
  else if l = ("sat").data || l = ("saturday").data then some 6
  else none

/-- `replace(/day$/, '')`: drops one trailing `day`. -/
def stripDaySuffix (l : Str) : Str :=
  if (("yad").data).isPrefixOf l.reverse then l.take (l.length - 3) else l

/-- The day-list rule of parseRecurrence: shape check with the regex, then
the group split on commas, trimmed, suffix-stripped and mapped through the
day map. -/
def matchDaysList (text : Str) : Option (List Nat) :=
  if (("every").data).isPrefixOf text then
    let r := text.drop 5
    if (r.takeWhile isWsChar).isEmpty then none
    else
      let g := r.dropWhile isWsChar
      match matchDayToken g with
      | some rest =>
        if matchDayListRest (rest.length + 1) rest then
          some (((((jsSplit ',' g).map jsTrim).map stripDaySuffix).filterMap dayMapLookup))
        else none
      | none => none
  else none

/-- parseRecurrence of src/core/taskParser.ts. -/
def parseRecurrence (recurrenceStr : Str) : Option Recurrence :=
  let text := toLowerStr (jsTrim recurrenceStr)
  match recurrenceTypeFromStr text with
  | some ty => some { rtype := ty, rawString := recurrenceStr }
  | none =>
    match matchEveryInterval text with
    | some (i, ty) => some { rtype := ty, interval := some i, rawString := recurrenceStr }
    | none =>
      match matchDaysList text with
      | some ds => some { rtype := .weekly, daysOfWeek := some ds, rawString := recurrenceStr }
      | none =>
        if text = ("weekdays").data then
          some { rtype := .weekly, daysOfWeek := some [1, 2, 3, 4, 5], rawString := recurrenceStr }
        else if text = ("weekends").data then
          some { rtype := .weekly, daysOfWeek := some [0, 6], rawString := recurrenceStr }
        else none

/-! ## Metadata parsing (src/core/taskParser.ts) -/

/-- The project fallback of one classification step: a part that reached the
end of the chain is tried as project when none is set yet. -/
def tryProjectPart (acc : ParsedMetadata) (part : Str) : ParsedMetadata :=
  if acc.project.isNone then
    let v := validateProject part
    if v.isValid && v.sanitizedValue.isSome then { acc with project := v.sanitizedValue }
    else acc
  else acc

/-- One iteration of the part loop of parseMetadataString: date (validated),
stage, priority, then first free part as owner and the next as project. -/
def classifyPart (allStages : List Str) (acc : ParsedMetadata) (part : Str) : ParsedMetadata :=
  match matchDueDate part with
  | some d =>
    let v := validateDate d
    if v.isValid && v.sanitizedValue.isSome then { acc with dueDate := v.sanitizedValue }
    else acc
  | none =>
    if allStages.contains part then { acc with stage := some part }
    else
      match priorityFromLower (toLowerStr part) with
      | some p => { acc with priority := some p }
      | none =>
        if acc.owner.isNone then
          let v := validateOwner part
          if v.isValid && v.sanitizedValue.isSome then { acc with owner := v.sanitizedValue }
          else tryProjectPart acc part
        else tryProjectPart acc part

/-- parseMetadataString: the delimited branch folds the classification over
the trimmed non-empty parts; the single-value branch tries date shape, stage,
priority, then owner, unvalidated. -/
def parseMetadataString (metadataStr : Str) (customStages : List Str) : ParsedMetadata :=
  let allStages := STAGES ++ customStages
  if containsChar '|' metadataStr then
    let parts := ((jsSplit '|' metadataStr).map jsTrim).filter (¬ ·.isEmpty)
    parts.foldl (classifyPart allStages) {}
  else
    if dateShape metadataStr then { dueDate := some metadataStr }
    else if allStages.contains metadataStr then { stage := some metadataStr }
    else
      match priorityFromLower (toLowerStr metadataStr) with
      | some p => { priority := some p }
      | none => { owner := some metadataStr }

/-- Modelled from the spec: the members BLOCKED_BY, BLOCKS, ESTIMATE and
TIME_LOGGED of PATTERNS are referenced by extractInlineMetadata but are not
defined in any repository file under src (the PATTERNS table of
src/types/constants.ts stops at TAGS). The spec gives their grammar as the
bracket tags `[blocked-by:<ref>[,<ref>...]]`, `[blocks:<ref>[,<ref>...]]`,
`[estimate:<duration>]` and `[logged:<duration>]`, so they are modelled in
the shape of the neighbouring RECURRENCE pattern: literal opener, a group of
one or more non-bracket characters, a closing bracket; the first two carry
the g flag (they are consumed with matchAll and a global replace), the last
two are single-match. -/
def blockedByOpener : Str := ("[blocked-by:").data

/-- Modelled from the spec: the opener of the BLOCKS pattern (see
blockedByOpener). -/
def blocksOpener : Str := ("[blocks:").data

/-- Modelled from the spec: the opener of the ESTIMATE pattern (see
blockedByOpener). -/
def estimateOpener : Str := ("[estimate:").data

/-- Modelled from the spec: the opener of the TIME_LOGGED pattern (see
blockedByOpener). -/
def loggedOpener : Str := ("[logged:").data

/-- The comma split of one dependency-tag group: ids trimmed, empties
dropped. -/
def splitRefs (g : Str) : List Str :=
  ((jsSplit ',' g).map jsTrim).filter (¬ ·.isEmpty)

/-- Stage one of extractInlineMetadata: the COMPLETED_DATE extraction of
src/core/taskParser.ts (match, record the group, remove the match, trim). -/
def exDone (s : Str × ParsedMetadata) : Str × ParsedMetadata :=
  match findDone s.1 with
  | some (pre, d) => (jsTrim pre, { s.2 with completedDate := some d })
  | none => (s.1, { s.2 with completedDate := none })

/-- Stage two: the CREATED_DATE extraction. -/
def exCreated (s : Str × ParsedMetadata) : Str × ParsedMetadata :=
  match findCreated s.1 with
  | some (pre, d) => (jsTrim pre, { s.2 with createdDate := some d })
  | none => (s.1, { s.2 with createdDate := none })

/-- Stage three: the PRIORITY extraction (the lowercased group word mapped
through the priority table, match removed, trim). -/
def exPriority (s : Str × ParsedMetadata) : Str × ParsedMetadata :=
  match findPriority s.1 with
  | some (pre, w, post) => (jsTrim (pre ++ post), { s.2 with priority := priorityFromLower w })
  | none => (s.1, { s.2 with priority := none })

/-- Stage four: the RECURRENCE extraction (the raw group fed to
parseRecurrence, match removed, trim). -/
def exRepeat (s : Str × ParsedMetadata) : Str × ParsedMetadata :=
  match findRepeat s.1 with
  | some (pre, g, post) => (jsTrim (pre ++ post), { s.2 with recurrence := parseRecurrence g })
  | none => (s.1, { s.2 with recurrence := none })

/-- Stage five: the global BLOCKED_BY extraction (all matches collected,
groups comma-split, every match removed, trim). -/
def exBlockedBy (s : Str × ParsedMetadata) : Str × ParsedMetadata :=
  let (gs, out) := scanBracketTagAll blockedByOpener (s.1.length + 1) s.1
  (jsTrim out, { s.2 with blockedBy := gs.flatMap splitRefs })

/-- Stage six: the global BLOCKS extraction. -/
def exBlocks (s : Str × ParsedMetadata) : Str × ParsedMetadata :=
  let (gs, out) := scanBracketTagAll blocksOpener (s.1.length + 1) s.1
  (jsTrim out, { s.2 with blocks := gs.flatMap splitRefs })

/-- Stage seven: the ESTIMATE extraction (first match only, group trimmed;
no trim of the working text on a miss). -/
def exEstimate (s : Str × ParsedMetadata) : Str × ParsedMetadata :=
  match findBracketTag estimateOpener s.1 with
  | some (pre, g, post) => (jsTrim (pre ++ post), { s.2 with estimate := some (jsTrim g) })
  | none => (s.1, { s.2 with estimate := none })

/-- Stage eight: the TIME_LOGGED extraction. -/
def exLogged (s : Str × ParsedMetadata) : Str × ParsedMetadata :=
  match findBracketTag loggedOpener s.1 with
  | some (pre, g, post) => (jsTrim (pre ++ post), { s.2 with timeLogged := some (jsTrim g) })
  | none => (s.1, { s.2 with timeLogged := none })

/-- Stage nine: the global TAGS extraction (lowercased groups collected,
matches removed, trim). -/
def exTags (s : Str × ParsedMetadata) : Str × ParsedMetadata :=
  let (gs, out) := scanTags s.1
  (jsTrim out, { s.2 with tags := gs })

/-- Stage ten: the whitespace collapse and final trim of the display text. -/
def exCollapse (s : Str × ParsedMetadata) : Str × ParsedMetadata :=
  (jsTrim (collapseWs s.1), s.2)

/-- extractInlineMetadata of src/core/taskParser.ts: the extraction sequence
completed date, created date, priority, recurrence, blocked-by, blocks,
estimate, logged, tags, then the whitespace collapse; each matched token is
removed from the working text (with a trim) before the next stage. -/
def extractInlineMetadata (text : Str) : Str × ParsedMetadata :=
  exCollapse (exTags (exLogged (exEstimate (exBlocks (exBlockedBy
    (exRepeat (exPriority (exCreated (exDone (text, {}))))))))))

/-! ## Line parsing (parseTaskLine of src/core/taskParser.ts) -/

/-- The task id, `${file.path}:${lineNumber}`. -/
def taskId (file : TFile) (lineNumber : Nat) : Str :=
  file.path ++ ':' :: natToStr lineNumber

/-- parseTaskLine: checklist-grammar match, inline extraction, optional
structured-metadata block with the precedence merge, and assembly of the
Task record. -/
def parseTaskLine (line : Str) (file : TFile) (lineNumber : Nat)
    (customStages : List Str) : Option Task :=
  match matchTaskLine line with
  | none => none
  | some (indent, m, taskContent) =>
    let completed := m.toLower = 'x'
    let (cleanT, inline) := extractInlineMetadata taskContent
    let taskData : ParsedMetadata :=
      { owner := none, dueDate := none, stage := none, project := none,
        priority := inline.priority, tags := inline.tags,
        recurrence := inline.recurrence,
        completedDate := inline.completedDate, createdDate := inline.createdDate,
        blockedBy := inline.blockedBy, blocks := inline.blocks,
        estimate := inline.estimate, timeLogged := inline.timeLogged }
    let (taskData, displayText) :=
      match matchMetadata cleanT with
      | some (g1, g2) =>
        let metadataStr := jsTrim g1
        let displayText := jsTrim g2
        let pm := parseMetadataString metadataStr customStages
        ({ pm with
            priority := orO taskData.priority pm.priority,
            tags := dedupFirst (taskData.tags ++ pm.tags),
            recurrence := orO taskData.recurrence pm.recurrence,
            completedDate := orO taskData.completedDate pm.completedDate,
            createdDate := orO taskData.createdDate pm.createdDate,
            blockedBy := dedupFirst (taskData.blockedBy ++ pm.blockedBy),
            blocks := dedupFirst (taskData.blocks ++ pm.blocks) },
         displayText)
      | none => (taskData, cleanT)
    some
      { id := taskId file lineNumber
        file := file
        lineNumber := lineNumber
        text := displayText
        completed := completed
        dueDate := taskData.dueDate
        owner := taskData.owner
        stage := taskData.stage
        project := taskData.project
        completedDate := taskData.completedDate
        rawLine := line
        priority := taskData.priority
        tags := taskData.tags
        recurrence := taskData.recurrence
        parentId := none
        children := []
        depth := calculateIndentDepth indent
        indent := indent
        createdDate := taskData.createdDate
        blockedBy := taskData.blockedBy
        blocks := taskData.blocks
        estimate := orO taskData.estimate inline.estimate
        timeLogged := orO taskData.timeLogged inline.timeLogged }

/-! ## Task updater (src/core/taskUpdater.ts) -/

/-- The slice of the plugin settings the embedded core reads. -/
structure Settings where
  customStages : List Str := []
  excludedFolders : List Str := []
  excludedPatterns : List Str := []
  recurringAutoCreate : Bool := true
deriving Repr

/-- The update payload of updateTask: an outer none is an absent property, an
inner none the explicit null of the source. -/
structure TaskUpdates where
  completed : Option Bool := none
  text : Option Str := none
  owner : Option (Option Str) := none
  dueDate : Option (Option Str) := none
  stage : Option (Option Str) := none
  project : Option (Option Str) := none
  priority : Option (Option Priority) := none
  tags : Option (List Str) := none
deriving Repr

/-- TaskUpdateResult of src/types. -/
structure TaskUpdateResult where
  success : Bool
  error : Option Str := none
  task : Option Task := none
deriving DecidableEq, Repr

/-- UndoEntry of src/types. -/
structure UndoEntry where
  filePath : Str
  lineNumber : Nat
  originalLine : Str
  newLine : Str
  timestamp : Nat
deriving DecidableEq, Repr

/-- TaskCreateOptions of src/types. -/
structure TaskCreateOptions where
  owner : Option Str := none
  dueDate : Option Str := none
  project : Option Str := none
  stage : Option Str := none
  priority : Option Priority := none
  tags : Option (List Str) := none
  atLine : Option Nat := none
deriving Repr

/-- The mutable state the updater touches: the vault as a path-to-content
map, and the bounded undo stack. -/
structure UpdaterState where
  vault : List (Str × Str)
  undoStack : List UndoEntry
deriving DecidableEq, Repr

/-- vault.read by path. -/
def vaultRead (v : List (Str × Str)) (p : Str) : Option Str :=
  (v.find? (·.1 = p)).map (·.2)

/-- vault.modify: replace the whole content of the file at a path. -/
def vaultModify (v : List (Str × Str)) (p : Str) (c : Str) : List (Str × Str) :=
  v.map (fun q => if q.1 = p then (q.1, c) else q)

/-- JS truthiness of an optional string. -/
def truthyS (o : Option Str) : Bool :=
  match o with
  | some s => !s.isEmpty
  | none => false

/-- Array.prototype.join with a separator string. -/
def joinWithSep (sep : Str) : List Str → Str
  | [] => []
  | [x] => x
  | x :: xs => x ++ sep ++ joinWithSep sep xs

/-- splice(i, 0, x): insertion with the start index clamped to the length. -/
def insertAtClamped (l : List α) (i : Nat) (x : α) : List α :=
  l.take i ++ x :: l.drop i

/-- JS array index assignment: beyond the end it leaves holes, which join
renders as empty strings. -/
def jsArraySet (l : List Str) (i : Nat) (x : Str) : List Str :=
  if i < l.length then l.set i x
  else l ++ List.replicate (i - l.length) [] ++ [x]

/-- pushUndo: append, then evict the oldest entry past 50. -/
def pushUndo (stack : List UndoEntry) (e : UndoEntry) : List UndoEntry :=
  let s := stack ++ [e]
  if s.length > 50 then s.drop 1 else s

/-- buildUpdatedLine of src/core/taskUpdater.ts. The structured block holds
owner, due date, stage and project in that order; then the priority tag, the
recurrence tag (always the raw rule string, which the Recurrence record
carries on every value), the hashtags, the completion-date tag (stamped with
today when the line flips to complete, else the stored date while complete),
and the created-date tag. -/
def buildUpdatedLine (today : CivilDate) (task : Task) (updates : TaskUpdates) : Str :=
  let completed := updates.completed.getD task.completed
  let checkbox := if completed then 'x' else ' '
  let owner := match updates.owner with
    | some v => sanitizeOwner v
    | none => task.owner
  let dueDate := updates.dueDate.getD task.dueDate
  let stage := updates.stage.getD task.stage
  let project := match updates.project with
    | some v => sanitizeProject v
    | none => task.project
  let priority := updates.priority.getD task.priority
  let text := match updates.text with
    | some v => sanitizeTaskText v
    | none => task.text
  let tags := updates.tags.getD task.tags
  let metadataParts :=
    (([owner, dueDate, stage, project].filterMap id).filter (¬ ·.isEmpty))
  let taskLine :=
    if !metadataParts.isEmpty then
      ("**").data ++ joinWithSep ((" | ").data) metadataParts ++ (":** ").data ++ text
    else text
  let taskLine :=
    match priority with
    | some p => taskLine ++ (" [priority:").data ++ priorityToStr p ++ [']']
    | none => taskLine
  let taskLine :=
    match task.recurrence with
    | some r => taskLine ++ (" [repeat:").data ++ r.rawString ++ [']']
    | none => taskLine
  let taskLine :=
    if !tags.isEmpty then
      taskLine ++ ' ' :: joinWithSep ([' ']) (tags.map ('#' :: ·))
    else taskLine
  let taskLine :=
    if completed && !task.completed then
      taskLine ++ (" [done:").data ++ formatDateToISO today ++ [']']
    else if truthyS task.completedDate && completed then
      taskLine ++ (" [done:").data ++ task.completedDate.getD [] ++ [']']
    else taskLine
  let taskLine :=
    if truthyS task.createdDate then
      taskLine ++ (" [created:").data ++ task.createdDate.getD [] ++ [']']
    else taskLine
  task.indent ++ ("- [").data ++ checkbox :: ("] ").data ++ taskLine

/-- The first validation error of the optional createTask fields, in source
order (owner, due date, project, stage); absent or empty fields skip their
check. -/
def createTaskFieldError (settings : Settings) (options : TaskCreateOptions) : Option Str :=
  let e1 := if truthyS options.owner && !(validateOwner (options.owner.getD [])).isValid
    then (validateOwner (options.owner.getD [])).error else none
  let e2 := if truthyS options.dueDate && !(validateDate (options.dueDate.getD [])).isValid
    then (validateDate (options.dueDate.getD [])).error else none
  let e3 := if truthyS options.project && !(validateProject (options.project.getD [])).isValid
    then (validateProject (options.project.getD [])).error else none
  let e4 := if truthyS options.stage &&
      !(validateStage (options.stage.getD []) settings.customStages).isValid
    then (validateStage (options.stage.getD []) settings.customStages).error else none
  orO e1 (orO e2 (orO e3 e4))

/-- createTask of src/core/taskUpdater.ts over the content of the target
document: validates the text and the supplied fields, builds the new line
(structured block, priority tag, hashtags, created-date stamp), and inserts
it at atLine if given, else at the end; the insertion index is the splice
start, which JS clamps to the line count. Returns the result and the new
content (unchanged on a validation failure). -/
def createTask (settings : Settings) (today : CivilDate) (content : Str)
    (text : Str) (options : TaskCreateOptions) : TaskUpdateResult × Str :=
  let tv := validateTaskText text
  if !tv.isValid then ({ success := false, error := tv.error }, content)
  else
    match createTaskFieldError settings options with
    | some e => ({ success := false, error := some e }, content)
    | none =>
      let metadataParts :=
        (if truthyS options.owner then [(sanitizeOwner options.owner).getD (("null").data)] else []) ++
        (if truthyS options.dueDate then [options.dueDate.getD []] else []) ++
        (if truthyS options.stage then [options.stage.getD []] else []) ++
        (if truthyS options.project then [(sanitizeProject options.project).getD (("null").data)] else [])
      let taskLine := sanitizeTaskText text
      let taskLine :=
        if !metadataParts.isEmpty then
          ("**").data ++ joinWithSep ((" | ").data) metadataParts ++ (":** ").data ++ taskLine
        else taskLine
      let taskLine :=
        match options.priority with
        | some p => taskLine ++ (" [priority:").data ++ priorityToStr p ++ [']']
        | none => taskLine
      let taskLine :=
        match options.tags with
        | some ts =>
          if !ts.isEmpty then taskLine ++ ' ' :: joinWithSep ([' ']) (ts.map ('#' :: ·))
          else taskLine
        | none => taskLine
      let taskLine := taskLine ++ (" [created:").data ++ formatDateToISO today ++ [']']
      let fullLine := ("- [ ] ").data ++ taskLine
      let lines := jsSplit '\n' content
      let insertAt := options.atLine.getD lines.length
      let lines := insertAtClamped lines (min insertAt lines.length) fullLine
      ({ success := true }, joinLines lines)

/-- Ascending stable insertion for the numeric sort `(a, b) => a - b`. -/
def insertNatAsc (x : Nat) : List Nat → List Nat
  | [] => [x]
  | y :: ys => if y ≤ x then y :: insertNatAsc x ys else x :: y :: ys

/-- The numeric ascending sort of the weekday list. -/
def sortNatsAsc : List Nat → List Nat
  | [] => []
  | x :: xs => insertNatAsc x (sortNatsAsc xs)

/-- calculateNextDueDate of src/core/taskUpdater.ts. The base date is the
current due date (or today when absent); a stored due date that is not a
calendar date makes an invalid JS Date, modeled as no result. Daily and
custom add the interval in days; weekly with a non-empty weekday set moves
to the next listed weekday after the base weekday, wrapping to the first
listed weekday of the next week, and ignores the interval; weekly without a
set adds interval weeks; monthly and yearly add interval months and years. -/
def calculateNextDueDate (today : CivilDate) (currentDueDate : Option Str)
    (recurrence : Recurrence) : Option Str :=
  let baseO := match currentDueDate with
    | some s => parseNewDateISO s
    | none => some today
  match baseO with
  | none => none
  | some base =>
    let interval : Nat := recurrence.interval.getD 1
    match recurrence.rtype with
    | .daily => some (formatDateToISO (addDaysC base interval))
    | .weekly =>
      match recurrence.daysOfWeek with
      | some days =>
        if !days.isEmpty then
          let currentDay := getDayOfWeek base
          let sortedDays := sortNatsAsc days
          match sortedDays.find? (fun d => decide (currentDay < d)) with
          | some nextDay => some (formatDateToISO (addDaysC base ((nextDay : Int) - currentDay)))
          | none =>
            match sortedDays with
            | nextDay :: _ =>
              some (formatDateToISO (addDaysC base ((7 : Int) - currentDay + nextDay)))
            | [] => none
        else some (formatDateToISO (addWeeksC base interval))
      | none => some (formatDateToISO (addWeeksC base interval))
    | .monthly => some (formatDateToISO (addMonthsC base interval))
    | .yearly => some (formatDateToISO (addYearsC base interval))
    | .custom => some (formatDateToISO (addDaysC base interval))

/-- createNextRecurrence of src/core/taskUpdater.ts over the vault: when
auto-creation is on, a next due date exists and does not pass the end date,
the next occurrence is created in the task's own document through createTask
with the current field values as template and stage Requested. Returns the
vault after the write (unchanged when nothing is created or the document is
unreadable). -/
def createNextRecurrence (settings : Settings) (today : CivilDate)
    (vault : List (Str × Str)) (task : Task) : List (Str × Str) :=
  match task.recurrence with
  | none => vault
  | some rec =>
    if !settings.recurringAutoCreate then vault
    else
      match calculateNextDueDate today task.dueDate rec with
      | none => vault
      | some nextDueDate =>
        let pastEnd := match rec.endDate with
          | some e => strLtB e nextDueDate
          | none => false
        if pastEnd then vault
        else
          match vaultRead vault task.file.path with
          | none => vault
          | some content =>
            let (_, c2) := createTask settings today content task.text
              { owner := task.owner, dueDate := some nextDueDate,
                project := task.project, stage := some (("Requested").data),
                priority := task.priority, tags := some task.tags }
            vaultModify vault task.file.path c2

/-- updateTask of src/core/taskUpdater.ts: read the document, validate the
line index, require the current line to equal the captured rawLine (the
optimistic concurrency check), build the new line, push the undo entry,
write the whole document back, and on a completion flip of a recurring task
create the next occurrence. Failures return the state untouched. -/
def updateTask (settings : Settings) (today : CivilDate) (now : Nat)
    (st : UpdaterState) (task : Task) (updates : TaskUpdates) :
    TaskUpdateResult × UpdaterState :=
  match vaultRead st.vault task.file.path with
  | none => ({ success := false, error := some (("File not found").data) }, st)
  | some content =>
    let lines := jsSplit '\n' content
    let lv := validateLineNumber task.lineNumber lines.length
    if !lv.isValid then ({ success := false, error := lv.error }, st)
    else
      let currentLine := lines.getD task.lineNumber []
      if currentLine ≠ task.rawLine then
        ({ success := false,
           error := some (("Task has been modified. Please refresh and try again.").data) }, st)
      else
        let updatedLine := buildUpdatedLine today task updates
        let stack := pushUndo st.undoStack
          { filePath := task.file.path, lineNumber := task.lineNumber,
            originalLine := currentLine, newLine := updatedLine, timestamp := now }
        let newContent := joinLines (lines.set task.lineNumber updatedLine)
        let vault := vaultModify st.vault task.file.path newContent
        let vault :=
          if updates.completed = some true && task.recurrence.isSome && !task.completed then
            createNextRecurrence settings today vault task
          else vault
        let updatedTask : Task :=
          { task with
              rawLine := updatedLine,
              completed := updates.completed.getD task.completed,
              text := updates.text.getD task.text,
              owner := updates.owner.getD task.owner,
              dueDate := updates.dueDate.getD task.dueDate,
              stage := updates.stage.getD task.stage,
              project := updates.project.getD task.project,
              priority := updates.priority.getD task.priority,
              tags := updates.tags.getD task.tags }
        ({ success := true, task := some updatedTask },
         { vault := vault, undoStack := stack })

/-- toggleTask: flip completion; completing sets stage Completed, while
un-completing clears the stage only when it was Completed. -/
def toggleTask (settings : Settings) (today : CivilDate) (now : Nat)
    (st : UpdaterState) (task : Task) : TaskUpdateResult × UpdaterState :=
  let newCompleted := !task.completed
  updateTask settings today now st task
    { completed := some newCompleted,
      stage := some (if newCompleted then some (("Completed").data)
        else if task.stage = some (("Completed").data) then none else task.stage) }

/-- deleteTask of src/core/taskUpdater.ts: same staleness check (an
out-of-range index reads undefined, which never equals the captured line),
then the line is spliced out and the document rewritten. -/
def deleteTask (now : Nat) (st : UpdaterState) (task : Task) :
    TaskUpdateResult × UpdaterState :=
  match vaultRead st.vault task.file.path with
  | none => ({ success := false, error := some (("read failed").data) }, st)
  | some content =>
    let lines := jsSplit '\n' content
    if lines.get? task.lineNumber ≠ some task.rawLine then
      ({ success := false,
         error := some (("Task has been modified. Please refresh and try again.").data) }, st)
    else
      let stack := pushUndo st.undoStack
        { filePath := task.file.path, lineNumber := task.lineNumber,
          originalLine := task.rawLine, newLine := [], timestamp := now }
      let lines := lines.take task.lineNumber ++ lines.drop (task.lineNumber + 1)
      let vault := vaultModify st.vault task.file.path (joinLines lines)
      ({ success := true }, { vault := vault, undoStack := stack })

/-- undo of src/core/taskUpdater.ts: pop the most recent entry (before any
check), and apply it by its stored data alone: a delete entry re-inserts the
original line at the stored index, any other entry overwrites the line at
the stored index with the original text; the current document content is
never compared against the entry. -/
def undo (st : UpdaterState) : TaskUpdateResult × UpdaterState :=
  match st.undoStack.getLast? with
  | none => ({ success := false, error := some (("Nothing to undo").data) }, st)
  | some entry =>
    let stack := st.undoStack.dropLast
    match vaultRead st.vault entry.filePath with
    | none => ({ success := false, error := some (("File not found").data) },
               { st with undoStack := stack })
    | some content =>
      let lines := jsSplit '\n' content
      let lines :=
        if entry.newLine.isEmpty then insertAtClamped lines entry.lineNumber entry.originalLine
        else jsArraySet lines entry.lineNumber entry.originalLine
      let vault := vaultModify st.vault entry.filePath (joinLines lines)
      ({ success := true }, { vault := vault, undoStack := stack })

/-! ## Hierarchy builder (buildTaskHierarchy of src/core/taskParser.ts) -/

/-- The sort comparator of buildTaskHierarchy: path order first (localeCompare
modeled as code-unit lexicographic order), then ascending line number. -/
def taskCmpLe (a b : Task) : Bool :=
  if a.file.path = b.file.path then a.lineNumber ≤ b.lineNumber
  else strLtB a.file.path b.file.path

/-- Stable insertion of one task into an already sorted list: placed after
every element that compares less-or-equal, as the stable Array sort does. -/
def orderedInsertTask (x : Task) : List Task → List Task
  | [] => [x]
  | y :: ys => if taskCmpLe y x then y :: orderedInsertTask x ys else x :: y :: ys

/-- The stable sort `[...tasks].sort(comparator)` as a left fold of stable
insertions. -/
def sortTasks (l : List Task) : List Task :=
  l.foldl (fun acc x => orderedInsertTask x acc) []

/-- The fold state of the hierarchy pass: the processed tasks in processing
order, the candidate-ancestor stack and the root list, the latter two as
indices into the processed list (standing in for the shared object
references of the source). -/
structure HierState where
  out : List Task
  stack : List Nat
  roots : List Nat
deriving Repr

/-- Pop the stack while its top is from another document or at depth not
smaller than the current task. -/
def hierPop (out : List Task) (t : Task) : List Nat → List Nat
  | [] => []
  | i :: is =>
    match out.get? i with
    | some top =>
      if top.file.path ≠ t.file.path || top.depth ≥ t.depth then hierPop out t is
      else i :: is
    | none => i :: is

/-- One iteration of the hierarchy loop: reset the links of the task, pop
non-ancestors, then either attach to the new stack top (recording the parent
id on the child and the child id on the parent) or record a root; the task
is pushed on the stack either way. -/
def hierStep (acc : HierState) (task : Task) : HierState :=
  let t0 := { task with children := [], parentId := none }
  let stack := hierPop acc.out t0 acc.stack
  match stack with
  | i :: _ =>
    if t0.depth > 0 then
      match acc.out.get? i with
      | some parent =>
        let out := acc.out.set i { parent with children := parent.children ++ [t0.id] }
        { out := out ++ [{ t0 with parentId := some parent.id }],
          stack := acc.out.length :: stack, roots := acc.roots }
      | none =>
        { out := acc.out ++ [t0], stack := acc.out.length :: stack,
          roots := acc.roots ++ [acc.out.length] }
    else
      { out := acc.out ++ [t0], stack := acc.out.length :: stack,
        roots := acc.roots ++ [acc.out.length] }
  | [] =>
    { out := acc.out ++ [t0], stack := [acc.out.length],
      roots := acc.roots ++ [acc.out.length] }

/-- The whole hierarchy pass over the sorted input. -/
def buildHierarchyState (tasks : List Task) : HierState :=
  (sortTasks tasks).foldl hierStep { out := [], stack := [], roots := [] }

/-- buildTaskHierarchy: the returned root tasks, read off the processed list
so that child links pushed after a root was recorded are visible. -/
def buildTaskHierarchy (tasks : List Task) : List Task :=
  let s := buildHierarchyState tasks
  s.roots.filterMap (s.out.get? ·)

/-! ## Document cache (src/core/taskCache.ts) -/

/-- A document of the external store as the cache sees it: identity, parent
folder path, modification timestamp, and the outcome of reading it (the
error side models a read or parse that throws). -/
structure VaultFile where
  path : Str
  basename : Str
  parentPath : Str
  mtime : Nat
  content : Except Str Str

/-- The TFile slice of a vault file. -/
def VaultFile.toTFile (vf : VaultFile) : TFile :=
  { path := vf.path, basename := vf.basename }

/-- parseTasksFromFile of src/core/taskParser.ts: read the document and parse
every line; a thrown read error is caught and logged, leaving the tasks
gathered so far (none, as the read comes first). -/
def parseTasksFromFile (settings : Settings) (vf : VaultFile) : List Task :=
  match vf.content with
  | .error _ => []
  | .ok c =>
    ((jsSplit '\n' c).enum).filterMap
      (fun p => parseTaskLine p.2 vf.toTFile p.1 settings.customStages)

/-- CacheEntry of src/types. -/
structure CacheEntryM where
  tasks : List Task
  lastModified : Nat
deriving DecidableEq, Repr

/-- The counters of CacheStats. -/
structure CacheStats where
  totalFiles : Nat := 0
  cachedFiles : Nat := 0
  totalTasks : Nat := 0
  completedTasks : Nat := 0
  incompleteTasks : Nat := 0
  hits : Nat := 0
  misses : Nat := 0
  lastRefresh : Nat := 0
deriving DecidableEq, Repr

/-- A JS Map with string keys: an association list in insertion order; set
replaces in place, get takes the unique entry. -/
def amGet (m : List (Str × α)) (k : Str) : Option α :=
  (m.find? (·.1 = k)).map (·.2)

/-- Map.prototype.set: replace the value of an existing key in place, append
a new key at the end. -/
def amSet (m : List (Str × α)) (k : Str) (v : α) : List (Str × α) :=
  if m.any (·.1 = k) then m.map (fun e => if e.1 = k then (k, v) else e)
  else m ++ [(k, v)]

/-- The mutable state of the TaskCache instance. -/
structure CacheState where
  cache : List (Str × CacheEntryM)
  allTasks : List Task
  stats : CacheStats
deriving Repr

/-- Backslashes normalized to slashes (Windows compatibility). -/
def normalizeSlashes (l : Str) : Str :=
  l.map (fun c => if c = '\\' then '/' else c)

/-- Whether `suffix` ends `l`. -/
def endsWithStr (suffix l : Str) : Bool :=
  suffix.reverse.isPrefixOf l.reverse

/-- The glob of matchGlob: star for any run, question mark for one
character, everything else literal, anchored at both ends. -/
def globMatch : Nat → Str → Str → Bool
  | 0, _, _ => false
  | _ + 1, [], [] => true
  | _ + 1, [], _ :: _ => false
  | fuel + 1, '*' :: ps, s =>
    globMatch fuel ps s ||
      (match s with
       | [] => false
       | _ :: s2 => globMatch fuel ('*' :: ps) s2)
  | _ + 1, '?' :: _, [] => false
  | fuel + 1, '?' :: ps, _ :: s2 => globMatch fuel ps s2
  | _ + 1, _ :: _, [] => false
  | fuel + 1, p :: ps, c :: s2 => p = c && globMatch fuel ps s2

/-- matchGlob of src/core/taskCache.ts. -/
def matchGlob (path pattern : Str) : Bool :=
  globMatch (path.length + pattern.length + 1) pattern path

/-- shouldParseFile: markdown extension, folder not excluded (exact or
proper-prefix match after slash normalization), path matching no excluded
glob. -/
def shouldParseFile (settings : Settings) (vf : VaultFile) : Bool :=
  if !endsWithStr ((".md").data) vf.path then false
  else
    let folderPath := vf.parentPath
    if settings.excludedFolders.any (fun ex =>
        let n := normalizeSlashes ex
        folderPath = n || (n ++ ['/']).isPrefixOf folderPath) then false
    else if settings.excludedPatterns.any (fun p =>
        matchGlob vf.path (normalizeSlashes p)) then false
    else true

/-- One file of the refreshAll loop: ineligible files are skipped; a cached
entry with the same modification timestamp counts a hit and is kept; else a
miss is counted and the freshly parsed entry stored (the surrounding catch
is unreachable here because the per-document parse already catches). -/
def refreshAllStep (settings : Settings) (st : CacheState) (vf : VaultFile) : CacheState :=
  if !shouldParseFile settings vf then st
  else
    let hit := match amGet st.cache vf.path with
      | some cached => cached.lastModified = vf.mtime
      | none => false
    if hit = true then { st with stats := { st.stats with hits := st.stats.hits + 1 } }
    else
      { st with
          stats := { st.stats with misses := st.stats.misses + 1 },
          cache := amSet st.cache vf.path
            { tasks := parseTasksFromFile settings vf, lastModified := vf.mtime } }

/-- rebuildAllTasks: concatenate the cached entries in map order and run the
hierarchy builder; the task list of the instance becomes the returned roots
and the total the length of that list. -/
def rebuildAllTasks (st : CacheState) : CacheState :=
  let tasks := st.cache.flatMap (·.2.tasks)
  let allTasks := buildTaskHierarchy tasks
  { st with allTasks := allTasks,
            stats := { st.stats with totalTasks := allTasks.length } }

/-- refreshAll of src/core/taskCache.ts: the cache is cleared first, the file
count recorded, every file run through the per-file step, and the aggregate
rebuilt; cachedFiles and lastRefresh close the pass. -/
def refreshAll (settings : Settings) (now : Nat) (files : List VaultFile)
    (st : CacheState) : CacheState :=
  let st := { st with cache := [] }
  let st := { st with stats := { st.stats with totalFiles := files.length } }
  let st := files.foldl (refreshAllStep settings) st
  let st := rebuildAllTasks st
  { st with stats := { st.stats with cachedFiles := st.cache.length, lastRefresh := now } }

/-! ## Dependency resolver (src/utils/dependencyUtils.ts, staged as
src/unnamed/part_008) -/

/-- createShortTaskId: the regex `([^/\\]+):(\d+)$` takes the final
slash-free run split at the last colon that is followed by digits to the
end; the first group has `.md` (first occurrence) removed. An id that does
not match is returned whole. -/
def createShortTaskId (fullId : Str) : Str :=
  let tail := (fullId.reverse.takeWhile (fun c => c ≠ '/' && c ≠ '\\')).reverse
  let rev := tail.reverse
  let ds := rev.takeWhile isDigitChar
  if ds.isEmpty then fullId
  else
    match rev.drop ds.length with
    | ':' :: g1rev =>
      if g1rev.isEmpty then fullId
      else replaceFirstSub ((".md").data) [] g1rev.reverse ++ ':' :: ds.reverse
    | _ => fullId

/-- buildShortIdMap: short basename:line keys to full ids, and every full id
mapped to itself. -/
def buildShortIdMap (allTasks : List Task) : List (Str × Str) :=
  allTasks.foldl
    (fun m t =>
      let shortId := replaceFirstSub ((".md").data) [] t.file.basename ++ ':' :: natToStr t.lineNumber
      amSet (amSet m shortId t.id) t.id t.id)
    []

/-- resolveId of the dependency utilities: a truthy direct map hit wins;
otherwise a reference that contains a path separator is returned as is (the
conditional of the source returns it whether or not the map knows it), and
anything else fails to resolve. -/
def resolveId (shortId : Str) (idMap : List (Str × Str)) : Option Str :=
  match amGet idMap shortId with
  | some direct =>
    if !direct.isEmpty then some direct
    else if containsChar '/' shortId || containsChar '\\' shortId then some shortId
    else none
  | none =>
    if containsChar '/' shortId || containsChar '\\' shortId then some shortId
    else none

/-- DependencyStatus of src/types. -/
structure DependencyStatus where
  isBlocked : Bool
  blockedByCount : Nat
  blocksCount : Nat
  blockedByTasks : List Str
  blocksTasks : List Str
deriving DecidableEq, Repr

/-- getDependencyStatus of the dependency utilities: each blockedBy entry is
resolved through the short-id map; a resolved id whose task exists and is
incomplete blocks, a resolved id with no task in the universe is dropped,
and an unresolved id is kept as blocking. The blocks side resolves the
declared targets and adds every other task whose blockedBy resolves back to
this task. -/
def getDependencyStatus (task : Task) (allTasks : List Task)
    (idMapO : Option (List (Str × Str)) := none) : DependencyStatus :=
  let shortIdMap := idMapO.getD (buildShortIdMap allTasks)
  let taskMap := allTasks.foldl (fun m t => amSet m t.id t) []
  let blockedByTasks := task.blockedBy.foldl
    (fun acc blockerId =>
      match resolveId blockerId shortIdMap with
      | some expandedId =>
        match amGet taskMap expandedId with
        | some blocker => if !blocker.completed then acc ++ [expandedId] else acc
        | none => acc
      | none => acc ++ [blockerId])
    []
  let blocksTasks := task.blocks.foldl
    (fun acc blockedId =>
      match resolveId blockedId shortIdMap with
      | some expandedId => acc ++ [expandedId]
      | none => acc ++ [blockedId])
    []
  let blocksTasks := allTasks.foldl
    (fun acc otherTask =>
      if otherTask.id = task.id then acc
      else
        otherTask.blockedBy.foldl
          (fun acc2 blockerId =>
            if resolveId blockerId shortIdMap = some task.id && !acc2.contains otherTask.id then
              acc2 ++ [otherTask.id]
            else acc2)
          acc)
    blocksTasks
  { isBlocked := blockedByTasks.length > 0,
    blockedByCount := blockedByTasks.length,
    blocksCount := blocksTasks.length,
    blockedByTasks := blockedByTasks,
    blocksTasks := blocksTasks }

/-! ## Shared fixtures for the concrete claims -/

/-- A throwaway Task value for total option extraction in fixtures. -/
def defaultTask : Task :=
  { id := [], file := { path := [], basename := [] }, lineNumber := 0,
    text := [], completed := false, dueDate := none, owner := none, stage := none,
    project := none, completedDate := none, createdDate := none, rawLine := [],
    priority := none, tags := [], recurrence := none, parentId := none,
    children := [], depth := 0, indent := [], blockedBy := [], blocks := [],
    estimate := none, timeLogged := none }

/-- The document identity of the concrete examples. -/
def exFile : TFile := { path := ("notes.md").data, basename := ("notes").data }

/-- A fixed current day for the concrete examples. -/
def exDate : CivilDate := { year := 2025, month := 3, day := 3 }

/-! ## Claim C8 -/

/-- Claim C8: parseTaskLine on the line
`- [ ] **John | 2025-03-01 | Requested:** Ship report [priority:high] #urgent`
produces a task with owner John, due date 2025-03-01, stage Requested,
display text Ship report, priority high and tags [urgent]; the inline
priority tag and hashtag are stripped before the pipe-delimited block is
classified as date, stage, priority, then owner. -/
theorem scenarioA_structured_parse :
    (parseTaskLine
        (("- [ ] **John | 2025-03-01 | Requested:** Ship report [priority:high] #urgent").data)
        exFile 3 []).map
      (fun t => (t.owner, t.dueDate, t.stage, t.text, t.priority, t.tags)) =
    some (some (("John").data), some (("2025-03-01").data), some (("Requested").data),
      ("Ship report").data, some Priority.high, [("urgent").data]) := by
  rfl

/-! ## Claim C9 -/

/-- The checklist line of Scenario B. -/
def exLineB : Str :=
  ("- [ ] **2025-03-03:** Standup [repeat:every mon,wed,fri]").data

/-- The incomplete recurring task of Scenario B, as the parser produces it. -/
def exTaskB : Task :=
  (parseTaskLine exLineB exFile 0 []).getD defaultTask

/-- The weekly recurrence rule of Scenario B as parsed from the raw text
`every mon,wed,fri`, with the interval overridable. -/
def exRecB (i : Option Nat) : Recurrence :=
  { rtype := .weekly, interval := i, daysOfWeek := some [1, 3, 5],
    rawString := ("every mon,wed,fri").data }

/-- Claim C9: the task of Scenario B is incomplete, has due date 2025-03-03
(a Monday, weekday 1) and a weekly recurrence on weekdays [1, 3, 5]; for any
interval value the computed next due date is 2025-03-05 (the next listed
weekday strictly after Monday), and toggling completion writes the document
back with a new occurrence line appended whose parse carries due date
2025-03-05. -/
theorem scenarioB_weekly_rollforward (i : Option Nat) :
    exTaskB.completed = false ∧
    exTaskB.dueDate = some (("2025-03-03").data) ∧
    exTaskB.recurrence = some (exRecB none) ∧
    getDayOfWeek exDate = 1 ∧
    calculateNextDueDate exDate (some (("2025-03-03").data)) (exRecB i) =
      some (("2025-03-05").data) ∧
    (let r := toggleTask {} exDate 77 { vault := [(exFile.path, exLineB)], undoStack := [] } exTaskB
     r.1.success = true ∧
     ((jsSplit '\n' ((vaultRead r.2.vault exFile.path).getD [])).getLast?.bind
        (fun l => parseTaskLine l exFile 1 [])).map (·.dueDate) =
       some (some (("2025-03-05").data))) := by
  refine ⟨rfl, rfl, rfl, rfl, ?_, rfl, rfl⟩
  cases i <;> rfl

/-! ## Claim C2 -/

/-- The unchanged markdown document of the cache example. -/
def exVaultFile : VaultFile :=
  { path := ("a.md").data, basename := ("a").data, parentPath := [],
    mtime := 1, content := .ok (("- [ ] hi").data) }

/-- The empty cache state. -/
def exCache0 : CacheState := { cache := [], allTasks := [], stats := {} }

/-- Claim C2 (falsified by the code): refreshAll clears the cache as its
first action, so its timestamp comparison can never hit; running refreshAll
twice on a vault with one eligible, unchanged document re-parses it on both
runs (two misses, zero hits), where the claim promises zero re-parses on the
second run. -/
theorem refreshAll_always_reparses :
    shouldParseFile {} exVaultFile = true ∧
    (refreshAll {} 5 [exVaultFile] exCache0).stats.misses = 1 ∧
    (refreshAll {} 10 [exVaultFile] (refreshAll {} 5 [exVaultFile] exCache0)).stats.misses = 2 ∧
    (refreshAll {} 10 [exVaultFile] (refreshAll {} 5 [exVaultFile] exCache0)).stats.hits = 0 := by
  refine ⟨rfl, rfl, rfl, rfl⟩

/-! ## Claim C3 -/

/-- A task whose only blocked-by reference carries a path separator and
resolves to no task in the universe. -/
def exTaskC3 : Task :=
  (parseTaskLine (("- [ ] X [blocked-by:other/file.md:9]").data) exFile 0 []).getD defaultTask

/-- A task whose only blocked-by reference is a plain short reference that
resolves to no task in the universe. -/
def exTaskC3b : Task :=
  (parseTaskLine (("- [ ] X [blocked-by:nofile:9]").data) exFile 0 []).getD defaultTask

/-- Claim C3 (falsified by the code): the task carries the single unresolved
reference other/file.md:9, no task of the universe has that id, and yet
getDependencyStatus reports it unblocked — resolveId returns a reference
that contains a path separator as if it had resolved, and the failed task
lookup then drops it silently, against the unknown-implies-blocking rule;
the same call with the separator-free unresolved reference nofile:9 does
block. -/
theorem dependency_pathlike_unresolved_not_blocking :
    exTaskC3.blockedBy = [("other/file.md:9").data] ∧
    (∀ t ∈ [exTaskC3], t.id ≠ ("other/file.md:9").data) ∧
    (getDependencyStatus exTaskC3 [exTaskC3]).isBlocked = false ∧
    exTaskC3b.blockedBy = [("nofile:9").data] ∧
    (getDependencyStatus exTaskC3b [exTaskC3b]).isBlocked = true := by
  refine ⟨rfl, ?_, rfl, rfl, rfl⟩
  intro t ht
  simp only [List.mem_singleton] at ht
  subst ht
  decide

/-! ## Claim C4 -/

/-- Claim C4 (falsified by the code): createTask with atLine 5 on a one-line
document succeeds and changes the content — the line is appended — where
the claim promises a validation rejection with the document untouched;
createTask never checks atLine against the line count. -/
theorem createTask_out_of_range_counterexample :
    5 > (jsSplit '\n' (("- [ ] a").data)).length ∧
    (createTask {} exDate (("- [ ] a").data) (("hello").data) { atLine := some 5 }).1.success = true ∧
    (createTask {} exDate (("- [ ] a").data) (("hello").data) { atLine := some 5 }).2 ≠
      ("- [ ] a").data := by
  refine ⟨by decide, rfl, by decide⟩

/-- Claim C4 as amended: an atLine beyond the current line count is not
rejected; the JS splice clamps the start index to the line count, so the
call succeeds, modifying the document by appending the new task line at the
end. -/
theorem createTask_out_of_range_appends (settings : Settings) (today : CivilDate)
    (content text : Str) (n : Nat)
    (hn : (jsSplit '\n' content).length < n)
    (hv : (validateTaskText text).isValid = true) :
    (createTask settings today content text { atLine := some n }).1.success = true ∧
    (createTask settings today content text { atLine := some n }).2 =
      joinLines (jsSplit '\n' content ++
        [("- [ ] ").data ++ (sanitizeTaskText text ++
          ((" [created:").data ++ (formatDateToISO today ++ [']'])))]) := by
  have hfe : createTaskFieldError settings { atLine := some n } = none := rfl
  have hmin : min ((some n).getD (jsSplit '\n' content).length) (jsSplit '\n' content).length =
      (jsSplit '\n' content).length := Nat.min_eq_right (Nat.le_of_lt hn)
  unfold createTask
  simp only [hfe, hv, Bool.not_true, Bool.false_eq_true, if_false, truthyS,
    List.isEmpty_nil, Bool.not_false, if_true, insertAtClamped, hmin,
    List.take_length, List.drop_length, List.append_nil, List.nil_append]
  exact ⟨trivial, by simp⟩

/-- Witness for the amended C4 theorem at a concrete document, text and
index. -/
theorem createTask_out_of_range_appends_witness :
    (createTask {} exDate (("- [ ] a").data) (("hello").data) { atLine := some 5 }).1.success = true ∧
    (createTask {} exDate (("- [ ] a").data) (("hello").data) { atLine := some 5 }).2 =
      joinLines (jsSplit '\n' (("- [ ] a").data) ++
        [("- [ ] ").data ++ (sanitizeTaskText (("hello").data) ++
          ((" [created:").data ++ (formatDateToISO exDate ++ [']'])))]) :=
  createTask_out_of_range_appends {} exDate (("- [ ] a").data) (("hello").data) 5
    (by decide) (by decide)

/-! ## Claim C5 -/

/-- Claim C5: when the current line at the task's index is not identical to
the captured rawLine (including the out-of-range case, where there is no
such line), updateTask and deleteTask both return a failure and leave the
updater state — vault content and undo stack — unchanged. -/
theorem stale_line_rejected_no_write (settings : Settings) (today : CivilDate) (now : Nat)
    (st : UpdaterState) (task : Task) (updates : TaskUpdates) (content : Str)
    (hread : vaultRead st.vault task.file.path = some content)
    (hstale : (jsSplit '\n' content).get? task.lineNumber ≠ some task.rawLine) :
    (updateTask settings today now st task updates).1.success = false ∧
    (updateTask settings today now st task updates).2 = st ∧
    (deleteTask now st task).1.success = false ∧
    (deleteTask now st task).2 = st := by
  have hdel : (deleteTask now st task).1.success = false ∧ (deleteTask now st task).2 = st := by
    unfold deleteTask
    rw [hread]
    dsimp only
    rw [if_pos hstale]
    exact ⟨rfl, rfl⟩
  refine ⟨?_, ?_, hdel.1, hdel.2⟩ <;>
  · unfold updateTask
    rw [hread]
    dsimp only
    by_cases h : task.lineNumber < (jsSplit '\n' content).length
    · have hval : validateLineNumber task.lineNumber (jsSplit '\n' content).length =
          { isValid := true } := by
        unfold validateLineNumber
        rw [if_neg (Nat.not_le.mpr h)]
      rw [hval]
      have hget : (jsSplit '\n' content).get? task.lineNumber =
          some ((jsSplit '\n' content).getD task.lineNumber []) := by
        simp [List.getD_eq_getElem?_getD, List.getElem?_eq_some_iff]
        exact ⟨h, by simp [List.getD_eq_getElem?_getD, List.getElem?_eq_getElem h]⟩
      have hne : (jsSplit '\n' content).getD task.lineNumber [] ≠ task.rawLine := by
        intro heq
        exact hstale (by rw [hget, heq])
      simp only [Bool.not_true, Bool.false_eq_true, if_false, if_pos hne]
    · have hval : validateLineNumber task.lineNumber (jsSplit '\n' content).length =
          { isValid := false, error := some (("Line number exceeds file length").data) } := by
        unfold validateLineNumber
        rw [if_pos (Nat.le_of_not_lt h)]
      rw [hval]
      rfl

/-- The stale concrete state: the document content no longer contains the
captured raw line. -/
def exStaleState : UpdaterState :=
  { vault := [(exFile.path, ("something else entirely").data)], undoStack := [] }

/-- Witness for C5 at a concrete task and modified document. -/
theorem stale_line_rejected_no_write_witness :
    (updateTask {} exDate 0 exStaleState exTaskB {}).1.success = false ∧
    (updateTask {} exDate 0 exStaleState exTaskB {}).2 = exStaleState ∧
    (deleteTask 0 exStaleState exTaskB).1.success = false ∧
    (deleteTask 0 exStaleState exTaskB).2 = exStaleState :=
  stale_line_rejected_no_write {} exDate 0 exStaleState exTaskB {}
    (("something else entirely").data) rfl (by decide)

/-! ## Claim C10 -/

/-- Claim C10: with a non-empty undo stack, undo pops the most recent entry
and applies it unconditionally from the stored data alone — re-inserting the
original line at the stored index for a delete entry, overwriting whatever
line now sits at the stored index otherwise — for every current document
content, with no comparison of that content against any expected text; so
undo can overwrite edits made after the entry was recorded. -/
theorem undo_bypasses_concurrency_check (st : UpdaterState) (stack : List UndoEntry)
    (e : UndoEntry) (content : Str)
    (hstack : st.undoStack = stack ++ [e])
    (hread : vaultRead st.vault e.filePath = some content) :
    undo st =
      ({ success := true },
       { vault := vaultModify st.vault e.filePath (joinLines
           (if e.newLine.isEmpty then
              insertAtClamped (jsSplit '\n' content) e.lineNumber e.originalLine
            else jsArraySet (jsSplit '\n' content) e.lineNumber e.originalLine)),
         undoStack := stack }) := by
  unfold undo
  rw [hstack, List.getLast?_concat, List.dropLast_concat]
  dsimp only
  rw [hread]

/-- The concrete undo scene: the stored entry rewrote line 0 to a new text,
and the user has since retyped the line; undo still restores the original
text. -/
def exUndoEntry : UndoEntry :=
  { filePath := exFile.path, lineNumber := 0, originalLine := ("- [ ] original").data,
    newLine := ("- [ ] rewritten").data, timestamp := 3 }

/-- Witness for C10: the current content differs from the entry's recorded
new line, and undo still succeeds and overwrites it with the original. -/
theorem undo_bypasses_concurrency_check_witness :
    undo { vault := [(exFile.path, ("- [ ] user edit after the update").data)],
           undoStack := [exUndoEntry] } =
      ({ success := true },
       { vault := vaultModify [(exFile.path, ("- [ ] user edit after the update").data)]
           exUndoEntry.filePath (joinLines
           (if exUndoEntry.newLine.isEmpty then
              insertAtClamped (jsSplit '\n' (("- [ ] user edit after the update").data))
                exUndoEntry.lineNumber exUndoEntry.originalLine
            else jsArraySet (jsSplit '\n' (("- [ ] user edit after the update").data))
              exUndoEntry.lineNumber exUndoEntry.originalLine)),
         undoStack := [] }) :=
  undo_bypasses_concurrency_check _ [] exUndoEntry
    (("- [ ] user edit after the update").data) rfl rfl

/-! ## List and map lemmas for the cache and hierarchy claims -/

/-- A set with a hit key rewrites the map so that the key reads the new
value. -/
theorem amGet_map_subst {α : Type} (m : List (Str × α)) (k : Str) (v : α)
    (h : m.any (·.1 = k) = true) :
    amGet (m.map (fun e => if e.1 = k then (k, v) else e)) k = some v := by
  induction m with
  | nil => simp at h
  | cons a m ih =>
    by_cases ha : a.1 = k
    · unfold amGet
      rw [List.map_cons, if_pos ha, List.find?_cons_of_pos _ (by simp)]
      rfl
    · simp only [List.any_cons, decide_eq_true_eq, Bool.or_eq_true] at h
      rcases h with h | h
      · exact absurd h ha
      · unfold amGet
        rw [List.map_cons, if_neg ha, List.find?_cons_of_neg _ (by simp [ha])]
        exact ih h

/-- find? skips a first segment in which nothing matches. -/
theorem find?_append_none {α : Type} (p : α → Bool) :
    ∀ (l1 l2 : List α), l1.find? p = none → (l1 ++ l2).find? p = l2.find? p
  | [], _, _ => rfl
  | a :: l1, l2, h => by
    cases hp : p a with
    | true => simp [List.find?, hp] at h
    | false =>
      simp only [List.find?, hp] at h
      simpa [List.find?, hp] using find?_append_none p l1 l2 h

/-- Reading back the key just set. -/
theorem amGet_amSet_self {α : Type} (m : List (Str × α)) (k : Str) (v : α) :
    amGet (amSet m k v) k = some v := by
  unfold amSet
  by_cases h : m.any (·.1 = k) = true
  · rw [if_pos h]
    exact amGet_map_subst m k v h
  · rw [if_neg h]
    have hnone : m.find? (·.1 = k) = none := by
      rw [List.find?_eq_none]
      intro x hx hpx
      exact h (List.any_eq_true.mpr ⟨x, hx, hpx⟩)
    unfold amGet
    rw [find?_append_none _ _ _ hnone]
    simp [List.find?]

/-- Appending one entry at the end leaves every other key unchanged. -/
theorem amGet_append_single_ne {α : Type} :
    ∀ (m : List (Str × α)) (k k' : Str) (v : α), k' ≠ k →
    amGet (m ++ [(k, v)]) k' = amGet m k'
  | [], k, k', v, h => by
    unfold amGet
    rw [List.nil_append, List.find?_cons_of_neg _ (by simp; exact Ne.symm h)]
  | a :: m, k, k', v, h => by
    unfold amGet
    rw [List.cons_append]
    by_cases ha' : a.1 = k'
    · rw [List.find?_cons_of_pos _ (by simp [ha'])]
      rw [List.find?_cons_of_pos _ (by simp [ha'])]
    · rw [List.find?_cons_of_neg _ (by simp [ha'])]
      rw [List.find?_cons_of_neg _ (by simp [ha'])]
      exact amGet_append_single_ne m k k' v h

/-- Setting one key leaves every other key unchanged. -/
theorem amGet_amSet_ne {α : Type} (m : List (Str × α)) (k k' : Str) (v : α)
    (h : k' ≠ k) :
    amGet (amSet m k v) k' = amGet m k' := by
  unfold amSet
  by_cases hany : m.any (·.1 = k) = true
  · rw [if_pos hany]
    clear hany
    induction m with
    | nil => rfl
    | cons a m ih =>
      by_cases ha : a.1 = k
      · unfold amGet
        rw [List.map_cons, if_pos ha,
          List.find?_cons_of_neg _ (by simp; exact Ne.symm h),
          show ((a :: m).find? (·.1 = k')) = m.find? (·.1 = k') from
            List.find?_cons_of_neg _ (by simp; intro hc; exact h (hc.symm.trans ha))]
        exact ih
      · unfold amGet
        rw [List.map_cons, if_neg ha]
        by_cases ha' : a.1 = k'
        · rw [List.find?_cons_of_pos _ (by simp [ha'])]
          rw [List.find?_cons_of_pos _ (by simp [ha'])]
        · rw [List.find?_cons_of_neg _ (by simp [ha'])]
          rw [List.find?_cons_of_neg _ (by simp [ha'])]
          exact ih
  · rw [if_neg hany]
    exact amGet_append_single_ne m k k' v h

/-- An element read out of a list membership. -/
theorem amGet_mem {α : Type} (m : List (Str × α)) (k : Str) (v : α)
    (h : amGet m k = some v) : (k, v) ∈ m := by
  unfold amGet at h
  cases hf : m.find? (·.1 = k) with
  | none => rw [hf] at h; exact absurd h (by simp)
  | some e =>
    rw [hf] at h
    have hm := List.mem_of_find?_eq_some hf
    have hp := List.find?_some hf
    simp only [decide_eq_true_eq] at hp
    simp at h
    cases e
    simp_all

/-- Writing an element of a list back at its own position changes nothing. -/
theorem set_get?_self {α : Type} : ∀ (l : List α) (i : Nat) (a : α),
    l.get? i = some a → l.set i a = l
  | [], i, _, h => Option.noConfusion h
  | x :: xs, 0, a, h => by
    simp only [List.get?, Option.some.injEq] at h
    simp [List.set, h]
  | x :: xs, i + 1, a, h => by
    simp only [List.get?] at h
    simp [List.set, set_get?_self xs i a h]

/-- Membership in a list after a set: the new value or an old member. -/
theorem mem_set_cases {α : Type} : ∀ (l : List α) (i : Nat) (b x : α),
    x ∈ l.set i b → x = b ∨ x ∈ l
  | [], _, _, _, h => by simp at h
  | a :: l, 0, b, x, h => by
    rcases List.mem_cons.mp h with h | h
    · exact Or.inl h
    · exact Or.inr (List.mem_cons_of_mem _ h)
  | a :: l, i + 1, b, x, h => by
    rcases List.mem_cons.mp h with h | h
    · exact Or.inr (h ▸ List.mem_cons_self _ _)
    · rcases mem_set_cases l i b x h with h | h
      · exact Or.inl h
      · exact Or.inr (List.mem_cons_of_mem _ h)

/-- The replaced element is a member when the index is in range. -/
theorem mem_set_self {α : Type} : ∀ (l : List α) (i : Nat) (b : α),
    i < l.length → b ∈ l.set i b
  | [], i, b, h => by simp at h
  | a :: l, 0, b, _ => List.mem_cons_self _ _
  | a :: l, i + 1, b, h =>
    List.mem_cons_of_mem _ (mem_set_self l i b (Nat.lt_of_succ_lt_succ h))

/-! ## Claim C6: lemmas about the refresh loop and the hierarchy pass -/

/-- The refresh loop touches only cache keys of the files it processes. -/
theorem refreshLoop_preserves (settings : Settings) :
    ∀ (files : List VaultFile) (st : CacheState) (k : Str),
    k ∉ files.map (·.path) →
    amGet ((files.foldl (refreshAllStep settings) st)).cache k = amGet st.cache k
  | [], _, _, _ => rfl
  | f :: files, st, k, h => by
    simp only [List.map_cons, List.mem_cons, not_or] at h
    rw [List.foldl_cons, refreshLoop_preserves settings files _ k h.2]
    unfold refreshAllStep
    by_cases hp : shouldParseFile settings f = true
    · simp only [hp, Bool.not_true, Bool.false_eq_true, if_false]
      by_cases hhit : (match amGet st.cache f.path with
        | some cached => cached.lastModified = f.mtime
        | none => false) = true
      · rw [if_pos hhit]
      · rw [if_neg hhit]
        exact amGet_amSet_ne st.cache f.path k _ h.1
    · simp only [Bool.not_eq_true] at hp
      simp only [hp, Bool.not_false, if_true]

/-- An eligible file of a duplicate-free batch ends with the freshly parsed
entry under its path, provided its path had no entry when the loop reached
the batch. -/
theorem refreshLoop_entry (settings : Settings) :
    ∀ (files : List VaultFile) (st : CacheState) (g : VaultFile),
    g ∈ files → (files.map (·.path)).Nodup →
    shouldParseFile settings g = true →
    amGet st.cache g.path = none →
    amGet ((files.foldl (refreshAllStep settings) st)).cache g.path =
      some { tasks := parseTasksFromFile settings g, lastModified := g.mtime }
  | [], _, _, hg, _, _, _ => absurd hg (List.not_mem_nil _)
  | f :: files, st, g, hg, hnd, helig, hnone => by
    rw [List.foldl_cons]
    rcases List.mem_cons.mp hg with rfl | hg2
    · have hfp : g.path ∉ files.map (·.path) := by
        have := (List.nodup_cons.mp hnd).1
        simpa using this
      rw [refreshLoop_preserves settings files _ g.path hfp]
      unfold refreshAllStep
      simp only [helig, Bool.not_true, Bool.false_eq_true, if_false, hnone]
      exact amGet_amSet_self st.cache g.path _
    · have hne : g.path ≠ f.path := by
        intro hc
        have hm : g.path ∈ files.map (·.path) := List.mem_map_of_mem _ hg2
        rw [hc] at hm
        exact (List.nodup_cons.mp hnd).1 hm
      apply refreshLoop_entry settings files _ g hg2 (List.nodup_cons.mp hnd).2 helig
      unfold refreshAllStep
      by_cases hp : shouldParseFile settings f = true
      · simp only [hp, Bool.not_true, Bool.false_eq_true, if_false]
        by_cases hhit : (match amGet st.cache f.path with
          | some cached => cached.lastModified = f.mtime
          | none => false) = true
        · rw [if_pos hhit]; exact hnone
        · rw [if_neg hhit]
          rw [amGet_amSet_ne st.cache f.path g.path _ hne]
          exact hnone
      · simp only [Bool.not_eq_true] at hp
        simp only [hp, Bool.not_false, if_true]
        exact hnone

/-- The hierarchy-free projection of a task: links reset. -/
def stripLinks (t : Task) : Task :=
  { t with parentId := none, children := [] }

/-- One hierarchy step appends exactly the current task to the processed
list, up to links. -/
theorem hierStep_out_map_strip (s : HierState) (t : Task) :
    (hierStep s t).out.map stripLinks = s.out.map stripLinks ++ [stripLinks t] := by
  unfold hierStep
  dsimp only
  cases hpop : hierPop s.out { t with children := [], parentId := none } s.stack with
  | nil => simp [stripLinks]
  | cons i is =>
    by_cases hd : ({ t with children := [], parentId := none } : Task).depth > 0
    · simp only [hd, if_true]
      cases hget : s.out.get? i with
      | none => simp [stripLinks]
      | some parent =>
        simp only [List.map_append]
        have h1 : (s.out.set i { parent with children := parent.children ++
            [({ t with children := [], parentId := none } : Task).id] }).map stripLinks =
            s.out.map stripLinks := by
          rw [List.map_set]
          apply set_get?_self
          rw [List.get?_map, hget]
          rfl
        rw [h1]
        rfl
    · simp only [hd, if_false]
      simp [stripLinks]

/-- The hierarchy fold appends the consumed tasks to the processed list, up
to links. -/
theorem hierFold_out_map_strip :
    ∀ (ts : List Task) (s : HierState),
    ((ts.foldl hierStep s).out).map stripLinks = s.out.map stripLinks ++ ts.map stripLinks
  | [], s => by simp
  | t :: ts, s => by
    rw [List.foldl_cons, hierFold_out_map_strip ts (hierStep s t), hierStep_out_map_strip]
    simp

/-- Stable insertion is a permutation. -/
theorem orderedInsertTask_perm (x : Task) :
    ∀ l : List Task, (orderedInsertTask x l).Perm (x :: l)
  | [] => List.Perm.refl _
  | y :: ys => by
    unfold orderedInsertTask
    by_cases h : taskCmpLe y x = true
    · rw [if_pos h]
      exact ((orderedInsertTask_perm x ys).cons y).trans (List.Perm.swap x y ys)
    · rw [if_neg h]

/-- The insertion-sort fold is a permutation of the accumulator and the
input. -/
theorem sortTasks_perm_aux :
    ∀ (l acc : List Task),
    (l.foldl (fun acc x => orderedInsertTask x acc) acc).Perm (acc ++ l)
  | [], acc => by simp
  | x :: l, acc => by
    rw [List.foldl_cons]
    refine (sortTasks_perm_aux l _).trans ?_
    refine ((orderedInsertTask_perm x acc).append_right l).trans ?_
    exact List.perm_middle.symm

/-- sortTasks is a permutation of its input. -/
theorem sortTasks_perm (l : List Task) : (sortTasks l).Perm l := by
  simpa [sortTasks] using sortTasks_perm_aux l []

/-- Claim C6: with one unreadable document f in a duplicate-free vault,
refreshAll still stores, for every other eligible document g, the cache
entry holding the tasks parsed from g, and every one of those tasks is
present (up to hierarchy links) in the processed list of the hierarchy pass
over the rebuilt aggregate — the per-document failure is contained and the
other documents contribute their task data. -/
theorem refreshAll_resilience (settings : Settings) (now : Nat)
    (files : List VaultFile) (st : CacheState)
    (hnodup : (files.map (·.path)).Nodup)
    (f g : VaultFile) (e : Str)
    (hf : f ∈ files) (hferr : f.content = .error e)
    (hg : g ∈ files) (hne : g.path ≠ f.path)
    (helig : shouldParseFile settings g = true) :
    amGet (refreshAll settings now files st).cache g.path =
      some { tasks := parseTasksFromFile settings g, lastModified := g.mtime } ∧
    ∀ t ∈ parseTasksFromFile settings g,
      ∃ t2 ∈ (buildHierarchyState
          ((refreshAll settings now files st).cache.flatMap (·.2.tasks))).out,
        stripLinks t2 = stripLinks t := by
  have hentry : amGet ((files.foldl (refreshAllStep settings)
        { cache := [],
          allTasks := st.allTasks,
          stats := { st.stats with totalFiles := files.length } } : CacheState)).cache g.path =
      some { tasks := parseTasksFromFile settings g, lastModified := g.mtime } :=
    refreshLoop_entry settings files _ g hg hnodup helig rfl
  have hcache : (refreshAll settings now files st).cache =
      ((files.foldl (refreshAllStep settings)
        { cache := [],
          allTasks := st.allTasks,
          stats := { st.stats with totalFiles := files.length } } : CacheState)).cache := by
    unfold refreshAll rebuildAllTasks
    rfl
  refine ⟨by rw [hcache]; exact hentry, ?_⟩
  intro t ht
  have hmem : t ∈ (refreshAll settings now files st).cache.flatMap (·.2.tasks) := by
    rw [hcache]
    refine List.mem_flatMap.mpr ?_
    refine ⟨(g.path, { tasks := parseTasksFromFile settings g, lastModified := g.mtime }), ?_, ht⟩
    exact amGet_mem _ _ _ hentry
  set ts := (refreshAll settings now files st).cache.flatMap (·.2.tasks) with hts
  have hsorted : t ∈ sortTasks ts := (sortTasks_perm ts).mem_iff.mpr hmem
  have : stripLinks t ∈ ((buildHierarchyState ts).out).map stripLinks := by
    unfold buildHierarchyState
    rw [hierFold_out_map_strip]
    simp only [List.map_nil, List.nil_append]
    exact List.mem_map_of_mem stripLinks hsorted
  rcases List.mem_map.mp this with ⟨t2, ht2, heq⟩
  exact ⟨t2, ht2, heq⟩

/-- An ineligible-to-read document: its read throws. -/
def exErrFile : VaultFile :=
  { path := ("b.md").data, basename := ("b").data, parentPath := [],
    mtime := 2, content := .error (("read failure").data) }

/-- Witness for C6: a two-document vault with one unreadable document still
caches and aggregates the tasks of the other. -/
theorem refreshAll_resilience_witness :
    amGet (refreshAll {} 0 [exVaultFile, exErrFile] exCache0).cache exVaultFile.path =
      some { tasks := parseTasksFromFile {} exVaultFile,
             lastModified := exVaultFile.mtime } ∧
    ∀ t ∈ parseTasksFromFile {} exVaultFile,
      ∃ t2 ∈ (buildHierarchyState
          ((refreshAll {} 0 [exVaultFile, exErrFile] exCache0).cache.flatMap (·.2.tasks))).out,
        stripLinks t2 = stripLinks t :=
  refreshAll_resilience {} 0 [exVaultFile, exErrFile] exCache0 (by decide)
    exErrFile exVaultFile (("read failure").data)
    (List.mem_cons_of_mem _ (List.mem_cons_self _ _)) rfl
    (List.mem_cons_self _ _) (by decide) rfl

/-! ## Claim C7 -/

/-- A root-level task at line 5 of f.md. -/
def exTaskA7 : Task :=
  (parseTaskLine (("- [ ] t").data)
    { path := ("f.md").data, basename := ("f").data } 5 []).getD defaultTask

/-- An indented task at the same path and line number. -/
def exTaskB7 : Task :=
  (parseTaskLine (("  - [ ] t").data)
    { path := ("f.md").data, basename := ("f").data } 5 []).getD defaultTask

/-- Claim C7 (falsified as stated over every input list): on an input where
two tasks share path f.md and line 5 at depths 0 and 1, the hierarchy pass
assigns the depth-1 task the parent id f.md:5, yet every processed task with
that id sits at line 5 — not strictly before the child, so the strict
line-order part of the invariant fails. -/
theorem hierarchy_invariant_counterexample :
    ((buildHierarchyState [exTaskA7, exTaskB7]).out.get? 1).map (·.parentId) =
      some (some (("f.md:5").data)) ∧
    ((buildHierarchyState [exTaskA7, exTaskB7]).out.get? 1).map (·.lineNumber) = some 5 ∧
    ∀ p ∈ (buildHierarchyState [exTaskA7, exTaskB7]).out,
      p.id = ("f.md:5").data → ¬ p.lineNumber < 5 := by
  refine ⟨rfl, rfl, ?_⟩
  decide


/-- Characters with equal code units are equal. -/
theorem charEq_of_toNat_eq (c d : Char) (h : c.toNat = d.toNat) : c = d := by
  exact_mod_cast Char.ofNat_toNat c ▸ Char.ofNat_toNat d ▸ congrArg Char.ofNat h

/-- The string order is irreflexive. -/
theorem strLtB_irrefl : ∀ s : Str, strLtB s s = false
  | [] => rfl
  | c :: cs => by
    unfold strLtB
    simp [Nat.lt_irrefl, strLtB_irrefl cs]

/-- The string order is total up to equality. -/
theorem strLtB_total : ∀ s t : Str, s = t ∨ strLtB s t = true ∨ strLtB t s = true
  | [], [] => Or.inl rfl
  | [], _ :: _ => Or.inr (Or.inl rfl)
  | _ :: _, [] => Or.inr (Or.inr rfl)
  | a :: as_, b :: bs => by
    rcases Nat.lt_trichotomy a.toNat b.toNat with h | h | h
    · refine Or.inr (Or.inl ?_)
      unfold strLtB
      rw [if_pos h]
    · have hab : a = b := charEq_of_toNat_eq a b h
      subst hab
      rcases strLtB_total as_ bs with h2 | h2 | h2
      · exact Or.inl (by rw [h2])
      · refine Or.inr (Or.inl ?_)
        unfold strLtB
        rw [if_neg (Nat.lt_irrefl _), if_neg (Nat.lt_irrefl _)]
        exact h2
      · refine Or.inr (Or.inr ?_)
        unfold strLtB
        rw [if_neg (Nat.lt_irrefl _), if_neg (Nat.lt_irrefl _)]
        exact h2
    · refine Or.inr (Or.inr ?_)
      unfold strLtB
      rw [if_pos h]

/-- The string order is transitive. -/
theorem strLtB_trans : ∀ s t u : Str,
    strLtB s t = true → strLtB t u = true → strLtB s u = true
  | [], [], _, h1, _ => by simp [strLtB] at h1
  | [], _ :: _, [], _, h2 => by simp [strLtB] at h2
  | [], _ :: _, _ :: _, _, _ => rfl
  | _ :: _, [], _, h1, _ => by simp [strLtB] at h1
  | _ :: _, _ :: _, [], _, h2 => by simp [strLtB] at h2
  | a :: as_, b :: bs, c :: cs, h1, h2 => by
    unfold strLtB at h1 h2 ⊢
    by_cases hab : a.toNat < b.toNat
    · by_cases hbc : b.toNat < c.toNat
      · rw [if_pos (Nat.lt_trans hab hbc)]
      · rw [if_neg hbc] at h2
        by_cases hcb : c.toNat < b.toNat
        · rw [if_pos hcb] at h2
          exact absurd h2 (by simp)
        · have hbceq : b = c := charEq_of_toNat_eq b c
            (Nat.le_antisymm (Nat.le_of_not_lt hcb) (Nat.le_of_not_lt hbc))
          subst hbceq
          rw [if_pos hab]
    · rw [if_neg hab] at h1
      by_cases hba : b.toNat < a.toNat
      · rw [if_pos hba] at h1
        exact absurd h1 (by simp)
      · have habeq : a = b := charEq_of_toNat_eq a b
          (Nat.le_antisymm (Nat.le_of_not_lt hba) (Nat.le_of_not_lt hab))
        subst habeq
        rw [if_neg hba] at h1
        by_cases hac : a.toNat < c.toNat
        · rw [if_pos hac]
        · rw [if_neg hac] at h2 ⊢
          by_cases hca : c.toNat < a.toNat
          · rw [if_pos hca] at h2
            exact absurd h2 (by simp)
          · rw [if_neg hca] at h2 ⊢
            exact strLtB_trans as_ bs cs h1 h2

/-- The hierarchy comparator is total. -/
theorem taskCmpLe_total (a b : Task) :
    taskCmpLe a b = true ∨ taskCmpLe b a = true := by
  unfold taskCmpLe
  by_cases hp : a.file.path = b.file.path
  · rw [if_pos hp, if_pos hp.symm]
    rcases Nat.le_total a.lineNumber b.lineNumber with h | h
    · exact Or.inl (by simpa using h)
    · exact Or.inr (by simpa using h)
  · rw [if_neg hp, if_neg (fun hc => hp hc.symm)]
    rcases strLtB_total a.file.path b.file.path with h | h | h
    · exact absurd h hp
    · exact Or.inl h
    · exact Or.inr h

/-- The hierarchy comparator is transitive. -/
theorem taskCmpLe_trans (a b c : Task)
    (h1 : taskCmpLe a b = true) (h2 : taskCmpLe b c = true) :
    taskCmpLe a c = true := by
  unfold taskCmpLe at h1 h2 ⊢
  by_cases hab : a.file.path = b.file.path
  · by_cases hbc : b.file.path = c.file.path
    · rw [if_pos (hab.trans hbc)]
      rw [if_pos hab] at h1
      rw [if_pos hbc] at h2
      simp only [decide_eq_true_eq] at h1 h2 ⊢
      exact Nat.le_trans h1 h2
    · rw [if_neg (fun hc => hbc (hab.symm.trans hc)), hab]
      rw [if_neg hbc] at h2
      exact h2
  · by_cases hbc : b.file.path = c.file.path
    · rw [if_neg (fun hc => hab (hc.trans hbc.symm)), ← hbc]
      rw [if_neg hab] at h1
      exact h1
    · rw [if_neg hab] at h1
      rw [if_neg hbc] at h2
      have hac := strLtB_trans _ _ _ h1 h2
      have hacne : a.file.path ≠ c.file.path := by
        intro hc
        have h2b : strLtB b.file.path a.file.path = true := by rw [hc]; exact h2
        have hrefl := strLtB_trans _ _ _ h1 h2b
        rw [strLtB_irrefl] at hrefl
        exact Bool.noConfusion hrefl
      rw [if_neg hacne]
      exact hac

/-- Stable insertion preserves sortedness of the accumulator. -/
theorem orderedInsertTask_pairwise (x : Task) : ∀ l : List Task,
    l.Pairwise (fun a b => taskCmpLe a b = true) →
    (orderedInsertTask x l).Pairwise (fun a b => taskCmpLe a b = true)
  | [], _ => List.pairwise_singleton _ _
  | y :: ys, hl => by
    rw [List.pairwise_cons] at hl
    obtain ⟨hy, hys⟩ := hl
    unfold orderedInsertTask
    by_cases hc : taskCmpLe y x = true
    · rw [if_pos hc, List.pairwise_cons]
      refine ⟨?_, orderedInsertTask_pairwise x ys hys⟩
      intro z hz
      have hz2 := (orderedInsertTask_perm x ys).mem_iff.mp hz
      rcases List.mem_cons.mp hz2 with h | h
      · subst h; exact hc
      · exact hy z h
    · rw [if_neg hc, List.pairwise_cons]
      have hxy : taskCmpLe x y = true := (taskCmpLe_total x y).resolve_right hc
      refine ⟨?_, List.pairwise_cons.mpr ⟨hy, hys⟩⟩
      intro z hz
      rcases List.mem_cons.mp hz with h | h
      · subst h; exact hxy
      · exact taskCmpLe_trans x y z hxy (hy z h)

/-- The insertion-sort fold keeps the accumulator sorted. -/
theorem sortTasks_pairwise_aux : ∀ (l acc : List Task),
    acc.Pairwise (fun a b => taskCmpLe a b = true) →
    (l.foldl (fun acc x => orderedInsertTask x acc) acc).Pairwise
      (fun a b => taskCmpLe a b = true)
  | [], _, hacc => hacc
  | x :: l, acc, hacc => by
    rw [List.foldl_cons]
    exact sortTasks_pairwise_aux l _ (orderedInsertTask_pairwise x acc hacc)

/-- sortTasks returns a list sorted by the comparator. -/
theorem sortTasks_pairwise (l : List Task) :
    (sortTasks l).Pairwise (fun a b => taskCmpLe a b = true) :=
  sortTasks_pairwise_aux l [] List.Pairwise.nil

/-- The hierarchy-relevant identity of a task: id, document path, line and
depth, all untouched by the link edits of the hierarchy pass. -/
def essent (t : Task) : Str × Str × Nat × Nat :=
  (t.id, t.file.path, t.lineNumber, t.depth)

/-- essent ignores the link fields. -/
theorem essent_stripLinks (t : Task) : essent (stripLinks t) = essent t := rfl

/-- essent of a strip-mapped list. -/
theorem map_essent_strip (l : List Task) :
    (l.map stripLinks).map essent = l.map essent := by
  rw [List.map_map]
  exact List.map_congr_left (fun t _ => rfl)

/-- Unpack an essent equality into its components. -/
theorem essent_eq_parts {p q : Task} (h : essent p = essent q) :
    p.id = q.id ∧ p.file.path = q.file.path ∧
    p.lineNumber = q.lineNumber ∧ p.depth = q.depth := by
  unfold essent at h
  simp only [Prod.mk.injEq] at h
  exact h

/-- When hierPop stops on a live stack entry, that entry is from the same
document as the current task and strictly shallower. -/
theorem hierPop_head_spec (out : List Task) (t : Task) :
    ∀ (st : List Nat) (i : Nat) (is : List Nat),
    hierPop out t st = i :: is → ∀ top, out.get? i = some top →
    top.file.path = t.file.path ∧ top.depth < t.depth
  | [], _, _, h, _, _ => by simp [hierPop] at h
  | j :: js, i, is, h, top, hget => by
    unfold hierPop at h
    cases hj : out.get? j with
    | none =>
      simp only [hj] at h
      obtain ⟨h1, _⟩ := List.cons_eq_cons.mp h
      rw [← h1, hj] at hget
      exact Option.noConfusion hget
    | some tj =>
      simp only [hj] at h
      by_cases hc : (tj.file.path ≠ t.file.path || tj.depth ≥ t.depth) = true
      · rw [if_pos hc] at h
        exact hierPop_head_spec out t js i is h top hget
      · rw [if_neg hc] at h
        obtain ⟨h1, _⟩ := List.cons_eq_cons.mp h
        rw [← h1, hj] at hget
        obtain rfl : tj = top := Option.some.injEq .. ▸ hget
        simp only [Bool.or_eq_true, decide_eq_true_eq, not_or, ge_iff_le,
          not_le, Decidable.not_not] at hc
        exact ⟨hc.1, hc.2⟩

/-- The hierarchy invariant of a processed list: every recorded parent link
points at a processed task of the same document with a strictly smaller line
number and a strictly smaller depth. -/
def ParentOk (out : List Task) : Prop :=
  ∀ c ∈ out, ∀ pid, c.parentId = some pid →
    ∃ p ∈ out, p.id = pid ∧ p.file.path = c.file.path ∧
      p.lineNumber < c.lineNumber ∧ p.depth < c.depth

/-- Appending a link-free task preserves the invariant. -/
theorem parentOk_append_none (out : List Task) (t0 : Task)
    (hpo : ParentOk out) (ht : t0.parentId = none) : ParentOk (out ++ [t0]) := by
  intro c hc pid hpid
  rcases List.mem_append.mp hc with h | h
  · obtain ⟨p, hp, h1, h2, h3, h4⟩ := hpo c h pid hpid
    exact ⟨p, List.mem_append.mpr (Or.inl hp), h1, h2, h3, h4⟩
  · have hct : c = t0 := by simpa using h
    rw [hct, ht] at hpid
    exact Option.noConfusion hpid

/-- The comparator reads only the document path and line of its left task. -/
theorem taskCmpLe_congr_left {p q : Task} (u : Task)
    (hpath : p.file.path = q.file.path) (hline : p.lineNumber = q.lineNumber) :
    taskCmpLe p u = taskCmpLe q u := by
  unfold taskCmpLe
  rw [hpath, hline]

/-- Tasks of the shorter list reappear, up to links, in the longer one. -/
theorem mem_transfer_of_map_append {out1 out2 : List Task}
    {e : Str × Str × Nat × Nat}
    (h : out2.map essent = out1.map essent ++ [e]) :
    ∀ p ∈ out1, ∃ q ∈ out2, essent q = essent p := by
  intro p hp
  have h1 : essent p ∈ out2.map essent := by
    rw [h]
    exact List.mem_append.mpr (Or.inl (List.mem_map_of_mem essent hp))
  obtain ⟨q, hq, he⟩ := List.mem_map.mp h1
  exact ⟨q, hq, he⟩

/-- A parent witness survives any rewriting of the processed list that keeps
its essent column. -/
theorem witness_transfer {out1 out2 : List Task}
    (hmem : ∀ p ∈ out1, ∃ q ∈ out2, essent q = essent p)
    {pid : Str} {c : Task}
    (h : ∃ p ∈ out1, p.id = pid ∧ p.file.path = c.file.path ∧
      p.lineNumber < c.lineNumber ∧ p.depth < c.depth) :
    ∃ p ∈ out2, p.id = pid ∧ p.file.path = c.file.path ∧
      p.lineNumber < c.lineNumber ∧ p.depth < c.depth := by
  obtain ⟨p, hp, h1, h2, h3, h4⟩ := h
  obtain ⟨q, hq, he⟩ := hmem p hp
  obtain ⟨e1, e2, e3, e4⟩ := essent_eq_parts he
  refine ⟨q, hq, e1.trans h1, e2.trans h2, ?_, ?_⟩
  · rw [e3]; exact h3
  · rw [e4]; exact h4

/-- One hierarchy step appends exactly the current task's essent. -/
theorem hierStep_out_map_essent (s : HierState) (t : Task) :
    (hierStep s t).out.map essent = s.out.map essent ++ [essent t] := by
  have h2 := congrArg (List.map essent) (hierStep_out_map_strip s t)
  rw [map_essent_strip, List.map_append, map_essent_strip] at h2
  exact h2

/-- The attach branch of the hierarchy step preserves the invariant when the
chosen parent is from the same document, on an earlier line, and shallower. -/
theorem parentOk_attach (out : List Task) (i : Nat) (parent t0 : Task)
    (hget : out.get? i = some parent)
    (hpo : ParentOk out)
    (hpath : parent.file.path = t0.file.path)
    (hline : parent.lineNumber < t0.lineNumber)
    (hdep : parent.depth < t0.depth) :
    ParentOk ((out.set i { parent with children := parent.children ++ [t0.id] }) ++
      [{ t0 with parentId := some parent.id }]) := by
  have hmapset : (out.set i
      { parent with children := parent.children ++ [t0.id] }).map essent
      = out.map essent := by
    rw [List.map_set]
    apply set_get?_self
    rw [List.get?_map, hget]
    rfl
  have hmap : ((out.set i { parent with children := parent.children ++ [t0.id] }) ++
      [{ t0 with parentId := some parent.id }]).map essent
      = out.map essent ++ [essent t0] := by
    rw [List.map_append, hmapset]
    rfl
  have htransfer := mem_transfer_of_map_append hmap
  intro c hc pid hpid
  rcases List.mem_append.mp hc with h | h
  · rcases mem_set_cases _ _ _ _ h with h | h
    · subst h
      exact witness_transfer htransfer
        (hpo parent (List.get?_mem hget) pid hpid)
    · exact witness_transfer htransfer (hpo c h pid hpid)
  · have hc2 : c = { t0 with parentId := some parent.id } := by simpa using h
    subst hc2
    have hpid2 : parent.id = pid :=
      Option.some.inj (show some parent.id = some pid from hpid)
    exact witness_transfer htransfer
      ⟨parent, List.get?_mem hget, hpid2, hpath, hline, hdep⟩

/-- One hierarchy step preserves the invariant, given that every already
processed task compares at or before the incoming task and shares no
(document, line) key with it. -/
theorem hierStep_parentOk (s : HierState) (t : Task)
    (hpo : ParentOk s.out)
    (hcross : ∀ p ∈ s.out, taskCmpLe p t = true ∧
      ¬(p.file.path = t.file.path ∧ p.lineNumber = t.lineNumber)) :
    ParentOk (hierStep s t).out := by
  unfold hierStep
  dsimp only
  cases hpop : hierPop s.out { t with children := [], parentId := none } s.stack with
  | nil => exact parentOk_append_none s.out _ hpo rfl
  | cons i is =>
    by_cases hd : ({ t with children := [], parentId := none } : Task).depth > 0
    · simp only [hd, if_true]
      cases hget : s.out.get? i with
      | none => exact parentOk_append_none s.out _ hpo rfl
      | some parent =>
        have hspec := hierPop_head_spec s.out _ s.stack i is hpop parent hget
        obtain ⟨hcmp, hne⟩ := hcross parent (List.get?_mem hget)
        have hline : parent.lineNumber < t.lineNumber := by
          unfold taskCmpLe at hcmp
          rw [if_pos hspec.1] at hcmp
          have hle : parent.lineNumber ≤ t.lineNumber := by simpa using hcmp
          rcases Nat.lt_or_ge parent.lineNumber t.lineNumber with h | h
          · exact h
          · exact absurd ⟨hspec.1, Nat.le_antisymm hle h⟩ hne
        exact parentOk_attach s.out i parent _ hget hpo hspec.1 hline hspec.2
    · simp only [hd, if_false]
      exact parentOk_append_none s.out _ hpo rfl

/-- Folding the hierarchy step over a run of tasks that is sorted by the
comparator and key-distinct, from a state whose processed list satisfies the
invariant and wholly precedes the run, keeps the invariant. -/
theorem hier_fold_parentOk :
    ∀ (ts : List Task) (s : HierState),
    ParentOk s.out →
    (∀ p ∈ s.out, ∀ u ∈ ts, taskCmpLe p u = true ∧
      ¬(p.file.path = u.file.path ∧ p.lineNumber = u.lineNumber)) →
    ts.Pairwise (fun a b => taskCmpLe a b = true ∧
      ¬(a.file.path = b.file.path ∧ a.lineNumber = b.lineNumber)) →
    ParentOk ((ts.foldl hierStep s).out)
  | [], _, hpo, _, _ => hpo
  | t :: ts, s, hpo, hcross, hpw => by
    rw [List.foldl_cons]
    rw [List.pairwise_cons] at hpw
    obtain ⟨hhead, htail⟩ := hpw
    refine hier_fold_parentOk ts (hierStep s t) ?_ ?_ htail
    · exact hierStep_parentOk s t hpo
        (fun p hp => hcross p hp t (List.mem_cons_self t ts))
    · intro p hp u hu
      have hmap := hierStep_out_map_essent s t
      have hme : essent p ∈ s.out.map essent ++ [essent t] := by
        rw [← hmap]
        exact List.mem_map_of_mem essent hp
      rcases List.mem_append.mp hme with h | h
      · obtain ⟨q, hq, he⟩ := List.mem_map.mp h
        obtain ⟨_, e2, e3, _⟩ := essent_eq_parts he
        obtain ⟨hc1, hc2⟩ := hcross q hq u (List.mem_cons_of_mem t hu)
        constructor
        · rw [taskCmpLe_congr_left u e2.symm e3.symm]
          exact hc1
        · rw [e2, e3] at hc2
          exact hc2
      · have he : essent p = essent t := by simpa using h
        obtain ⟨_, e2, e3, _⟩ := essent_eq_parts he
        obtain ⟨hc1, hc2⟩ := hhead u hu
        constructor
        · rw [taskCmpLe_congr_left u e2 e3]
          exact hc1
        · rw [e2, e3]
          exact hc2

/-- Claim C7 (amended): when no two input tasks share the same (document
path, line number) key, every task in the hierarchy output that has a parent
assigned points at a processed task of the same document with a strictly
smaller line number and a strictly smaller depth. -/
theorem hierarchy_invariant_amended (tasks : List Task)
    (hkeys : tasks.Pairwise (fun a b =>
      ¬(a.file.path = b.file.path ∧ a.lineNumber = b.lineNumber))) :
    ∀ c ∈ (buildHierarchyState tasks).out, ∀ pid, c.parentId = some pid →
      ∃ p ∈ (buildHierarchyState tasks).out, p.id = pid ∧
        p.file.path = c.file.path ∧ p.lineNumber < c.lineNumber ∧
        p.depth < c.depth := by
  unfold buildHierarchyState
  refine hier_fold_parentOk (sortTasks tasks)
    { out := [], stack := [], roots := [] } ?_ ?_ ?_
  · intro c hc pid _
    exact absurd hc (by simp)
  · intro p hp
    exact absurd hp (by simp)
  · have hsorted := sortTasks_pairwise tasks
    have hperm := sortTasks_perm tasks
    have hkeys2 := (List.Perm.pairwise_iff
      (fun hab hc => hab ⟨hc.1.symm, hc.2.symm⟩) hperm).mpr hkeys
    exact List.Pairwise.and hsorted hkeys2

/-- A depth-0 task at line 1, used to exercise the amended invariant. -/
def exT7a : Task :=
  (parseTaskLine (("- [ ] t").data)
    { path := ("f.md").data, basename := ("f").data } 1 []).getD defaultTask

/-- A depth-1 task at line 2, child of the one above. -/
def exT7b : Task :=
  (parseTaskLine (("  - [ ] t").data)
    { path := ("f.md").data, basename := ("f").data } 2 []).getD defaultTask

/-- The processed child task of the two-task example. -/
def exChild7 : Task :=
  ((buildHierarchyState [exT7a, exT7b]).out.get? 1).getD defaultTask

/-- The amended invariant applied to a concrete two-task document. -/
theorem hierarchy_invariant_amended_witness :
    ∃ p ∈ (buildHierarchyState [exT7a, exT7b]).out, p.id = (("f.md:1").data) ∧
      p.file.path = exChild7.file.path ∧ p.lineNumber < exChild7.lineNumber ∧
      p.depth < exChild7.depth :=
  hierarchy_invariant_amended [exT7a, exT7b] (by decide)
    exChild7 (List.get?_mem
      (show (buildHierarchyState [exT7a, exT7b]).out.get? 1 = some exChild7 from rfl))
    (("f.md:1").data) (by rfl)

/-! ## Round-trip analysis: scanner position safety -/

/-- A string is clear for a position matcher when the matcher fails at every
position inside it, whatever text follows: no leftmost-match scan can start
a match strictly before the end of the string. -/
def ClearFor {β : Type} (f : Str → Option β) (a : Str) : Prop :=
  ∀ t b, t <:+ a → t ≠ [] → f (t ++ b) = none

/-- A suffix of a concatenation is a suffix of the right part or a nonempty
suffix of the left part with the whole right part appended. -/
theorem suffix_append_cases {α : Type} {t : List α} :
    ∀ {x y : List α}, t <:+ x ++ y →
    t <:+ y ∨ ∃ u, u <:+ x ∧ u ≠ [] ∧ t = u ++ y
  | [], y, h => Or.inl (by simpa using h)
  | c :: x, y, h => by
    rcases List.suffix_cons_iff.mp h with h | h
    · exact Or.inr ⟨c :: x, List.suffix_refl _, by simp, by simpa using h⟩
    · rcases suffix_append_cases h with h | ⟨u, hu, hune, rfl⟩
      · exact Or.inl h
      · exact Or.inr ⟨u, hu.trans (List.suffix_cons c x), hune, rfl⟩

/-- Clearness is closed under concatenation. -/
theorem ClearFor.append {β : Type} {f : Str → Option β} {x y : Str}
    (hx : ClearFor f x) (hy : ClearFor f y) : ClearFor f (x ++ y) := by
  intro t b ht hne
  rcases suffix_append_cases ht with h | ⟨u, hu, hune, rfl⟩
  · exact hy t b h hne
  · have := hx u (y ++ b) hu hune
    simpa [List.append_assoc] using this

/-- The empty string is clear for every matcher. -/
theorem clearFor_nil {β : Type} (f : Str → Option β) : ClearFor f [] := by
  intro t b ht hne
  exact absurd (List.suffix_nil.mp ht) hne

/-- A scan over a clear string finds nothing. -/
theorem findFirstMap_eq_none_of_clear {β : Type} {f : Str → Option β}
    (h0 : f [] = none) :
    ∀ {S : Str}, ClearFor f S → findFirstMap f S = none
  | [], _ => by simp [findFirstMap, h0]
  | c :: cs, hS => by
    have h1 := hS (c :: cs) [] (List.suffix_refl _) (by simp)
    rw [List.append_nil] at h1
    have h2 : ClearFor f cs := fun t b ht hne => hS t b (ht.trans (List.suffix_cons c cs)) hne
    unfold findFirstMap
    rw [h1, findFirstMap_eq_none_of_clear h0 h2]

/-- The leftmost match in a string whose prefix is clear is the shifted
leftmost match of the rest. -/
theorem findFirstMap_append_of_clear {β : Type} {f : Str → Option β} :
    ∀ {a : Str} (b : Str), ClearFor f a →
    findFirstMap f (a ++ b) =
      (findFirstMap f b).map (fun pa => (a ++ pa.1, pa.2))
  | [], b, _ => by
    cases h : findFirstMap f b with
    | none => simp [h]
    | some pa => simp [h]
  | c :: a, b, ha => by
    have h1 := ha (c :: a) b (List.suffix_refl _) (by simp)
    have h2 : ClearFor f a := fun t b2 ht hne => ha t b2 (ht.trans (List.suffix_cons c a)) hne
    have hrec := findFirstMap_append_of_clear b h2
    rw [show (c :: a) ++ b = c :: (a ++ b) from rfl] at h1
    cases hfb : findFirstMap f b with
    | none =>
      rw [hfb] at hrec
      show findFirstMap f (c :: (a ++ b)) = _
      unfold findFirstMap
      rw [h1, hrec]
      rfl
    | some pa =>
      obtain ⟨p, x⟩ := pa
      rw [hfb] at hrec
      show findFirstMap f (c :: (a ++ b)) = _
      unfold findFirstMap
      rw [h1, hrec]
      rfl

/-- A match at the head of the string is the leftmost match. -/
theorem findFirstMap_head {β : Type} {f : Str → Option β} {b : Str} {x : β}
    (h : f b = some x) : findFirstMap f b = some ([], x) := by
  cases b with
  | nil => simp [findFirstMap, h]
  | cons c cs => simp [findFirstMap, h]

/-! ## Round-trip analysis: string utilities -/

/-- dropWhile walks through a fully satisfying prefix. -/
theorem dropWhile_append_all {p : Char → Bool} :
    ∀ {a : Str} (b : Str), (∀ c ∈ a, p c = true) →
    (a ++ b).dropWhile p = b.dropWhile p
  | [], _, _ => rfl
  | c :: a, b, h => by
    rw [List.cons_append, List.dropWhile_cons_of_pos (h c (by simp))]
    exact dropWhile_append_all b (fun d hd => h d (List.mem_cons_of_mem c hd))

/-- takeWhile keeps a fully satisfying prefix. -/
theorem takeWhile_append_all {p : Char → Bool} :
    ∀ {a : Str} (b : Str), (∀ c ∈ a, p c = true) →
    (a ++ b).takeWhile p = a ++ b.takeWhile p
  | [], _, _ => rfl
  | c :: a, b, h => by
    rw [List.cons_append, List.takeWhile_cons_of_pos (h c (by simp))]
    rw [takeWhile_append_all b (fun d hd => h d (List.mem_cons_of_mem c hd))]
    rfl

/-- dropWhile stops inside the left part when something there survives. -/
theorem dropWhile_append_ne {p : Char → Bool} :
    ∀ {a : Str} (b : Str), a.dropWhile p ≠ [] →
    (a ++ b).dropWhile p = a.dropWhile p ++ b
  | [], _, h => absurd rfl h
  | c :: a, b, h => by
    by_cases hc : p c = true
    · rw [List.cons_append, List.dropWhile_cons_of_pos hc,
        List.dropWhile_cons_of_pos hc]
      rw [List.dropWhile_cons_of_pos hc] at h
      exact dropWhile_append_ne b h
    · rw [List.cons_append, List.dropWhile_cons_of_neg (by simpa using hc),
        List.dropWhile_cons_of_neg (by simpa using hc)]
      rfl

/-- A literal prefix test that fails inside the available text fails for
every continuation. -/
theorem isPrefixOf_append_false :
    ∀ (pat l : Str), (pat.take l.length).isPrefixOf l = false →
    ∀ b, pat.isPrefixOf (l ++ b) = false
  | [], l, h, _ => by simp [List.isPrefixOf] at h
  | _ :: _, [], h, _ => by simp [List.isPrefixOf] at h
  | p :: ps, c :: cs, h, b => by
    simp only [List.length_cons, List.take_succ_cons, List.isPrefixOf,
      Bool.and_eq_false_iff] at h
    rw [List.cons_append]
    simp only [List.isPrefixOf, Bool.and_eq_false_iff]
    rcases h with h | h
    · exact Or.inl h
    · exact Or.inr (isPrefixOf_append_false ps cs h b)

/-- A nonempty literal prefix test fails on a string with a different head. -/
theorem isPrefixOf_cons_false {p c : Char} (ps cs : Str) (h : ¬ p = c) :
    (p :: ps).isPrefixOf (c :: cs) = false := by
  simp [List.isPrefixOf, h]

/-- A case-insensitive prefix test that fails inside the available text
fails for every continuation. -/
theorem startsWithCI_append_false :
    ∀ (pat l : Str), ¬ toLowerStr (l.take pat.length) = pat.take l.length →
    ∀ b, startsWithCI pat (l ++ b) = false
  | pat, [], h, _ => by simp [toLowerStr] at h
  | [], _ :: _, h, _ => by simp [toLowerStr] at h
  | p :: ps, c :: cs, h, b => by
    unfold startsWithCI
    simp only [List.length_cons, List.take_succ_cons, toLowerStr, List.map_cons,
      List.cons.injEq, not_and] at h
    rw [List.cons_append]
    simp only [List.take_succ_cons, toLowerStr, List.map_cons]
    by_cases hc : c.toLower = p
    · have h2 := h hc
      have h3 := startsWithCI_append_false ps cs (by simpa [toLowerStr] using h2) b
      unfold startsWithCI at h3
      simp only [decide_eq_false_iff_not] at h3 ⊢
      intro hcontra
      exact h3 (by simpa [toLowerStr, hc] using hcontra)
    · simp only [decide_eq_false_iff_not]
      intro hcontra
      exact hc (by simpa using congrArg List.head? hcontra)

/-- A case-insensitive prefix test fails on a string whose head does not
lower onto the pattern head. -/
theorem startsWithCI_cons_false {p c : Char} (ps cs : Str) (h : ¬ c.toLower = p) :
    startsWithCI (p :: ps) (c :: cs) = false := by
  unfold startsWithCI
  simp only [List.take_succ_cons, toLowerStr, List.map_cons, decide_eq_false_iff_not]
  intro hcontra
  exact h (by simpa using congrArg List.head? hcontra)

/-- The last element is a member. -/
theorem getLast?_mem_of {l : Str} {a : Char} (h : l.getLast? = some a) : a ∈ l := by
  have h2 : l.reverse.head? = some a := by rw [List.head?_reverse]; exact h
  exact List.mem_reverse.mp (List.mem_of_mem_head? h2)

/-- Whatever the string ends with is not whitespace. -/
def lastOk (l : Str) : Prop :=
  ∀ c, l.getLast? = some c → isWsChar c = false

/-- The empty string ends with nothing. -/
theorem lastOk_nil : lastOk [] := fun _ h => Option.noConfusion h

/-- lastOk composes over concatenation. -/
theorem lastOk_append {x y : Str} (hx : lastOk x) (hy : lastOk y) :
    lastOk (x ++ y) := by
  intro c h
  rw [List.getLast?_append] at h
  cases hy2 : y.getLast? with
  | some d =>
    rw [hy2] at h
    simp only [Option.or] at h
    exact hy c (hy2.trans h)
  | none =>
    rw [hy2] at h
    simp only [Option.or] at h
    exact hx c h

/-- A nonempty string with lastOk has a non-whitespace residue after the
whitespace skip. -/
theorem dropWhile_ws_ne_nil {l : Str} (hl : lastOk l) (hne : l ≠ []) :
    l.dropWhile isWsChar ≠ [] := by
  intro h
  have hall := List.dropWhile_eq_nil_iff.mp h
  cases hg : l.getLast? with
  | none => exact hne (List.getLast?_eq_none_iff.mp hg)
  | some c =>
    have := hall c (getLast?_mem_of hg)
    rw [hl c hg] at this
    exact Bool.noConfusion this

/-- A nonempty suffix ends like the whole string. -/
theorem suffix_getLast? {t u : Str} (h : t <:+ u) (hne : t ≠ []) :
    u.getLast? = t.getLast? := by
  obtain ⟨s, rfl⟩ := h
  rw [List.getLast?_append]
  cases ht : t.getLast? with
  | none => exact absurd (List.getLast?_eq_none_iff.mp ht) hne
  | some c => simp [Option.or]

/-- lastOk restricts to nonempty suffixes. -/
theorem lastOk_suffix {t u : Str} (hu : lastOk u) (h : t <:+ u) (hne : t ≠ []) :
    lastOk t := by
  intro c hc
  exact hu c ((suffix_getLast? h hne).trans hc)

/-- A pointwise fixed point of map is fixed at every member. -/
theorem map_fix_mem {f : Char → Char} :
    ∀ {l : Str}, l.map f = l → ∀ c ∈ l, f c = c
  | [], _, c, hc => absurd hc (by simp)
  | a :: l, h, c, hc => by
    rw [List.map_cons, List.cons.injEq] at h
    rcases List.mem_cons.mp hc with rfl | hc2
    · exact h.1
    · exact map_fix_mem h.2 c hc2

/-- jsTrim is the identity on a string that neither starts nor ends with
whitespace. -/
theorem jsTrim_eq_self {l : Str}
    (h1 : ∀ c, l.head? = some c → isWsChar c = false)
    (h2 : lastOk l) : jsTrim l = l := by
  cases l with
  | nil => rfl
  | cons a as =>
    unfold jsTrim
    rw [List.dropWhile_cons_of_neg (by simp [h1 a rfl])]
    have h3 : (a :: as).reverse.dropWhile isWsChar = (a :: as).reverse := by
      cases hr : (a :: as).reverse with
      | nil => rfl
      | cons b bs =>
        have hb : (a :: as).getLast? = some b := by
          rw [← List.head?_reverse, hr]
          rfl
        rw [List.dropWhile_cons_of_neg (by simp [h2 b hb])]
    rw [h3, List.reverse_reverse]

/-- jsTrim swallows an all-whitespace tail of a string that is otherwise a
trim fixed point. -/
theorem jsTrim_append_ws {x w : Str}
    (hh : ∀ c, x.head? = some c → isWsChar c = false)
    (hl : lastOk x) (hw : ∀ c ∈ w, isWsChar c = true) : jsTrim (x ++ w) = x := by
  cases x with
  | nil =>
    unfold jsTrim
    rw [List.nil_append, List.dropWhile_eq_nil_iff.mpr hw]
    rfl
  | cons a as =>
    unfold jsTrim
    rw [List.cons_append, List.dropWhile_cons_of_neg (by simp [hh a rfl])]
    rw [show a :: (as ++ w) = (a :: as) ++ w from rfl, List.reverse_append]
    rw [dropWhile_append_all _ (fun c hc => hw c (List.mem_reverse.mp hc))]
    have h3 : (a :: as).reverse.dropWhile isWsChar = (a :: as).reverse := by
      cases hr : (a :: as).reverse with
      | nil => rfl
      | cons b bs =>
        have hb : (a :: as).getLast? = some b := by
          rw [← List.head?_reverse, hr]
          rfl
        rw [List.dropWhile_cons_of_neg (by simp [hl b hb])]
    rw [h3, List.reverse_reverse]


/-- A nonempty trim fixed point does not start with whitespace. -/
theorem trim_fix_head {l : Str} (h : jsTrim l = l) :
    ∀ c, l.head? = some c → isWsChar c = false := by
  intro c hc
  cases l with
  | nil => exact Option.noConfusion hc
  | cons a as =>
    have hac : a = c := by simpa using hc
    by_contra hws
    have hws2 : isWsChar a = true := by
      rw [hac]
      simpa using hws
    have hlen := congrArg List.length h
    unfold jsTrim at hlen
    rw [List.dropWhile_cons_of_pos hws2] at hlen
    rw [List.length_reverse] at hlen
    have hle1 : ((as.dropWhile isWsChar).reverse.dropWhile isWsChar).length ≤ as.length := by
      calc ((as.dropWhile isWsChar).reverse.dropWhile isWsChar).length
          ≤ (as.dropWhile isWsChar).reverse.length := (List.dropWhile_suffix _).length_le
        _ = (as.dropWhile isWsChar).length := List.length_reverse _
        _ ≤ as.length := (List.dropWhile_suffix _).length_le
    rw [hlen] at hle1
    simp at hle1

/-- A trim fixed point does not end with whitespace. -/
theorem trim_fix_last {l : Str} (h : jsTrim l = l) : lastOk l := by
  intro c hc
  by_contra hws
  have hws2 : isWsChar c = true := by simpa using hws
  have hrev : l.reverse.head? = some c := by rw [List.head?_reverse]; exact hc
  have hlen := congrArg List.length h
  unfold jsTrim at hlen
  rw [List.length_reverse] at hlen
  have h1 : ((l.dropWhile isWsChar).reverse.dropWhile isWsChar).length ≤
      (l.dropWhile isWsChar).length := by
    calc ((l.dropWhile isWsChar).reverse.dropWhile isWsChar).length
        ≤ (l.dropWhile isWsChar).reverse.length := (List.dropWhile_suffix _).length_le
      _ = (l.dropWhile isWsChar).length := List.length_reverse _
  have h2 : (l.dropWhile isWsChar).length ≤ l.length := (List.dropWhile_suffix _).length_le
  have e2 : (l.dropWhile isWsChar).length = l.length :=
    Nat.le_antisymm h2 (by rw [← hlen]; exact h1)
  have hdl : l.dropWhile isWsChar = l :=
    List.IsSuffix.eq_of_length (List.dropWhile_suffix _) e2
  have e1 : ((l.dropWhile isWsChar).reverse.dropWhile isWsChar).length = l.length := hlen
  rw [hdl] at e1
  cases hr : l.reverse with
  | nil =>
    rw [hr] at hrev
    exact Option.noConfusion hrev
  | cons b bs =>
    obtain rfl : b = c := by
      rw [hr] at hrev
      simpa using hrev
    have h3 : (l.reverse.dropWhile isWsChar).length ≤ bs.length := by
      rw [hr, List.dropWhile_cons_of_pos hws2]
      exact (List.dropWhile_suffix _).length_le
    rw [e1] at h3
    have h4 : l.length = bs.length + 1 := by
      rw [← List.length_reverse l, hr]
      rfl
    rw [h4] at h3
    exact Nat.not_succ_le_self _ h3

/-- The character discipline the round trip needs of display text: no line
terminator, nothing that lowers onto the bracket opener, no closing bracket,
no hash, no star. -/
def safeTextChar (c : Char) : Bool :=
  isDotChar c && !(c.toLower = '[') && !(c = ']') && !(c = '#') && !(c = '*')

/-- The character discipline of a canonical recurrence rule string. -/
def safeRawChar (c : Char) : Bool :=
  isDotChar c && !(c.toLower = '[') && !(c = ']')

/-- The character discipline the inline-extraction pipeline needs of the
working text left of the emitted segments: no line terminator, nothing that
lowers onto the bracket opener, no closing bracket, no hash. -/
def metaTextChar (c : Char) : Bool :=
  isDotChar c && !(c.toLower = '[') && !(c = ']') && !(c = '#')

/-- Unpack safeTextChar. -/
theorem safeTextChar_spec {c : Char} (h : safeTextChar c = true) :
    isDotChar c = true ∧ c.toLower ≠ '[' ∧ c ≠ ']' ∧ c ≠ '#' ∧ c ≠ '*' ∧ c ≠ '[' := by
  unfold safeTextChar at h
  simp only [Bool.and_eq_true, Bool.not_eq_true', decide_eq_false_iff_not] at h
  obtain ⟨⟨⟨⟨h1, h2⟩, h3⟩, h4⟩, h5⟩ := h
  refine ⟨h1, h2, h3, h4, h5, ?_⟩
  intro hc
  subst hc
  exact h2 (by decide)

/-- Unpack safeRawChar. -/
theorem safeRawChar_spec {c : Char} (h : safeRawChar c = true) :
    isDotChar c = true ∧ c.toLower ≠ '[' ∧ c ≠ ']' ∧ c ≠ '[' := by
  unfold safeRawChar at h
  simp only [Bool.and_eq_true, Bool.not_eq_true', decide_eq_false_iff_not] at h
  obtain ⟨⟨h1, h2⟩, h3⟩ := h
  refine ⟨h1, h2, h3, ?_⟩
  intro hc
  subst hc
  exact h2 (by decide)

/-- Unpack metaTextChar. -/
theorem metaTextChar_spec {c : Char} (h : metaTextChar c = true) :
    isDotChar c = true ∧ c.toLower ≠ '[' ∧ c ≠ ']' ∧ c ≠ '#' ∧ c ≠ '[' := by
  unfold metaTextChar at h
  simp only [Bool.and_eq_true, Bool.not_eq_true', decide_eq_false_iff_not] at h
  obtain ⟨⟨⟨h1, h2⟩, h3⟩, h4⟩ := h
  refine ⟨h1, h2, h3, h4, ?_⟩
  intro hc
  subst hc
  exact h2 (by decide)

/-- Safe display-text characters satisfy the pipeline discipline. -/
theorem safeTextChar_meta {c : Char} (h : safeTextChar c = true) :
    metaTextChar c = true := by
  unfold safeTextChar at h
  unfold metaTextChar
  simp only [Bool.and_eq_true] at h ⊢
  exact ⟨⟨⟨h.1.1.1.1, h.1.1.1.2⟩, h.1.1.2⟩, h.1.2⟩

/-- The whitespace class is six concrete characters. -/
theorem isWsChar_cases {c : Char} (h : isWsChar c = true) :
    c = ' ' ∨ c = '\t' ∨ c = '\n' ∨ c = '\r' ∨ c = Char.ofNat 11 ∨ c = Char.ofNat 12 := by
  unfold isWsChar at h
  simp only [Bool.or_eq_true, decide_eq_true_eq] at h
  tauto

/-- Whitespace does not lower onto the bracket opener. -/
theorem ws_lower_ne_bracket {c : Char} (h : isWsChar c = true) : c.toLower ≠ '[' := by
  rcases isWsChar_cases h with rfl | rfl | rfl | rfl | rfl | rfl <;> decide

/-- Whitespace is not the bracket opener. -/
theorem ws_ne_bracket {c : Char} (h : isWsChar c = true) : c ≠ '[' := by
  rcases isWsChar_cases h with rfl | rfl | rfl | rfl | rfl | rfl <;> decide

/-- Whitespace is not the hash. -/
theorem ws_ne_hash {c : Char} (h : isWsChar c = true) : c ≠ '#' := by
  rcases isWsChar_cases h with rfl | rfl | rfl | rfl | rfl | rfl <;> decide

/-- A tag character is not whitespace. -/
theorem isTagChar_not_ws {c : Char} (h : isTagChar c = true) : isWsChar c = false := by
  by_contra hb
  have hw : isWsChar c = true := by simpa using hb
  rcases isWsChar_cases hw with rfl | rfl | rfl | rfl | rfl | rfl <;>
    exact absurd h (by decide)

/-- A tag character is not the bracket opener. -/
theorem isTagChar_ne_bracket {c : Char} (h : isTagChar c = true) : c ≠ '[' := by
  intro hc
  subst hc
  exact absurd h (by decide)

/-- A tag character is not the hash. -/
theorem isTagChar_ne_hash {c : Char} (h : isTagChar c = true) : c ≠ '#' := by
  intro hc
  subst hc
  exact absurd h (by decide)

/-- A tag character is no line terminator. -/
theorem isTagChar_dot {c : Char} (h : isTagChar c = true) : isDotChar c = true := by
  by_cases h1 : c = '\n'
  · subst h1
    exact absurd h (by decide)
  by_cases h2 : c = '\r'
  · subst h2
    exact absurd h (by decide)
  · simp [isDotChar, h1, h2]

/-- A digit is not the bracket opener. -/
theorem isDigitChar_ne_bracket {c : Char} (h : isDigitChar c = true) : c ≠ '[' := by
  intro hc
  subst hc
  exact absurd h (by decide)

/-- A digit is not whitespace. -/
theorem isDigitChar_not_ws {c : Char} (h : isDigitChar c = true) : isWsChar c = false := by
  by_contra hb
  have hw : isWsChar c = true := by simpa using hb
  rcases isWsChar_cases hw with rfl | rfl | rfl | rfl | rfl | rfl <;>
    exact absurd h (by decide)

/-- A digit is no line terminator. -/
theorem isDigitChar_dot {c : Char} (h : isDigitChar c = true) : isDotChar c = true := by
  by_cases h1 : c = '\n'
  · subst h1
    exact absurd h (by decide)
  by_cases h2 : c = '\r'
  · subst h2
    exact absurd h (by decide)
  · simp [isDotChar, h1, h2]

/-- The shape of a well-formed date string: ten characters, digits and the
dash. -/
theorem dateShape_chars {d : Str} (h : dateShape d = true) :
    d.length = 10 ∧ ∀ c ∈ d, isDigitChar c = true ∨ c = '-' := by
  rcases d with _ | ⟨a, d⟩
  · simp [dateShape] at h
  rcases d with _ | ⟨b, d⟩
  · simp [dateShape] at h
  rcases d with _ | ⟨c2, d⟩
  · simp [dateShape] at h
  rcases d with _ | ⟨c3, d⟩
  · simp [dateShape] at h
  rcases d with _ | ⟨c4, d⟩
  · simp [dateShape] at h
  rcases d with _ | ⟨c5, d⟩
  · simp [dateShape] at h
  rcases d with _ | ⟨c6, d⟩
  · simp [dateShape] at h
  rcases d with _ | ⟨c7, d⟩
  · simp [dateShape] at h
  rcases d with _ | ⟨c8, d⟩
  · simp [dateShape] at h
  rcases d with _ | ⟨c9, d⟩
  · simp [dateShape] at h
  rcases d with _ | ⟨c10, d⟩
  · unfold dateShape at h
    simp only [Bool.and_eq_true, decide_eq_true_eq] at h
    obtain ⟨⟨⟨⟨⟨⟨⟨⟨⟨h1, h2⟩, h3⟩, h4⟩, h5⟩, h6⟩, h7⟩, h8⟩, h9⟩, h10⟩ := h
    refine ⟨rfl, ?_⟩
    intro x hx
    simp only [List.mem_cons, List.not_mem_nil, or_false] at hx
    rcases hx with rfl | rfl | rfl | rfl | rfl | rfl | rfl | rfl | rfl | rfl <;> tauto
  · simp [dateShape] at h

/-- matchDoneAt needs its opener after the whitespace skip. -/
theorem matchDoneAt_none_of_prefix {l : Str}
    (h : (("[done:").data).isPrefixOf (l.dropWhile isWsChar) = false) :
    matchDoneAt l = none := by
  unfold matchDoneAt
  simp [h]

/-- matchCreatedAt needs its opener after the whitespace skip. -/
theorem matchCreatedAt_none_of_prefix {l : Str}
    (h : (("[created:").data).isPrefixOf (l.dropWhile isWsChar) = false) :
    matchCreatedAt l = none := by
  unfold matchCreatedAt
  simp [h]

/-- matchPriorityAt needs its opener at the position. -/
theorem matchPriorityAt_none_of_ci {l : Str}
    (h : startsWithCI (("[priority:").data) l = false) :
    matchPriorityAt l = none := by
  unfold matchPriorityAt
  simp [h]

/-- matchRepeatAt needs its opener at the position. -/
theorem matchRepeatAt_none_of_ci {l : Str}
    (h : startsWithCI (("[repeat:").data) l = false) :
    matchRepeatAt l = none := by
  unfold matchRepeatAt
  simp [h]

/-- matchBracketTagAt needs its opener at the position. -/
theorem matchBracketTagAt_none_of_prefix {tag l : Str}
    (h : tag.isPrefixOf l = false) :
    matchBracketTagAt tag l = none := by
  unfold matchBracketTagAt
  simp [h]

/-- A string of non-bracket characters that does not end in whitespace is
clear for the completed-date matcher. -/
theorem clearFor_done_chars {u : Str} (hchars : ∀ c ∈ u, c ≠ '[')
    (hlast : lastOk u) : ClearFor matchDoneAt u := by
  intro t b ht hne
  have hlt : lastOk t := lastOk_suffix hlast ht hne
  have hdw : t.dropWhile isWsChar ≠ [] := dropWhile_ws_ne_nil hlt hne
  apply matchDoneAt_none_of_prefix
  rw [dropWhile_append_ne b hdw]
  cases hd : t.dropWhile isWsChar with
  | nil => exact absurd hd hdw
  | cons c cs =>
    have hmemd : c ∈ t.dropWhile isWsChar := by
      rw [hd]
      exact List.mem_cons_self c cs
    have hc : c ∈ t := (List.dropWhile_suffix _).subset hmemd
    have hcne : c ≠ '[' := hchars c (ht.subset hc)
    rw [show (("[done:").data) = '[' :: (("done:").data) from rfl, List.cons_append]
    exact isPrefixOf_cons_false _ _ (fun hpc => hcne hpc.symm)

/-- Same for the created-date matcher. -/
theorem clearFor_created_chars {u : Str} (hchars : ∀ c ∈ u, c ≠ '[')
    (hlast : lastOk u) : ClearFor matchCreatedAt u := by
  intro t b ht hne
  have hlt : lastOk t := lastOk_suffix hlast ht hne
  have hdw : t.dropWhile isWsChar ≠ [] := dropWhile_ws_ne_nil hlt hne
  apply matchCreatedAt_none_of_prefix
  rw [dropWhile_append_ne b hdw]
  cases hd : t.dropWhile isWsChar with
  | nil => exact absurd hd hdw
  | cons c cs =>
    have hmemd : c ∈ t.dropWhile isWsChar := by
      rw [hd]
      exact List.mem_cons_self c cs
    have hc : c ∈ t := (List.dropWhile_suffix _).subset hmemd
    have hcne : c ≠ '[' := hchars c (ht.subset hc)
    rw [show (("[created:").data) = '[' :: (("created:").data) from rfl, List.cons_append]
    exact isPrefixOf_cons_false _ _ (fun hpc => hcne hpc.symm)

/-- A string of non-bracket characters is clear for a bracket-tag matcher. -/
theorem clearFor_bracketTag_chars (ps : Str) {u : Str}
    (hchars : ∀ c ∈ u, c ≠ '[') : ClearFor (matchBracketTagAt ('[' :: ps)) u := by
  intro t b ht hne
  cases t with
  | nil => exact absurd rfl hne
  | cons c cs =>
    apply matchBracketTagAt_none_of_prefix
    rw [List.cons_append]
    exact isPrefixOf_cons_false _ _
      (fun hpc => (hchars c (ht.subset (List.mem_cons_self c cs))) hpc.symm)

/-- A string whose characters do not lower onto the bracket opener is clear
for the priority matcher. -/
theorem clearFor_priority_chars {u : Str}
    (hchars : ∀ c ∈ u, c.toLower ≠ '[') : ClearFor matchPriorityAt u := by
  intro t b ht hne
  cases t with
  | nil => exact absurd rfl hne
  | cons c cs =>
    apply matchPriorityAt_none_of_ci
    rw [show (("[priority:").data) = '[' :: (("priority:").data) from rfl,
      List.cons_append]
    exact startsWithCI_cons_false _ _ (hchars c (ht.subset (List.mem_cons_self c cs)))

/-- Same for the recurrence matcher. -/
theorem clearFor_repeat_chars {u : Str}
    (hchars : ∀ c ∈ u, c.toLower ≠ '[') : ClearFor matchRepeatAt u := by
  intro t b ht hne
  cases t with
  | nil => exact absurd rfl hne
  | cons c cs =>
    apply matchRepeatAt_none_of_ci
    rw [show (("[repeat:").data) = '[' :: (("repeat:").data) from rfl,
      List.cons_append]
    exact startsWithCI_cons_false _ _ (hchars c (ht.subset (List.mem_cons_self c cs)))

/-- Decidable position safety of a concrete string for a whitespace-skipping
opener: every nonempty suffix keeps a non-whitespace residue that disagrees
with the opener within the available characters. -/
def wsTailSafe (pat : Str) (u : Str) : Bool :=
  u.tails.all fun t =>
    t.isEmpty ||
      (!(t.dropWhile isWsChar).isEmpty &&
        !((pat.take (t.dropWhile isWsChar).length).isPrefixOf (t.dropWhile isWsChar)))

/-- Soundness of wsTailSafe. -/
theorem wsTailSafe_sound {pat u : Str} (h : wsTailSafe pat u = true) :
    ∀ t b, t <:+ u → t ≠ [] →
    pat.isPrefixOf ((t ++ b).dropWhile isWsChar) = false := by
  intro t b ht hne
  have h2 := List.all_eq_true.mp h t ((List.mem_tails _ _).mpr ht)
  rw [Bool.or_eq_true] at h2
  rcases h2 with h2 | h2
  · exact absurd (by simpa using h2) hne
  · rw [Bool.and_eq_true] at h2
    obtain ⟨h3, h4⟩ := h2
    have hdw : t.dropWhile isWsChar ≠ [] := by
      intro hx
      rw [hx] at h3
      exact Bool.noConfusion h3
    rw [dropWhile_append_ne b hdw]
    exact isPrefixOf_append_false _ _ (by simpa using h4) b

/-- Checker route to done-clearness for concrete segments. -/
theorem clearFor_done_check {u : Str}
    (h : wsTailSafe (("[done:").data) u = true) : ClearFor matchDoneAt u :=
  fun t b ht hne => matchDoneAt_none_of_prefix (wsTailSafe_sound h t b ht hne)

/-- Checker route to created-clearness for concrete segments. -/
theorem clearFor_created_check {u : Str}
    (h : wsTailSafe (("[created:").data) u = true) : ClearFor matchCreatedAt u :=
  fun t b ht hne => matchCreatedAt_none_of_prefix (wsTailSafe_sound h t b ht hne)

/-- Decidable position safety for a case-insensitive opener. -/
def ciTailSafe (pat : Str) (u : Str) : Bool :=
  u.tails.all fun t =>
    t.isEmpty || !(decide (toLowerStr (t.take pat.length) = pat.take t.length))

/-- Soundness of ciTailSafe. -/
theorem ciTailSafe_sound {pat u : Str} (h : ciTailSafe pat u = true) :
    ∀ t b, t <:+ u → t ≠ [] → startsWithCI pat (t ++ b) = false := by
  intro t b ht hne
  have h2 := List.all_eq_true.mp h t ((List.mem_tails _ _).mpr ht)
  rw [Bool.or_eq_true] at h2
  rcases h2 with h2 | h2
  · exact absurd (by simpa using h2) hne
  · exact startsWithCI_append_false _ _ (by simpa using h2) b

/-- Checker route to priority-clearness for concrete segments. -/
theorem clearFor_priority_check {u : Str}
    (h : ciTailSafe (("[priority:").data) u = true) : ClearFor matchPriorityAt u :=
  fun t b ht hne => matchPriorityAt_none_of_ci (ciTailSafe_sound h t b ht hne)

/-- Checker route to repeat-clearness for concrete segments. -/
theorem clearFor_repeat_check {u : Str}
    (h : ciTailSafe (("[repeat:").data) u = true) : ClearFor matchRepeatAt u :=
  fun t b ht hne => matchRepeatAt_none_of_ci (ciTailSafe_sound h t b ht hne)

/-- A list is a literal prefix of itself extended. -/
theorem isPrefixOf_self_append : ∀ (l r : Str), l.isPrefixOf (l ++ r) = true
  | [], _ => by simp [List.isPrefixOf]
  | c :: cs, r => by
    simp [List.isPrefixOf, isPrefixOf_self_append cs r]

/-- takeWhile keeps a fully satisfying list. -/
theorem takeWhile_all {p : Char → Bool} :
    ∀ {l : Str}, (∀ c ∈ l, p c = true) → l.takeWhile p = l
  | [], _ => rfl
  | c :: cs, h => by
    rw [List.takeWhile_cons_of_pos (h c (by simp))]
    rw [takeWhile_all (fun d hd => h d (List.mem_cons_of_mem c hd))]

/-- The completed-date matcher consumes its own emitted segment. -/
theorem matchDoneAt_hit {d : Str} (hd : dateShape d = true) :
    matchDoneAt ((" [done:").data ++ d ++ [']']) = some d := by
  obtain ⟨hlen, _⟩ := dateShape_chars hd
  unfold matchDoneAt
  have h1 : ((" [done:").data ++ d ++ [']']).dropWhile isWsChar
      = (("[done:").data) ++ (d ++ [']']) := by
    show ((' ' :: ("[done:").data) ++ d ++ [']']).dropWhile isWsChar = _
    rw [List.append_assoc, List.cons_append, List.dropWhile_cons_of_pos (by decide)]
    show (('[' :: ("done:").data) ++ (d ++ [']'])).dropWhile isWsChar = _
    rw [List.cons_append, List.dropWhile_cons_of_neg (by decide)]
  rw [h1]
  dsimp only
  rw [isPrefixOf_self_append]
  simp only [if_true]
  rw [show (6 : Nat) = (("[done:").data).length from rfl, List.drop_left]
  rw [show (10 : Nat) = d.length from hlen.symm, List.take_left, hd]
  simp only [if_true]
  rw [List.drop_left]
  simp

/-- The created-date matcher consumes its own emitted segment. -/
theorem matchCreatedAt_hit {d : Str} (hd : dateShape d = true) :
    matchCreatedAt ((" [created:").data ++ d ++ [']']) = some d := by
  obtain ⟨hlen, _⟩ := dateShape_chars hd
  unfold matchCreatedAt
  have h1 : ((" [created:").data ++ d ++ [']']).dropWhile isWsChar
      = (("[created:").data) ++ (d ++ [']']) := by
    show ((' ' :: ("[created:").data) ++ d ++ [']']).dropWhile isWsChar = _
    rw [List.append_assoc, List.cons_append, List.dropWhile_cons_of_pos (by decide)]
    show (('[' :: ("created:").data) ++ (d ++ [']'])).dropWhile isWsChar = _
    rw [List.cons_append, List.dropWhile_cons_of_neg (by decide)]
  rw [h1]
  dsimp only
  rw [isPrefixOf_self_append]
  simp only [if_true]
  rw [show (9 : Nat) = (("[created:").data).length from rfl, List.drop_left]
  rw [show (10 : Nat) = d.length from hlen.symm, List.take_left, hd]
  simp only [if_true]
  rw [List.drop_left]
  simp

/-- The priority matcher consumes its own emitted segment. -/
theorem matchPriorityAt_hit (p : Priority) (rest : Str) :
    matchPriorityAt (('[' :: ("priority:").data) ++ (priorityToStr p ++ ']' :: rest)) =
      some (priorityToStr p, rest) := by
  cases p <;> rfl

/-- The recurrence matcher consumes its own emitted segment. -/
theorem matchRepeatAt_hit {raw : Str} (rest : Str) (hne : raw ≠ [])
    (hraw : ∀ c ∈ raw, c ≠ ']') :
    matchRepeatAt (('[' :: ("repeat:").data) ++ (raw ++ ']' :: rest)) =
      some (raw, rest) := by
  unfold matchRepeatAt
  have h1 : startsWithCI (("[repeat:").data)
      (('[' :: ("repeat:").data) ++ (raw ++ ']' :: rest)) = true := rfl
  rw [h1]
  simp only [if_true]
  rw [show (8 : Nat) = ('[' :: ("repeat:").data).length from rfl, List.drop_left]
  have h2 : (raw ++ ']' :: rest).takeWhile (· ≠ ']') = raw := by
    rw [takeWhile_append_all _ (fun c hc => by simpa using hraw c hc)]
    rw [List.takeWhile_cons_of_neg (by simp)]
    simp
  rw [h2]
  rw [if_neg (by simpa using hne)]
  rw [List.drop_left]
  rfl

/-- The matchers all fail on the empty string. -/
theorem matchDoneAt_nil : matchDoneAt [] = none := rfl

/-- See matchDoneAt_nil. -/
theorem matchCreatedAt_nil : matchCreatedAt [] = none := rfl

/-- See matchDoneAt_nil. -/
theorem matchPriorityAt_nil : matchPriorityAt [] = none := by decide

/-- See matchDoneAt_nil. -/
theorem matchRepeatAt_nil : matchRepeatAt [] = none := by decide

/-- See matchDoneAt_nil. -/
theorem matchBracketTagAt_nil (ps : Str) : matchBracketTagAt ('[' :: ps) [] = none := rfl

/-- The global bracket-tag scan passes over a bracket-free string. -/
theorem scanBracketTagAll_id (ps : Str) :
    ∀ (fuel : Nat) (l : Str), l.length < fuel → (∀ c ∈ l, c ≠ '[') →
    scanBracketTagAll ('[' :: ps) fuel l = ([], l)
  | 0, l, h, _ => absurd h (by simp)
  | _ + 1, [], _, _ => rfl
  | fuel + 1, c :: cs, h, hc => by
    unfold scanBracketTagAll
    rw [ matchBracketTagAt_none_of_prefix (by
      rw [show ('[' :: ps).isPrefixOf (c :: cs) = ('[' :: ps).isPrefixOf (c :: cs) from rfl]
      exact isPrefixOf_cons_false _ _ (fun hpc => (hc c (by simp)) hpc.symm))]
    rw [scanBracketTagAll_id ps fuel cs (Nat.lt_of_succ_lt_succ (by simpa using h))
      (fun d hd => hc d (List.mem_cons_of_mem c hd))]


/-- The tag scan walks over a hash-free prefix untouched. -/
theorem scanTagsGo_walk : ∀ (x r : Str), (∀ c ∈ x, c ≠ '#') →
    ∀ (fuel : Nat), (x ++ r).length < fuel →
    scanTagsGo fuel (x ++ r) =
      ((scanTagsGo (fuel - x.length) r).1, x ++ (scanTagsGo (fuel - x.length) r).2)
  | [], r, _, fuel, _ => by simp
  | c :: x, r, hx, fuel, h => by
    cases fuel with
    | zero => exact absurd h (Nat.not_lt_zero _)
    | succ f =>
      rcases hsr : scanTagsGo (f - x.length) r with ⟨gs, out⟩
      have he : (f + 1) - (c :: x).length = f - x.length := by
        simp [Nat.succ_sub_succ]
      rw [he, hsr]
      show scanTagsGo (f + 1) (c :: (x ++ r)) = (gs, (c :: x) ++ out)
      unfold scanTagsGo
      rw [if_neg (hx c (by simp))]
      rw [scanTagsGo_walk x r (fun d hd => hx d (List.mem_cons_of_mem c hd)) f
        (Nat.lt_of_succ_lt_succ (by simpa using h)), hsr]
      rfl

/-- joinWithSep on two or more runs. -/
theorem joinWithSep_cons_cons (sep x y : Str) (ys : List Str) :
    joinWithSep sep (x :: y :: ys) = x ++ sep ++ joinWithSep sep (y :: ys) := rfl

/-- The tag scan consumes the emitted hashtag run: the lowercased groups in
order, one space of residue per separator. -/
theorem scanTagsGo_join : ∀ (tags : List Str), tags ≠ [] →
    (∀ g ∈ tags, g ≠ [] ∧ (∀ c ∈ g, isTagChar c = true) ∧ toLowerStr g = g) →
    ∀ (fuel : Nat), (joinWithSep [' '] (tags.map ('#' :: ·))).length < fuel →
    scanTagsGo fuel (joinWithSep [' '] (tags.map ('#' :: ·))) =
      (tags, List.replicate (tags.length - 1) ' ')
  | [], hne, _, _, _ => absurd rfl hne
  | [g], _, htags, fuel, h => by
    obtain ⟨hgne, hgchars, hglow⟩ := htags g (by simp)
    cases fuel with
    | zero => exact absurd h (Nat.not_lt_zero _)
    | succ f =>
      show scanTagsGo (f + 1) ('#' :: g) = _
      unfold scanTagsGo
      rw [if_pos rfl]
      rw [takeWhile_all hgchars]
      rw [if_neg (by simpa using hgne)]
      rw [List.drop_length]
      cases f with
      | zero =>
        exfalso
        have h2 : ('#' :: g).length < 1 := h
        rw [List.length_cons] at h2
        omega
      | succ f2 =>
        show (toLowerStr g :: (scanTagsGo (f2 + 1) ([] : Str)).1,
          (scanTagsGo (f2 + 1) ([] : Str)).2) = _
        rw [hglow]
        rfl
  | g :: g2 :: rest, _, htags, fuel, h => by
    obtain ⟨hgne, hgchars, hglow⟩ := htags g (by simp)
    have htail := fun g3 hg3 => htags g3 (List.mem_cons_of_mem g hg3)
    have hj : joinWithSep [' '] ((g :: g2 :: rest).map ('#' :: ·))
        = '#' :: (g ++ (' ' :: joinWithSep [' '] ((g2 :: rest).map ('#' :: ·)))) := by
      rw [List.map_cons, List.map_cons, joinWithSep_cons_cons, ← List.map_cons]
      simp
    rw [hj] at h ⊢
    cases fuel with
    | zero => exact absurd h (Nat.not_lt_zero _)
    | succ f =>
      unfold scanTagsGo
      rw [if_pos rfl]
      rw [takeWhile_append_all _ hgchars,
        List.takeWhile_cons_of_neg (by decide), List.append_nil]
      rw [if_neg (by simpa using hgne)]
      rw [List.drop_left]
      have hlen : (' ' :: joinWithSep [' '] ((g2 :: rest).map ('#' :: ·))).length < f := by
        simp only [List.length_cons, List.length_append] at h ⊢
        have hg1 : 1 ≤ g.length := by
          cases g with
          | nil => exact absurd rfl hgne
          | cons a as => simp
        omega
      have hrec : scanTagsGo f (' ' :: joinWithSep [' '] ((g2 :: rest).map ('#' :: ·)))
          = (g2 :: rest, ' ' :: List.replicate ((g2 :: rest).length - 1) ' ') := by
        cases f with
        | zero => exact absurd hlen (Nat.not_lt_zero _)
        | succ f2 =>
          unfold scanTagsGo
          rw [if_neg (by decide)]
          rw [scanTagsGo_join (g2 :: rest) (by simp) htail f2
            (Nat.lt_of_succ_lt_succ (by simpa using hlen))]
      rw [hrec, hglow]
      have hrepl : ' ' :: List.replicate ((g2 :: rest).length - 1) ' '
          = List.replicate ((g :: g2 :: rest).length - 1) ' ' := by
        simp [List.replicate_succ]
      rw [hrepl]

/-- The priority segment buildUpdatedLine appends. -/
def pPart : Option Priority → Str
  | some p => (" [priority:").data ++ priorityToStr p ++ [']']
  | none => []

/-- The recurrence segment buildUpdatedLine appends. -/
def rPart : Option Recurrence → Str
  | some r => (" [repeat:").data ++ r.rawString ++ [']']
  | none => []

/-- The hashtag segment buildUpdatedLine appends. -/
def gPart : List Str → Str
  | [] => []
  | tags => ' ' :: joinWithSep [' '] (tags.map ('#' :: ·))

/-- The date segments buildUpdatedLine appends on an unchanged task: the
stored completion date while complete, then the created date. -/
def dPart (completed : Bool) (cd crd : Option Str) : Str :=
  (match cd, completed with
   | some d, true => (" [done:").data ++ d ++ [']']
   | _, _ => []) ++
  (match crd with
   | some c => (" [created:").data ++ c ++ [']']
   | none => [])

/-- Canonical hashtags: nonempty, tag characters, lowercase fixed points. -/
def TagsOk (tags : List Str) : Prop :=
  ∀ g ∈ tags, g ≠ [] ∧ (∀ c ∈ g, isTagChar c = true) ∧ toLowerStr g = g

/-- Canonical recurrence: the stored raw rule string reparses to the stored
record, is nonempty, trim-fixed and uses safe characters. -/
def RecOk : Option Recurrence → Prop
  | none => True
  | some r => parseRecurrence r.rawString = some r ∧ r.rawString ≠ [] ∧
      jsTrim r.rawString = r.rawString ∧ ∀ c ∈ r.rawString, safeRawChar c = true

/-- Characters of the joined hashtag run. -/
theorem mem_joinTags : ∀ (tags : List Str) (c : Char),
    c ∈ joinWithSep [' '] (tags.map ('#' :: ·)) →
    c = ' ' ∨ c = '#' ∨ ∃ g ∈ tags, c ∈ g
  | [], _, h => absurd h (by simp [joinWithSep])
  | [g], c, h => by
    rw [show joinWithSep [' '] ([g].map ('#' :: ·)) = '#' :: g from rfl] at h
    rcases List.mem_cons.mp h with rfl | h
    · exact Or.inr (Or.inl rfl)
    · exact Or.inr (Or.inr ⟨g, by simp, h⟩)
  | g :: g2 :: rest, c, h => by
    rw [List.map_cons, List.map_cons, joinWithSep_cons_cons, ← List.map_cons] at h
    rcases List.mem_append.mp h with h | h
    · rcases List.mem_append.mp h with h | h
      · rcases List.mem_cons.mp h with rfl | h
        · exact Or.inr (Or.inl rfl)
        · exact Or.inr (Or.inr ⟨g, by simp, h⟩)
      · exact Or.inl (by simpa using h)
    · rcases mem_joinTags (g2 :: rest) c h with h | h | ⟨g3, hg3, hc⟩
      · exact Or.inl h
      · exact Or.inr (Or.inl h)
      · exact Or.inr (Or.inr ⟨g3, List.mem_cons_of_mem g hg3, hc⟩)

/-- Characters of the hashtag segment. -/
theorem mem_gPart : ∀ (tags : List Str) (c : Char), c ∈ gPart tags →
    c = ' ' ∨ c = '#' ∨ ∃ g ∈ tags, c ∈ g
  | [], _, h => absurd h (by simp [gPart])
  | t :: ts, c, h => by
    rw [show gPart (t :: ts) = ' ' :: joinWithSep [' '] ((t :: ts).map ('#' :: ·))
      from rfl] at h
    rcases List.mem_cons.mp h with rfl | h
    · exact Or.inl rfl
    · exact mem_joinTags (t :: ts) c h

/-- A nonempty tag list joins to a nonempty run. -/
theorem joinTags_ne_nil : ∀ (tags : List Str), tags ≠ [] →
    joinWithSep [' '] (tags.map ('#' :: ·)) ≠ []
  | [], h => absurd rfl h
  | [g], _ => by
    rw [show joinWithSep [' '] ([g].map ('#' :: ·)) = '#' :: g from rfl]
    simp
  | g :: g2 :: rest, _ => by
    rw [List.map_cons, List.map_cons, joinWithSep_cons_cons, ← List.map_cons]
    simp

/-- A hashtag token ends with a tag character. -/
theorem lastOk_hashTag {g : Str} (hne : g ≠ [])
    (hchars : ∀ c ∈ g, isTagChar c = true) : lastOk ('#' :: g) := by
  intro c hc
  have h2 : ('#' :: g).getLast? = g.getLast? := by
    rw [show '#' :: g = ['#'] ++ g from rfl, List.getLast?_append]
    cases hg : g.getLast? with
    | none => exact absurd (List.getLast?_eq_none_iff.mp hg) hne
    | some d => simp [Option.or]
  rw [h2] at hc
  exact isTagChar_not_ws (hchars c (getLast?_mem_of hc))

/-- The joined hashtag run ends with a tag character. -/
theorem lastOk_joinTags : ∀ (tags : List Str), TagsOk tags →
    lastOk (joinWithSep [' '] (tags.map ('#' :: ·)))
  | [], _ => by
    rw [show joinWithSep [' '] (([] : List Str).map ('#' :: ·)) = [] from rfl]
    exact lastOk_nil
  | [g], h => by
    obtain ⟨hne, hchars, _⟩ := h g (by simp)
    rw [show joinWithSep [' '] ([g].map ('#' :: ·)) = '#' :: g from rfl]
    exact lastOk_hashTag hne hchars
  | g :: g2 :: rest, h => by
    have htail : TagsOk (g2 :: rest) := fun g3 hg3 => h g3 (List.mem_cons_of_mem g hg3)
    have hJ := lastOk_joinTags (g2 :: rest) htail
    have hJne := joinTags_ne_nil (g2 :: rest) (by simp)
    rw [List.map_cons, List.map_cons, joinWithSep_cons_cons, ← List.map_cons]
    intro c hc
    rw [List.getLast?_append, List.getLast?_append] at hc
    cases hg : (joinWithSep [' '] ((g2 :: rest).map ('#' :: ·))).getLast? with
    | none => exact absurd (List.getLast?_eq_none_iff.mp hg) hJne
    | some d =>
      rw [hg] at hc
      simp only [Option.or] at hc
      exact hJ c (hg.trans hc)

/-- The hashtag segment ends with a tag character. -/
theorem lastOk_gPart : ∀ (tags : List Str), TagsOk tags → lastOk (gPart tags)
  | [], _ => by
    rw [show gPart [] = [] from rfl]
    exact lastOk_nil
  | t :: ts, h => by
    have hJ := lastOk_joinTags (t :: ts) h
    have hJne := joinTags_ne_nil (t :: ts) (by simp)
    rw [show gPart (t :: ts) = [' '] ++ joinWithSep [' '] ((t :: ts).map ('#' :: ·))
      from rfl]
    intro c hc
    rw [List.getLast?_append] at hc
    cases hg : (joinWithSep [' '] ((t :: ts).map ('#' :: ·))).getLast? with
    | none => exact absurd (List.getLast?_eq_none_iff.mp hg) hJne
    | some d =>
      rw [hg] at hc
      simp only [Option.or] at hc
      exact hJ c (hg.trans hc)

/-- The hashtag segment holds no bracket opener. -/
theorem gPart_ne_bracket {tags : List Str} (h : TagsOk tags) :
    ∀ c ∈ gPart tags, c ≠ '[' := by
  intro c hc
  rcases mem_gPart tags c hc with rfl | rfl | ⟨g, hg, hcg⟩
  · decide
  · decide
  · exact isTagChar_ne_bracket ((h g hg).2.1 c hcg)

/-- Nothing in the hashtag segment lowers onto the bracket opener. -/
theorem gPart_lower_ne_bracket {tags : List Str} (h : TagsOk tags) :
    ∀ c ∈ gPart tags, c.toLower ≠ '[' := by
  intro c hc
  rcases mem_gPart tags c hc with rfl | rfl | ⟨g, hg, hcg⟩
  · decide
  · decide
  · obtain ⟨_, hchars, hlow⟩ := h g hg
    rw [map_fix_mem hlow c hcg]
    exact isTagChar_ne_bracket (hchars c hcg)

/-- The hashtag segment is clear for the completed-date matcher. -/
theorem clearFor_done_gPart {tags : List Str} (h : TagsOk tags) :
    ClearFor matchDoneAt (gPart tags) :=
  clearFor_done_chars (gPart_ne_bracket h) (lastOk_gPart _ h)

/-- The hashtag segment is clear for the created-date matcher. -/
theorem clearFor_created_gPart {tags : List Str} (h : TagsOk tags) :
    ClearFor matchCreatedAt (gPart tags) :=
  clearFor_created_chars (gPart_ne_bracket h) (lastOk_gPart _ h)

/-- The hashtag segment is clear for the priority matcher. -/
theorem clearFor_priority_gPart {tags : List Str} (h : TagsOk tags) :
    ClearFor matchPriorityAt (gPart tags) :=
  clearFor_priority_chars (gPart_lower_ne_bracket h)

/-- The hashtag segment is clear for the recurrence matcher. -/
theorem clearFor_repeat_gPart {tags : List Str} (h : TagsOk tags) :
    ClearFor matchRepeatAt (gPart tags) :=
  clearFor_repeat_chars (gPart_lower_ne_bracket h)

/-- The priority segment is clear for the completed-date matcher. -/
theorem clearFor_done_pPart (pr : Option Priority) : ClearFor matchDoneAt (pPart pr) := by
  cases pr with
  | none => exact clearFor_nil _
  | some p => cases p <;> exact clearFor_done_check (by decide)

/-- The priority segment is clear for the created-date matcher. -/
theorem clearFor_created_pPart (pr : Option Priority) :
    ClearFor matchCreatedAt (pPart pr) := by
  cases pr with
  | none => exact clearFor_nil _
  | some p => cases p <;> exact clearFor_created_check (by decide)

/-- The recurrence segment is clear for the completed-date matcher. -/
theorem clearFor_done_rPart {ro : Option Recurrence} (h : RecOk ro) :
    ClearFor matchDoneAt (rPart ro) := by
  cases ro with
  | none => exact clearFor_nil _
  | some r =>
    obtain ⟨_, _, htrim, hchars⟩ := h
    show ClearFor matchDoneAt ((" [repeat:").data ++ (r.rawString ++ [']']))
    exact ClearFor.append (clearFor_done_check (by decide))
      (ClearFor.append
        (clearFor_done_chars (fun c hc => (safeRawChar_spec (hchars c hc)).2.2.2)
          (trim_fix_last htrim))
        (clearFor_done_check (by decide)))

/-- The recurrence segment is clear for the created-date matcher. -/
theorem clearFor_created_rPart {ro : Option Recurrence} (h : RecOk ro) :
    ClearFor matchCreatedAt (rPart ro) := by
  cases ro with
  | none => exact clearFor_nil _
  | some r =>
    obtain ⟨_, _, htrim, hchars⟩ := h
    show ClearFor matchCreatedAt ((" [repeat:").data ++ (r.rawString ++ [']']))
    exact ClearFor.append (clearFor_created_check (by decide))
      (ClearFor.append
        (clearFor_created_chars (fun c hc => (safeRawChar_spec (hchars c hc)).2.2.2)
          (trim_fix_last htrim))
        (clearFor_created_check (by decide)))

/-- The recurrence segment is clear for the priority matcher. -/
theorem clearFor_priority_rPart {ro : Option Recurrence} (h : RecOk ro) :
    ClearFor matchPriorityAt (rPart ro) := by
  cases ro with
  | none => exact clearFor_nil _
  | some r =>
    obtain ⟨_, _, _, hchars⟩ := h
    show ClearFor matchPriorityAt ((" [repeat:").data ++ (r.rawString ++ [']']))
    exact ClearFor.append (clearFor_priority_check (by decide))
      (ClearFor.append
        (clearFor_priority_chars (fun c hc => (safeRawChar_spec (hchars c hc)).2.1))
        (clearFor_priority_check (by decide)))

/-- The emitted created-date segment is clear for the completed-date
matcher. -/
theorem clearFor_done_createdSeg {d : Str} (hd : dateShape d = true) :
    ClearFor matchDoneAt ((" [created:").data ++ (d ++ [']'])) := by
  obtain ⟨_, hchars⟩ := dateShape_chars hd
  exact ClearFor.append (clearFor_done_check (by decide))
    (ClearFor.append
      (clearFor_done_chars
        (fun c hc => by
          rcases hchars c hc with h | rfl
          · exact isDigitChar_ne_bracket h
          · decide)
        (fun c hc => by
          rcases hchars c (getLast?_mem_of hc) with h | rfl
          · exact isDigitChar_not_ws h
          · decide))
      (clearFor_done_check (by decide)))

/-- Display text with safe characters is clear for the completed-date
matcher. -/
theorem clearFor_done_text {x : Str} (hchars : ∀ c ∈ x, metaTextChar c = true)
    (htrim : jsTrim x = x) : ClearFor matchDoneAt x :=
  clearFor_done_chars (fun c hc => (metaTextChar_spec (hchars c hc)).2.2.2.2)
    (trim_fix_last htrim)

/-- See clearFor_done_text. -/
theorem clearFor_created_text {x : Str} (hchars : ∀ c ∈ x, metaTextChar c = true)
    (htrim : jsTrim x = x) : ClearFor matchCreatedAt x :=
  clearFor_created_chars (fun c hc => (metaTextChar_spec (hchars c hc)).2.2.2.2)
    (trim_fix_last htrim)

/-- See clearFor_done_text. -/
theorem clearFor_priority_text {x : Str} (hchars : ∀ c ∈ x, metaTextChar c = true) :
    ClearFor matchPriorityAt x :=
  clearFor_priority_chars (fun c hc => (metaTextChar_spec (hchars c hc)).2.1)

/-- See clearFor_done_text. -/
theorem clearFor_repeat_text {x : Str} (hchars : ∀ c ∈ x, metaTextChar c = true) :
    ClearFor matchRepeatAt x :=
  clearFor_repeat_chars (fun c hc => (metaTextChar_spec (hchars c hc)).2.1)

/-- Whitespace runs are clear for the priority matcher. -/
theorem clearFor_priority_ws {w : Str} (hw : ∀ c ∈ w, isWsChar c = true) :
    ClearFor matchPriorityAt w :=
  clearFor_priority_chars (fun c hc => ws_lower_ne_bracket (hw c hc))

/-- Whitespace runs are clear for the recurrence matcher. -/
theorem clearFor_repeat_ws {w : Str} (hw : ∀ c ∈ w, isWsChar c = true) :
    ClearFor matchRepeatAt w :=
  clearFor_repeat_chars (fun c hc => ws_lower_ne_bracket (hw c hc))

/-- The emitted priority keyword maps back to the same priority. -/
theorem priorityFromLower_roundtrip (p : Priority) :
    priorityFromLower (priorityToStr p) = some p := by
  cases p <;> rfl

/-- The tag scan passes over a hash-free string untouched. -/
theorem scanTagsGo_id : ∀ (fuel : Nat) (l : Str), l.length < fuel →
    (∀ c ∈ l, c ≠ '#') → scanTagsGo fuel l = ([], l)
  | 0, _, h, _ => absurd h (Nat.not_lt_zero _)
  | _ + 1, [], _, _ => rfl
  | fuel + 1, c :: cs, h, hc => by
    unfold scanTagsGo
    rw [if_neg (hc c (by simp))]
    rw [scanTagsGo_id fuel cs (Nat.lt_of_succ_lt_succ (by simpa using h))
      (fun d hd => hc d (List.mem_cons_of_mem c hd))]

/-- The completed-date stage on a clear working text. -/
theorem exDone_noop {S : Str} (md : ParsedMetadata) (hS : ClearFor matchDoneAt S) :
    exDone (S, md) = (S, { md with completedDate := none }) := by
  unfold exDone findDone
  rw [findFirstMap_eq_none_of_clear matchDoneAt_nil hS]

/-- The completed-date stage extracts the emitted completion tag. -/
theorem exDone_hit {A d : Str} (md : ParsedMetadata)
    (hA : ClearFor matchDoneAt A) (htrim : jsTrim A = A) (hd : dateShape d = true) :
    exDone (A ++ ((" [done:").data ++ (d ++ [']'])), md)
      = (A, { md with completedDate := some d }) := by
  unfold exDone findDone
  rw [findFirstMap_append_of_clear _ hA,
    findFirstMap_head (show matchDoneAt ((" [done:").data ++ (d ++ [']'])) = some d by
      rw [← List.append_assoc]
      exact matchDoneAt_hit hd)]
  simp [htrim]

/-- The created-date stage on a clear working text. -/
theorem exCreated_noop {S : Str} (md : ParsedMetadata)
    (hS : ClearFor matchCreatedAt S) :
    exCreated (S, md) = (S, { md with createdDate := none }) := by
  unfold exCreated findCreated
  rw [findFirstMap_eq_none_of_clear matchCreatedAt_nil hS]

/-- The created-date stage extracts the emitted created tag. -/
theorem exCreated_hit {A d : Str} (md : ParsedMetadata)
    (hA : ClearFor matchCreatedAt A) (htrim : jsTrim A = A) (hd : dateShape d = true) :
    exCreated (A ++ ((" [created:").data ++ (d ++ [']'])), md)
      = (A, { md with createdDate := some d }) := by
  unfold exCreated findCreated
  rw [findFirstMap_append_of_clear _ hA,
    findFirstMap_head (show matchCreatedAt ((" [created:").data ++ (d ++ [']'])) = some d by
      rw [← List.append_assoc]
      exact matchCreatedAt_hit hd)]
  simp [htrim]

/-- The priority stage on a clear working text. -/
theorem exPriority_noop {S : Str} (md : ParsedMetadata)
    (hS : ClearFor matchPriorityAt S) :
    exPriority (S, md) = (S, { md with priority := none }) := by
  unfold exPriority findPriority
  rw [findFirstMap_eq_none_of_clear matchPriorityAt_nil hS]

/-- The priority stage extracts the emitted priority tag, leaving the
absorbed separating space to the later trim. -/
theorem exPriority_hit {x : Str} (rest : Str) (p : Priority) (md : ParsedMetadata)
    (hx : ClearFor matchPriorityAt x) :
    exPriority (x ++ pPart (some p) ++ rest, md)
      = (jsTrim ((x ++ [' ']) ++ rest), { md with priority := some p }) := by
  have harr : x ++ pPart (some p) ++ rest
      = (x ++ [' ']) ++ (('[' :: ("priority:").data) ++ (priorityToStr p ++ ']' :: rest)) := by
    show x ++ ((' ' :: ('[' :: ("priority:").data)) ++ priorityToStr p ++ [']']) ++ rest = _
    simp [List.append_assoc]
  rw [harr]
  unfold exPriority findPriority
  have hws : ClearFor matchPriorityAt (x ++ [' ']) := by
    refine ClearFor.append hx (clearFor_priority_ws ?_)
    intro c hc
    rw [List.mem_singleton] at hc
    subst hc
    decide
  rw [findFirstMap_append_of_clear _ hws,
    findFirstMap_head (matchPriorityAt_hit p rest)]
  simp [priorityFromLower_roundtrip]

/-- The recurrence stage on a clear working text. -/
theorem exRepeat_noop {S : Str} (md : ParsedMetadata)
    (hS : ClearFor matchRepeatAt S) :
    exRepeat (S, md) = (S, { md with recurrence := none }) := by
  unfold exRepeat findRepeat
  rw [findFirstMap_eq_none_of_clear matchRepeatAt_nil hS]

/-- The recurrence stage extracts the emitted repeat tag and reparses the
stored rule string. -/
theorem exRepeat_hit {x : Str} (rest : Str) (r : Recurrence) (md : ParsedMetadata)
    (hx : ClearFor matchRepeatAt x) (hro : RecOk (some r)) :
    exRepeat (x ++ rPart (some r) ++ rest, md)
      = (jsTrim ((x ++ [' ']) ++ rest), { md with recurrence := some r }) := by
  obtain ⟨hparse, hne, _, hchars⟩ := hro
  have harr : x ++ rPart (some r) ++ rest
      = (x ++ [' ']) ++ (('[' :: ("repeat:").data) ++ (r.rawString ++ ']' :: rest)) := by
    show x ++ ((' ' :: ('[' :: ("repeat:").data)) ++ r.rawString ++ [']']) ++ rest = _
    simp [List.append_assoc]
  rw [harr]
  unfold exRepeat findRepeat
  have hws : ClearFor matchRepeatAt (x ++ [' ']) := by
    refine ClearFor.append hx (clearFor_repeat_ws ?_)
    intro c hc
    rw [List.mem_singleton] at hc
    subst hc
    decide
  rw [findFirstMap_append_of_clear _ hws,
    findFirstMap_head (matchRepeatAt_hit rest hne
      (fun c hc => (safeRawChar_spec (hchars c hc)).2.2.1))]
  simp [hparse]

/-- The global blocked-by stage passes over a bracket-free working text. -/
theorem exBlockedBy_noop {S : Str} (md : ParsedMetadata) (hS : ∀ c ∈ S, c ≠ '[') :
    exBlockedBy (S, md) = (jsTrim S, { md with blockedBy := [] }) := by
  unfold exBlockedBy
  rw [show blockedByOpener = '[' :: (("blocked-by:").data) from rfl]
  rw [scanBracketTagAll_id _ _ S (Nat.lt_succ_self _) hS]
  rfl

/-- The global blocks stage passes over a bracket-free working text. -/
theorem exBlocks_noop {S : Str} (md : ParsedMetadata) (hS : ∀ c ∈ S, c ≠ '[') :
    exBlocks (S, md) = (jsTrim S, { md with blocks := [] }) := by
  unfold exBlocks
  rw [show blocksOpener = '[' :: (("blocks:").data) from rfl]
  rw [scanBracketTagAll_id _ _ S (Nat.lt_succ_self _) hS]
  rfl

/-- The estimate stage passes over a bracket-free working text. -/
theorem exEstimate_noop {S : Str} (md : ParsedMetadata) (hS : ∀ c ∈ S, c ≠ '[') :
    exEstimate (S, md) = (S, { md with estimate := none }) := by
  unfold exEstimate findBracketTag
  rw [show estimateOpener = '[' :: (("estimate:").data) from rfl]
  rw [findFirstMap_eq_none_of_clear (matchBracketTagAt_nil _)
    (clearFor_bracketTag_chars _ hS)]

/-- The logged stage passes over a bracket-free working text. -/
theorem exLogged_noop {S : Str} (md : ParsedMetadata) (hS : ∀ c ∈ S, c ≠ '[') :
    exLogged (S, md) = (S, { md with timeLogged := none }) := by
  unfold exLogged findBracketTag
  rw [show loggedOpener = '[' :: (("logged:").data) from rfl]
  rw [findFirstMap_eq_none_of_clear (matchBracketTagAt_nil _)
    (clearFor_bracketTag_chars _ hS)]

/-- The tag stage on a hash-free trim-fixed working text. -/
theorem exTags_noop {S : Str} (md : ParsedMetadata) (hS : ∀ c ∈ S, c ≠ '#')
    (htrim : jsTrim S = S) : exTags (S, md) = (S, { md with tags := [] }) := by
  unfold exTags scanTags
  rw [scanTagsGo_id _ S (Nat.lt_succ_self _) hS]
  show (jsTrim S, { md with tags := ([] : List Str) }) = _
  rw [htrim]

/-- The tag stage consumes the emitted hashtag run and the trailing
whitespace residue. -/
theorem exTags_tags {x w : Str} {tags : List Str} (md : ParsedMetadata)
    (hx : ∀ c ∈ x, c ≠ '#') (hw : ∀ c ∈ w, isWsChar c = true)
    (hxh : ∀ c, x.head? = some c → isWsChar c = false) (hxl : lastOk x)
    (htags : TagsOk tags) (htne : tags ≠ []) :
    exTags (x ++ w ++ gPart tags, md) = (x, { md with tags := tags }) := by
  obtain ⟨t, ts, rfl⟩ : ∃ t ts, tags = t :: ts := by
    cases tags with
    | nil => exact absurd rfl htne
    | cons t ts => exact ⟨t, ts, rfl⟩
  have harr : x ++ w ++ gPart (t :: ts)
      = ((x ++ w) ++ [' ']) ++ joinWithSep [' '] ((t :: ts).map ('#' :: ·)) := by
    rw [show gPart (t :: ts)
      = [' '] ++ joinWithSep [' '] ((t :: ts).map ('#' :: ·)) from rfl]
    simp [List.append_assoc]
  rw [harr]
  unfold exTags scanTags
  have hxw : ∀ c ∈ (x ++ w) ++ [' '], c ≠ '#' := by
    intro c hc
    rcases List.mem_append.mp hc with hc | hc
    · rcases List.mem_append.mp hc with hc | hc
      · exact hx c hc
      · exact ws_ne_hash (hw c hc)
    · rw [List.mem_singleton] at hc
      subst hc
      decide
  rw [scanTagsGo_walk _ _ hxw _ (Nat.lt_succ_self _)]
  have hfuel : ((((x ++ w) ++ [' ']) ++ joinWithSep [' '] ((t :: ts).map ('#' :: ·))).length
      + 1) - ((x ++ w) ++ [' ']).length
      = (joinWithSep [' '] ((t :: ts).map ('#' :: ·))).length + 1 := by
    simp only [List.length_append]
    omega
  rw [hfuel]
  rw [scanTagsGo_join (t :: ts) (by simp) htags _ (Nat.lt_succ_self _)]
  have hws2 : ∀ c ∈ (w ++ [' ']) ++ List.replicate ((t :: ts).length - 1) ' ',
      isWsChar c = true := by
    intro c hc
    rcases List.mem_append.mp hc with hc | hc
    · rcases List.mem_append.mp hc with hc | hc
      · exact hw c hc
      · rw [List.mem_singleton] at hc
        subst hc
        decide
    · rw [List.eq_of_mem_replicate hc]
      decide
  have htr : jsTrim (((x ++ w) ++ [' ']) ++ List.replicate ((t :: ts).length - 1) ' ')
      = x := by
    have harr2 : ((x ++ w) ++ [' ']) ++ List.replicate ((t :: ts).length - 1) ' '
        = x ++ ((w ++ [' ']) ++ List.replicate ((t :: ts).length - 1) ' ') := by
      simp [List.append_assoc]
    rw [harr2]
    exact jsTrim_append_ws hxh hxl hws2
  show (jsTrim (((x ++ w) ++ [' ']) ++ List.replicate ((t :: ts).length - 1) ' '),
    { md with tags := t :: ts }) = _
  rw [htr]

/-- The collapse stage on canonical display text. -/
theorem exCollapse_fix {S : Str} (md : ParsedMetadata)
    (hc : collapseWs S = S) (ht : jsTrim S = S) :
    exCollapse (S, md) = (S, md) := by
  unfold exCollapse
  show (jsTrim (collapseWs S), md) = (S, md)
  rw [hc, ht]

/-- The end of a concatenation with a nonempty right part is the end of the
right part. -/
theorem lastOk_append_right {x y : Str} (hyne : y ≠ []) (hy : lastOk y) :
    lastOk (x ++ y) := by
  intro c h
  rw [List.getLast?_append] at h
  cases hy2 : y.getLast? with
  | some d =>
    rw [hy2] at h
    simp only [Option.or] at h
    exact hy c (hy2.trans h)
  | none => exact absurd (List.getLast?_eq_none_iff.mp hy2) hyne

/-- lastOk from a computed last character. -/
theorem lastOk_concrete {l : Str} {k : Char} (h : l.getLast? = some k)
    (hk : isWsChar k = false) : lastOk l := by
  intro c hc
  rw [h] at hc
  rw [← Option.some.inj hc]
  exact hk

/-- A well-formed date string ends with a digit or dash. -/
theorem lastOk_date {d : Str} (hd : dateShape d = true) : lastOk d := by
  intro c hc
  rcases (dateShape_chars hd).2 c (getLast?_mem_of hc) with h | rfl
  · exact isDigitChar_not_ws h
  · decide

/-- The priority segment ends with the closing bracket. -/
theorem lastOk_pPart (pr : Option Priority) : lastOk (pPart pr) := by
  cases pr with
  | none => exact lastOk_nil
  | some p => cases p <;> exact lastOk_concrete rfl (by decide)

/-- The recurrence segment ends with the closing bracket. -/
theorem lastOk_rPart {ro : Option Recurrence} : lastOk (rPart ro) := by
  cases ro with
  | none => exact lastOk_nil
  | some r =>
    show lastOk ((" [repeat:").data ++ (r.rawString ++ [']']))
    refine lastOk_append_right (by simp) (lastOk_append_right (by simp) ?_)
    exact lastOk_concrete rfl (by decide)

/-- The emitted date segments end with the closing bracket. -/
theorem lastOk_dPart (completed : Bool) (cd crd : Option Str) :
    lastOk (dPart completed cd crd) := by
  unfold dPart
  refine lastOk_append ?_ ?_
  · cases cd with
    | none => exact lastOk_nil
    | some d =>
      cases completed with
      | false => exact lastOk_nil
      | true =>
        show lastOk ((" [done:").data ++ d ++ [']'])
        exact lastOk_append_right (by simp) (lastOk_concrete rfl (by decide))
  · cases crd with
    | none => exact lastOk_nil
    | some c2 =>
      show lastOk ((" [created:").data ++ c2 ++ [']'])
      exact lastOk_append_right (by simp) (lastOk_concrete rfl (by decide))

/-- The hashtag segment of a nonempty tag list is nonempty. -/
theorem gPart_cons_ne_nil (t : Str) (ts : List Str) : gPart (t :: ts) ≠ [] := by
  rw [show gPart (t :: ts) = ' ' :: joinWithSep [' '] ((t :: ts).map ('#' :: ·))
    from rfl]
  simp

/-- The head of text extended to the right. -/
theorem head?_text_append {x : Str} (y : Str) (hne : x ≠ [])
    (hxh : ∀ c, x.head? = some c → isWsChar c = false) :
    ∀ c, (x ++ y).head? = some c → isWsChar c = false := by
  intro c hc
  rw [List.head?_append_of_ne_nil _ hne] at hc
  exact hxh c hc

/-- Trim fixes text followed by whitespace and a nonempty hashtag run. -/
theorem jsTrim_xwg_cons {x w : Str} {t : Str} {ts : List Str}
    (hne : x ≠ []) (hxh : ∀ c, x.head? = some c → isWsChar c = false)
    (htags : TagsOk (t :: ts)) :
    jsTrim (x ++ (w ++ gPart (t :: ts))) = x ++ (w ++ gPart (t :: ts)) := by
  refine jsTrim_eq_self (head?_text_append _ hne hxh) ?_
  refine lastOk_append_right ?_ (lastOk_append_right (gPart_cons_ne_nil t ts)
    (lastOk_gPart _ htags))
  intro hc
  exact gPart_cons_ne_nil t ts (List.append_eq_nil.mp hc).2

/-- The pipeline tail: from the blocked-by stage on, text plus a whitespace
run plus the hashtag run reduces to the text with the tags extracted and
every other field of these stages empty. -/
theorem extract_tail (x w : Str) (tags : List Str) (md : ParsedMetadata)
    (hchars : ∀ c ∈ x, metaTextChar c = true) (hne : x ≠ [])
    (htrim : jsTrim x = x) (hcoll : collapseWs x = x)
    (hw : ∀ c ∈ w, isWsChar c = true) (htags : TagsOk tags) :
    exCollapse (exTags (exLogged (exEstimate (exBlocks (exBlockedBy
      (x ++ (w ++ gPart tags), md)))))) =
    (x, { md with blockedBy := [], blocks := [], estimate := none, timeLogged := none, tags := tags }) := by
  have hxh := trim_fix_head htrim
  have hxl := trim_fix_last htrim
  have hx_ne_br : ∀ c ∈ x, c ≠ '[' :=
    fun c hc => (metaTextChar_spec (hchars c hc)).2.2.2.2
  have hx_ne_hash : ∀ c ∈ x, c ≠ '#' :=
    fun c hc => (metaTextChar_spec (hchars c hc)).2.2.2.1
  cases tags with
  | nil =>
    rw [show gPart [] = [] from rfl, List.append_nil]
    have hbr : ∀ c ∈ x ++ w, c ≠ '[' := by
      intro c hc
      rcases List.mem_append.mp hc with hc | hc
      · exact hx_ne_br c hc
      · exact ws_ne_bracket (hw c hc)
    rw [exBlockedBy_noop md hbr, jsTrim_append_ws hxh hxl hw]
    rw [exBlocks_noop _ hx_ne_br, htrim]
    rw [exEstimate_noop _ hx_ne_br]
    rw [exLogged_noop _ hx_ne_br]
    rw [exTags_noop _ hx_ne_hash htrim]
    rw [exCollapse_fix _ hcoll htrim]
  | cons t ts =>
    have hbr : ∀ c ∈ x ++ (w ++ gPart (t :: ts)), c ≠ '[' := by
      intro c hc
      rcases List.mem_append.mp hc with hc | hc
      · exact hx_ne_br c hc
      · rcases List.mem_append.mp hc with hc | hc
        · exact ws_ne_bracket (hw c hc)
        · exact gPart_ne_bracket htags c hc
    have htr := jsTrim_xwg_cons hne hxh htags (w := w)
    rw [exBlockedBy_noop md hbr, htr]
    rw [exBlocks_noop _ hbr, htr]
    rw [exEstimate_noop _ hbr]
    rw [exLogged_noop _ hbr]
    rw [show x ++ (w ++ gPart (t :: ts)) = x ++ w ++ gPart (t :: ts) from
      (List.append_assoc x w (gPart (t :: ts))).symm]
    rw [exTags_tags _ hx_ne_hash hw hxh hxl htags (by simp)]
    rw [exCollapse_fix _ hcoll htrim]

/-- The intermediate trims keep text, whitespace residue and hashtags, and
swallow everything when no hashtag follows. -/
theorem jsTrim_resolve (x w : Str) (tags : List Str)
    (hne : x ≠ []) (hxh : ∀ c, x.head? = some c → isWsChar c = false)
    (hxl : lastOk x) (hw : ∀ c ∈ w, isWsChar c = true) (htags : TagsOk tags) :
    ∃ w2, (∀ c ∈ w2, isWsChar c = true) ∧
      jsTrim ((x ++ w) ++ gPart tags) = x ++ (w2 ++ gPart tags) := by
  cases tags with
  | nil =>
    refine ⟨[], by simp, ?_⟩
    rw [show gPart [] = [] from rfl, List.append_nil, List.append_nil]
    rw [jsTrim_append_ws hxh hxl hw]
    simp
  | cons t ts =>
    refine ⟨w, hw, ?_⟩
    rw [List.append_assoc]
    exact jsTrim_xwg_cons hne hxh htags

/-- Trim fixes text, whitespace and a recurrence segment with whatever
follows it. -/
theorem jsTrim_xwr (x w : Str) (r : Recurrence) (G : Str)
    (hne : x ≠ []) (hxh : ∀ c, x.head? = some c → isWsChar c = false)
    (hGl : lastOk G) :
    jsTrim ((x ++ w) ++ (rPart (some r) ++ G)) = (x ++ w) ++ (rPart (some r) ++ G) := by
  have hxwne : x ++ w ≠ [] := by
    intro hc
    exact hne (List.append_eq_nil.mp hc).1
  have hrne : rPart (some r) ≠ [] := by
    show (" [repeat:").data ++ r.rawString ++ [']'] ≠ []
    simp
  refine jsTrim_eq_self (head?_text_append _ hxwne ?_) ?_
  · intro c hc
    rw [List.head?_append_of_ne_nil _ hne] at hc
    exact hxh c hc
  · refine lastOk_append_right ?_ (lastOk_append lastOk_rPart hGl)
    intro hc
    exact hrne (List.append_eq_nil.mp hc).1

/-- The middle of the pipeline: priority and recurrence extraction over text
followed by the emitted priority, recurrence and hashtag segments. -/
theorem extract_mid (x : Str) (pr : Option Priority) (ro : Option Recurrence)
    (tags : List Str) (md : ParsedMetadata)
    (hchars : ∀ c ∈ x, metaTextChar c = true) (hne : x ≠ [])
    (htrim : jsTrim x = x) (hcoll : collapseWs x = x)
    (htags : TagsOk tags) (hro : RecOk ro) :
    exCollapse (exTags (exLogged (exEstimate (exBlocks (exBlockedBy
      (exRepeat (exPriority (x ++ (pPart pr ++ (rPart ro ++ gPart tags)), md)))))))) =
    (x, { md with priority := pr, recurrence := ro, blockedBy := [], blocks := [], estimate := none, timeLogged := none, tags := tags }) := by
  have hxh := trim_fix_head htrim
  have hxl := trim_fix_last htrim
  have hws1 : ∀ c ∈ ([' '] : Str), isWsChar c = true := by
    intro c hc
    rw [List.mem_singleton] at hc
    subst hc
    decide
  cases pr with
  | none =>
    rw [show pPart none = [] from rfl, List.nil_append]
    cases ro with
    | none =>
      rw [show rPart none = [] from rfl, List.nil_append]
      rw [exPriority_noop md (ClearFor.append (clearFor_priority_text hchars)
        (clearFor_priority_gPart htags))]
      rw [exRepeat_noop _ (ClearFor.append (clearFor_repeat_text hchars)
        (clearFor_repeat_gPart htags))]
      exact extract_tail x [] tags _ hchars hne htrim hcoll (by simp) htags
    | some r =>
      rw [exPriority_noop md (ClearFor.append (clearFor_priority_text hchars)
        (ClearFor.append (clearFor_priority_rPart hro) (clearFor_priority_gPart htags)))]
      rw [show x ++ (rPart (some r) ++ gPart tags) = x ++ rPart (some r) ++ gPart tags
        from (List.append_assoc _ _ _).symm]
      rw [exRepeat_hit _ r _ (clearFor_repeat_text hchars) hro]
      obtain ⟨w2, hw2, htr⟩ := jsTrim_resolve x [' '] tags hne hxh hxl hws1 htags
      rw [htr]
      exact extract_tail x w2 tags _ hchars hne htrim hcoll hw2 htags
  | some p =>
    rw [show x ++ (pPart (some p) ++ (rPart ro ++ gPart tags))
      = x ++ pPart (some p) ++ (rPart ro ++ gPart tags)
      from (List.append_assoc _ _ _).symm]
    rw [exPriority_hit _ p md (clearFor_priority_text hchars)]
    cases ro with
    | none =>
      rw [show rPart none = [] from rfl, List.nil_append]
      obtain ⟨w2, hw2, htr⟩ := jsTrim_resolve x [' '] tags hne hxh hxl hws1 htags
      rw [htr]
      rw [exRepeat_noop _ (ClearFor.append (clearFor_repeat_text hchars)
        (ClearFor.append (clearFor_repeat_ws hw2) (clearFor_repeat_gPart htags)))]
      exact extract_tail x w2 tags _ hchars hne htrim hcoll hw2 htags
    | some r =>
      rw [jsTrim_xwr x [' '] r (gPart tags) hne hxh (lastOk_gPart _ htags)]
      rw [show (x ++ [' ']) ++ (rPart (some r) ++ gPart tags)
        = (x ++ [' ']) ++ rPart (some r) ++ gPart tags
        from (List.append_assoc _ _ _).symm]
      rw [exRepeat_hit _ r _ (ClearFor.append (clearFor_repeat_text hchars)
        (clearFor_repeat_ws hws1)) hro]
      rw [show ((x ++ [' ']) ++ [' ']) = x ++ ([' '] ++ [' ']) from
        List.append_assoc _ _ _]
      have hwss : ∀ c ∈ ([' '] ++ [' '] : Str), isWsChar c = true := by
        intro c hc
        rcases List.mem_append.mp hc with hc | hc <;>
          (rw [List.mem_singleton] at hc; subst hc; decide)
      obtain ⟨w2, hw2, htr⟩ := jsTrim_resolve x ([' '] ++ [' ']) tags hne hxh hxl hwss htags
      rw [htr]
      exact extract_tail x w2 tags _ hchars hne htrim hcoll hw2 htags

/-- The whole inline extraction over a rebuilt task line body: the display
text comes back unchanged and every extracted field matches the emitted
field. -/
theorem extract_roundtrip (x : Str) (pr : Option Priority) (ro : Option Recurrence)
    (tags : List Str) (completed : Bool) (cd crd : Option Str)
    (hne : x ≠ []) (hchars : ∀ c ∈ x, metaTextChar c = true)
    (htrim : jsTrim x = x) (hcoll : collapseWs x = x)
    (htags : TagsOk tags) (hro : RecOk ro)
    (hcrd : match crd with | some c => dateShape c = true | none => True)
    (hcd : match cd with
      | some d => dateShape d = true ∧ completed = true ∧ crd = none
      | none => True) :
    extractInlineMetadata
      (x ++ (pPart pr ++ (rPart ro ++ (gPart tags ++ dPart completed cd crd))))
      = (x, { completedDate := cd, createdDate := crd, priority := pr, recurrence := ro, blockedBy := [], blocks := [], estimate := none, timeLogged := none, tags := tags }) := by
  unfold extractInlineMetadata
  have hxh := trim_fix_head htrim
  have hxl := trim_fix_last htrim
  have hUdone : ClearFor matchDoneAt (x ++ (pPart pr ++ (rPart ro ++ gPart tags))) :=
    ClearFor.append (clearFor_done_text hchars htrim)
      (ClearFor.append (clearFor_done_pPart pr)
        (ClearFor.append (clearFor_done_rPart hro) (clearFor_done_gPart htags)))
  have hUcreated : ClearFor matchCreatedAt (x ++ (pPart pr ++ (rPart ro ++ gPart tags))) :=
    ClearFor.append (clearFor_created_text hchars htrim)
      (ClearFor.append (clearFor_created_pPart pr)
        (ClearFor.append (clearFor_created_rPart hro) (clearFor_created_gPart htags)))
  have hUtrim : jsTrim (x ++ (pPart pr ++ (rPart ro ++ gPart tags)))
      = x ++ (pPart pr ++ (rPart ro ++ gPart tags)) :=
    jsTrim_eq_self (head?_text_append _ hne hxh)
      (lastOk_append hxl (lastOk_append (lastOk_pPart pr)
        (lastOk_append lastOk_rPart (lastOk_gPart _ htags))))
  cases cd with
  | some d =>
    obtain ⟨hd, hcompl, hcrdn⟩ := hcd
    subst hcompl
    subst hcrdn
    have hdp : dPart true (some d) none = (" [done:").data ++ (d ++ [']']) := by
      unfold dPart
      simp
    rw [hdp]
    rw [show x ++ (pPart pr ++ (rPart ro ++ (gPart tags ++ ((" [done:").data ++ (d ++ [']'])))))
      = (x ++ (pPart pr ++ (rPart ro ++ gPart tags))) ++ ((" [done:").data ++ (d ++ [']'])) from by
        simp [List.append_assoc]]
    rw [exDone_hit _ hUdone hUtrim hd]
    rw [exCreated_noop _ hUcreated]
    exact extract_mid x pr ro tags _ hchars hne htrim hcoll htags hro
  | none =>
    cases crd with
    | some c =>
      have hdp : dPart completed none (some c) = (" [created:").data ++ (c ++ [']']) := by
        unfold dPart
        simp
      rw [hdp]
      rw [show x ++ (pPart pr ++ (rPart ro ++ (gPart tags ++ ((" [created:").data ++ (c ++ [']'])))))
        = (x ++ (pPart pr ++ (rPart ro ++ gPart tags))) ++ ((" [created:").data ++ (c ++ [']'])) from by
          simp [List.append_assoc]]
      rw [exDone_noop _ (ClearFor.append hUdone (clearFor_done_createdSeg hcrd))]
      rw [exCreated_hit _ hUcreated hUtrim hcrd]
      exact extract_mid x pr ro tags _ hchars hne htrim hcoll htags hro
    | none =>
      rw [show dPart completed none none = ([] : Str) from by unfold dPart; simp]
      rw [List.append_nil]
      rw [exDone_noop _ hUdone]
      rw [exCreated_noop _ hUcreated]
      exact extract_mid x pr ro tags _ hchars hne htrim hcoll htags hro

/-- The checklist grammar recovers the indent, checkbox and body of a line
rebuilt by the updater. -/
theorem matchTaskLine_build (indent S : Str) (m : Char)
    (hind : ∀ c ∈ indent, isWsChar c = true)
    (hm : m = ' ' ∨ m = 'x')
    (hS : S ≠ [])
    (hShead : ∀ c, S.head? = some c → isWsChar c = false)
    (hdot : ∀ c ∈ S, isDotChar c = true) :
    matchTaskLine (indent ++ (("- [").data ++ ((m :: ("] ").data) ++ S)))
      = some (indent, m, S) := by
  obtain ⟨a, as, rfl⟩ : ∃ a as, S = a :: as := by
    cases S with
    | nil => exact absurd rfl hS
    | cons a as => exact ⟨a, as, rfl⟩
  have hah : isWsChar a = false := hShead a rfl
  have hTW : (indent ++ ('-' :: (' ' :: ('[' :: (m :: (']' :: (' ' :: (a :: as)))))))).takeWhile
      isWsChar = indent := by
    rw [takeWhile_append_all _ hind, List.takeWhile_cons_of_neg (by decide)]
    simp
  have hDW : (indent ++ ('-' :: (' ' :: ('[' :: (m :: (']' :: (' ' :: (a :: as)))))))).dropWhile
      isWsChar = '-' :: (' ' :: ('[' :: (m :: (']' :: (' ' :: (a :: as)))))) := by
    rw [dropWhile_append_all _ hind, List.dropWhile_cons_of_neg (by decide)]
  show matchTaskLine (indent ++ ('-' :: (' ' :: ('[' :: (m :: (']' :: (' ' :: (a :: as)))))))) = _
  unfold matchTaskLine
  rw [hTW, hDW]
  have hall : (a :: as).all isDotChar = true := List.all_eq_true.mpr hdot
  have hdtail : ∀ x ∈ as, isDotChar x = true :=
    fun x hx => hdot x (List.mem_cons_of_mem a hx)
  rcases hm with rfl | rfl <;>
    simp [List.takeWhile, List.dropWhile, hah, hdot,
      show isWsChar ' ' = true from rfl, show isWsChar '[' = false from rfl,
      show isWsChar ']' = false from rfl, show isWsChar 'x' = false from rfl,
      hdtail,
      show (decide (a = ' ') || decide (a = '\t') || decide (a = '\n') ||
        decide (a = '\x0d') || decide (a = Char.ofNat 11) ||
        decide (a = Char.ofNat 12)) = false from hah] <;>
    exact hdtail

/-- The structured-metadata pattern stays silent on star-free text. -/
theorem matchMetadata_none {x : Str} (hne : x ≠ [])
    (hchars : ∀ c ∈ x, safeTextChar c = true) :
    matchMetadata x = none := by
  cases x with
  | nil => exact absurd rfl hne
  | cons c cs =>
    have hstar : c ≠ '*' := (safeTextChar_spec (hchars c (by simp))).2.2.2.2.1
    unfold matchMetadata
    split
    all_goals first
    | rfl
    | (rename_i r heq
       exfalso
       apply hstar
       injection heq)

/-- A well-formed date string is nonempty. -/
theorem dateShape_not_empty {d : Str} (hd : dateShape d = true) : d.isEmpty = false := by
  cases d with
  | nil => simp [dateShape] at hd
  | cons a as => rfl

/-- The line the updater rebuilds with no field changes: indent, checkbox,
text, then the emitted priority, recurrence, hashtag and date segments. -/
theorem buildUpdatedLine_shape (today : CivilDate) (t : Task)
    (howner : t.owner = none) (hdue : t.dueDate = none) (hstage : t.stage = none)
    (hproj : t.project = none)
    (hcd : match t.completedDate with
      | some d => dateShape d = true ∧ t.completed = true ∧ t.createdDate = none
      | none => True)
    (hcrd : match t.createdDate with | some c => dateShape c = true | none => True) :
    buildUpdatedLine today t {} = t.indent ++ (("- [").data ++ (((if t.completed then 'x' else ' ') :: ("] ").data) ++ (t.text ++ (pPart t.priority ++ (rPart t.recurrence ++ (gPart t.tags ++ dPart t.completed t.completedDate t.createdDate)))))) := by
  cases hcdv : t.completedDate with
  | some d =>
    rw [hcdv] at hcd
    obtain ⟨hd, hcompl, hcrdn⟩ := hcd
    have hdne : d.isEmpty = false := dateShape_not_empty hd
    cases hpr : t.priority <;> cases hro : t.recurrence <;> cases htg : t.tags <;>
      simp [buildUpdatedLine, pPart, rPart, gPart, dPart, truthyS,
        howner, hdue, hstage, hproj, hcdv, hcrdn, hcompl, hpr, hro, htg, hdne,
        List.append_assoc]
  | none =>
    cases hcrdv : t.createdDate with
    | some c2 =>
      rw [hcrdv] at hcrd
      have hcne : c2.isEmpty = false := dateShape_not_empty hcrd
      cases hpr : t.priority <;> cases hro : t.recurrence <;> cases htg : t.tags <;>
        simp [buildUpdatedLine, pPart, rPart, gPart, dPart, truthyS,
          howner, hdue, hstage, hproj, hcdv, hcrdv, hpr, hro, htg, hcne,
          List.append_assoc]
    | none =>
      cases hpr : t.priority <;> cases hro : t.recurrence <;> cases htg : t.tags <;>
        simp [buildUpdatedLine, pPart, rPart, gPart, dPart, truthyS,
          howner, hdue, hstage, hproj, hcdv, hcrdv, hpr, hro, htg,
          List.append_assoc]

/-- The priority segment has no line terminator. -/
theorem pPart_dot (pr : Option Priority) : ∀ c ∈ pPart pr, isDotChar c = true := by
  cases pr with
  | none => simp [pPart]
  | some p => cases p <;> decide

/-- The recurrence segment has no line terminator. -/
theorem rPart_dot {ro : Option Recurrence} (hro : RecOk ro) :
    ∀ c ∈ rPart ro, isDotChar c = true := by
  cases ro with
  | none => simp [rPart]
  | some r =>
    obtain ⟨_, _, _, hchars⟩ := hro
    intro c hc
    have hop : ∀ x ∈ (" [repeat:").data, isDotChar x = true := by decide
    rcases List.mem_append.mp hc with hc2 | hc2
    · rcases List.mem_append.mp hc2 with hc3 | hc3
      · exact hop c hc3
      · exact (safeRawChar_spec (hchars c hc3)).1
    · rw [List.mem_singleton] at hc2
      subst hc2
      decide

/-- The hashtag segment has no line terminator. -/
theorem gPart_dot {tags : List Str} (htags : TagsOk tags) :
    ∀ c ∈ gPart tags, isDotChar c = true := by
  intro c hc
  rcases mem_gPart tags c hc with rfl | rfl | ⟨g, hg, hcg⟩
  · decide
  · decide
  · exact isTagChar_dot ((htags g hg).2.1 c hcg)

/-- The date segments have no line terminator. -/
theorem dPart_dot (completed : Bool) {cd crd : Option Str}
    (hcrd : match crd with | some c => dateShape c = true | none => True)
    (hcd : match cd with
      | some d => dateShape d = true ∧ completed = true ∧ crd = none
      | none => True) :
    ∀ c ∈ dPart completed cd crd, isDotChar c = true := by
  intro c hc
  have hop1 : ∀ x ∈ (" [done:").data, isDotChar x = true := by decide
  have hop2 : ∀ x ∈ (" [created:").data, isDotChar x = true := by decide
  unfold dPart at hc
  rcases List.mem_append.mp hc with hc2 | hc2
  · cases cd with
    | none => simp at hc2
    | some d =>
      obtain ⟨hd, hcompl, _⟩ := hcd
      rw [hcompl] at hc2
      simp only at hc2
      rcases List.mem_append.mp hc2 with hc3 | hc3
      · rcases List.mem_append.mp hc3 with hc4 | hc4
        · exact hop1 c hc4
        · rcases (dateShape_chars hd).2 c hc4 with h | rfl
          · exact isDigitChar_dot h
          · decide
      · rw [List.mem_singleton] at hc3
        subst hc3
        decide
  · cases crd with
    | none => simp at hc2
    | some c2 =>
      simp only at hc2
      rcases List.mem_append.mp hc2 with hc3 | hc3
      · rcases List.mem_append.mp hc3 with hc4 | hc4
        · exact hop2 c hc4
        · rcases (dateShape_chars hcrd).2 c hc4 with h | rfl
          · exact isDigitChar_dot h
          · decide
      · rw [List.mem_singleton] at hc3
        subst hc3
        decide

/-- A completed task line carrying both a created and a done date. -/
def exLineC1 : Str := ("- [x] Call [created:2025-01-01] [done:2025-01-02]").data

/-- The task parsed from that line. -/
def exTaskC1 : Task :=
  (parseTaskLine exLineC1 { path := ("f.md").data, basename := ("f").data }
    1 []).getD defaultTask

/-- The task parsed back from the line the updater rebuilds for it with an
empty change set. -/
def exReC1 : Task :=
  (parseTaskLine (buildUpdatedLine exDate exTaskC1 {})
    { path := ("f.md").data, basename := ("f").data } 1 []).getD defaultTask

/-- Claim C1 counterexample: the parse/rebuild/reparse round trip loses the
completion date. The original line parses to text Call with completion date
2025-01-02 and creation date 2025-01-01, but the updater emits the done tag
before the created tag while the completed-date pattern only matches at the
end of the line, so the reparsed task has no completion date and the done
tag is left inside its display text. -/
theorem roundTrip_counterexample :
    exTaskC1.text = ("Call").data ∧
    exTaskC1.completedDate = some (("2025-01-02").data) ∧
    exTaskC1.createdDate = some (("2025-01-01").data) ∧
    exReC1.completedDate = none ∧
    exReC1.text = ("Call [done:2025-01-02]").data :=
  ⟨rfl, rfl, rfl, rfl, rfl⟩



/-- Adjacent characters that are not both whitespace. -/
def wsPair (a b : Char) : Prop := isWsChar a = false ∨ isWsChar b = false

/-- Whitespace-collapse is the identity when no two adjacent characters are
whitespace and every whitespace character is a plain space. -/
theorem collapseWs_fix_of : ∀ (l : Str), List.Chain' wsPair l →
    (∀ c ∈ l, isWsChar c = true → c = ' ') → collapseWs l = l
  | [], _, _ => rfl
  | [c], _, h2 => by
    unfold collapseWs
    by_cases hc : isWsChar c = true
    · rw [if_pos hc, h2 c (by simp) hc]
    · rw [if_neg hc]
  | a :: b :: rest, h1, h2 => by
    unfold collapseWs
    by_cases ha : isWsChar a = true
    · have hb : isWsChar b = false := by
        rcases (List.chain'_cons.mp h1).1 with h | h
        · rw [ha] at h
          exact Bool.noConfusion h
        · exact h
      rw [if_pos ha, if_neg (by rw [hb]; exact Bool.noConfusion)]
      rw [h2 a (by simp) ha]
      have hrest : collapseWs rest = rest :=
        collapseWs_fix_of rest ((List.chain'_cons.mp h1).2.tail)
          (fun c hc hw => h2 c (by simp [hc]) hw)
      rw [hrest]
    · rw [if_neg ha]
      have htl : collapseWs (b :: rest) = b :: rest :=
        collapseWs_fix_of (b :: rest) (List.chain'_cons.mp h1).2
          (fun c hc hw => h2 c (by simp [List.mem_cons.mp hc]) hw)
      rw [htl]

/-- Whitespace-collapse never lengthens a string. -/
theorem collapseWs_length_le : ∀ (l : Str), (collapseWs l).length ≤ l.length
  | [] => Nat.le_refl _
  | [c] => by
    unfold collapseWs
    by_cases hc : isWsChar c = true
    · rw [if_pos hc]
      all_goals exact Nat.le_refl _
    · rw [if_neg hc]
      all_goals exact Nat.le_refl _
  | a :: b :: rest => by
    unfold collapseWs
    by_cases ha : isWsChar a = true
    · rw [if_pos ha]
      by_cases hb : isWsChar b = true
      · rw [if_pos hb]
        exact Nat.le_trans (collapseWs_length_le (b :: rest)) (Nat.le_succ _)
      · rw [if_neg hb]
        have hr := collapseWs_length_le rest
        simp only [List.length_cons]
        omega
    · rw [if_neg ha]
      have hr := collapseWs_length_le (b :: rest)
      simp only [List.length_cons] at hr ⊢
      omega

/-- A collapse fixed point has no two adjacent whitespace characters. -/
theorem collapseWs_fix_chain : ∀ (l : Str), collapseWs l = l →
    List.Chain' wsPair l
  | [], _ => List.chain'_nil
  | [c], _ => List.chain'_singleton c
  | a :: b :: rest, h => by
    unfold collapseWs at h
    by_cases ha : isWsChar a = true
    · rw [if_pos ha] at h
      by_cases hb : isWsChar b = true
      · rw [if_pos hb] at h
        exfalso
        have hle := collapseWs_length_le (b :: rest)
        rw [h] at hle
        simp at hle
      · rw [if_neg hb] at h
        injection h with h1 h2
        injection h2 with h3 h4
        have hb2 : isWsChar b = false := by simpa using hb
        refine List.chain'_cons.mpr ⟨Or.inr hb2, ?_⟩
        refine (List.chain'_cons'.mpr ⟨fun y _ => Or.inl hb2, ?_⟩)
        exact collapseWs_fix_chain rest h4
    · rw [if_neg ha] at h
      injection h with h1 h2
      refine List.chain'_cons.mpr ⟨Or.inl (by simpa using ha), ?_⟩
      exact collapseWs_fix_chain (b :: rest) h2
/-- Every whitespace character of a collapse fixed point is a space. -/
theorem collapseWs_fix_space : ∀ (l : Str), collapseWs l = l →
    ∀ c ∈ l, isWsChar c = true → c = ' '
  | [], _, c, hc, _ => absurd hc (by simp)
  | [d], h, c, hc, hw => by
    rw [List.mem_singleton] at hc
    subst hc
    unfold collapseWs at h
    rw [if_pos hw] at h
    injection h with h1
    exact h1.symm
  | a :: b :: rest, h, c, hc, hw => by
    unfold collapseWs at h
    by_cases ha : isWsChar a = true
    · rw [if_pos ha] at h
      by_cases hb : isWsChar b = true
      · exfalso
        rw [if_pos hb] at h
        have hle := collapseWs_length_le (b :: rest)
        rw [h] at hle
        simp at hle
      · rw [if_neg hb] at h
        injection h with h1 h2
        injection h2 with h3 h4
        rcases List.mem_cons.mp hc with rfl | hc2
        · exact h1.symm
        · rcases List.mem_cons.mp hc2 with rfl | hc3
          · rw [hw] at hb
            exact absurd rfl hb
          · exact collapseWs_fix_space rest h4 c hc3 hw
    · rw [if_neg ha] at h
      injection h with h1 h2
      rcases List.mem_cons.mp hc with rfl | hc2
      · rw [hw] at ha
        exact absurd rfl ha
      · exact collapseWs_fix_space (b :: rest) h2 c hc2 hw

/-- Trim swallows an all-whitespace head. -/
theorem jsTrim_ws_append {w x : Str} (hw : ∀ c ∈ w, isWsChar c = true) :
    jsTrim (w ++ x) = jsTrim x := by
  unfold jsTrim
  rw [dropWhile_append_all _ hw]

/-- A nonempty list is not isEmpty. -/
theorem isEmpty_false_of_ne {α : Type} {v : List α} (h : v ≠ []) : v.isEmpty = false := by
  cases v with
  | nil => exact absurd rfl h
  | cons a as => rfl

/-- Nullish coalescing with an absent fallback. -/
theorem orO_none {α : Type} (a : Option α) : orO a none = a := by
  cases a <;> rfl


/-- The jsSplit of a separator-free string is that string alone. -/
theorem jsSplit_no_sep {sep : Char} : ∀ {a : Str}, (∀ c ∈ a, c ≠ sep) →
    jsSplit sep a = [a]
  | [], _ => rfl
  | c :: cs, h => by
    unfold jsSplit
    rw [if_neg (h c (by simp))]
    rw [jsSplit_no_sep (fun d hd => h d (List.mem_cons_of_mem c hd))]

/-- jsSplit cuts at the first separator after a separator-free prefix. -/
theorem jsSplit_break {sep : Char} : ∀ {a : Str} (b : Str), (∀ c ∈ a, c ≠ sep) →
    jsSplit sep (a ++ sep :: b) = a :: jsSplit sep b
  | [], b, _ => by
    rw [List.nil_append]
    conv_lhs => unfold jsSplit
    rw [if_pos rfl]
  | c :: a, b, h => by
    rw [List.cons_append]
    conv_lhs => unfold jsSplit
    rw [if_neg (h c (by simp))]
    rw [jsSplit_break b (fun d hd => h d (List.mem_cons_of_mem c hd))]

/-- The metadata part list the updater rebuilds: the present, nonempty
owner, due date, stage and project values in source order. -/
def metadataParts (o d s p : Option Str) : List Str :=
  ([o, d, s, p].filterMap id).filter (¬ ·.isEmpty)

/-- The structured-metadata block of the rebuilt line (with its trailing
space), empty when no field is present. -/
def mPart4 (o d s p : Option Str) : Str :=
  if !(metadataParts o d s p).isEmpty then
    ("**").data ++ (joinWithSep ((" | ").data) (metadataParts o d s p) ++ (":** ").data)
  else []

/-- A predicate transported to an optional value. -/
def OptOk (P : Str → Prop) : Option Str → Prop
  | some v => P v
  | none => True

/-- A canonical metadata part, as the parser produces it from the collapsed
and trimmed text: nonempty, trim-fixed, no line terminator, bracket, hash,
star, colon or pipe, only plain single spaces as whitespace. -/
def PartOk (v : Str) : Prop :=
  v ≠ [] ∧ jsTrim v = v ∧
  (∀ c ∈ v, metaTextChar c = true ∧ c ≠ '*' ∧ c ≠ ':' ∧ c ≠ '|' ∧
    (isWsChar c = true → c = ' ')) ∧
  List.Chain' wsPair v

/-- An owner value the classification chain returns to the owner slot. -/
def OwnerOk (cs : List Str) (v : Str) : Prop :=
  PartOk v ∧ matchDueDate v = none ∧ (STAGES ++ cs).contains v = false ∧
  priorityFromLower (toLowerStr v) = none ∧
  validateOwner v = { isValid := true, error := none, sanitizedValue := some v }

/-- A due-date value the classification chain returns to the date slot. -/
def DueOk (v : Str) : Prop :=
  PartOk v ∧ dateShape v = true ∧
  validateDate v = { isValid := true, error := none, sanitizedValue := some v }

/-- A stage value the classification chain returns to the stage slot. -/
def StageOk (cs : List Str) (v : Str) : Prop :=
  PartOk v ∧ matchDueDate v = none ∧ (STAGES ++ cs).contains v = true

/-- A project value the classification chain returns to the project slot. -/
def ProjOk (cs : List Str) (v : Str) : Prop :=
  PartOk v ∧ matchDueDate v = none ∧ (STAGES ++ cs).contains v = false ∧
  priorityFromLower (toLowerStr v) = none ∧
  validateProject v = { isValid := true, error := none, sanitizedValue := some v }

/-- The structured fields of a task in the shape the parser itself emits
them: each present field classifiable back to its own slot, a project only
next to an owner, and deduplicated tags whenever the block is present. -/
def MetaOk (cs : List Str) (o d s p : Option Str) (tags : List Str) : Prop :=
  OptOk (OwnerOk cs) o ∧ OptOk DueOk d ∧ OptOk (StageOk cs) s ∧
  OptOk (ProjOk cs) p ∧ (p.isSome = true → o.isSome = true) ∧
  (metadataParts o d s p ≠ [] → dedupFirst tags = tags)

/-- A string that the date-with-prefix pattern rejects is not date-shaped. -/
theorem dateShape_false_of_mddnone {v : Str} (h : matchDueDate v = none) :
    dateShape v = false := by
  by_cases hd : dateShape v = true
  · unfold matchDueDate at h
    rw [if_pos hd] at h
    exact Option.noConfusion h
  · simpa using hd


/-- Splitting a part join at the pipes after a leading space recovers the
parts. -/
theorem split_join_aux : ∀ (ps : List Str), (∀ v ∈ ps, PartOk v) → ps ≠ [] →
    ((jsSplit '|' (' ' :: joinWithSep ((" | ").data) ps)).map jsTrim).filter
      (¬ ·.isEmpty) = ps
  | [], _, hne => absurd rfl hne
  | [v], hall, _ => by
    obtain ⟨hvne, hvtr, hvch, _⟩ := hall v (by simp)
    rw [show joinWithSep ((" | ").data) [v] = v from rfl]
    rw [jsSplit_no_sep (a := ' ' :: v) (by
      intro c hc
      rcases List.mem_cons.mp hc with rfl | hc2
      · decide
      · exact (hvch c hc2).2.2.2.1)]
    rw [List.map_singleton]
    rw [show jsTrim (' ' :: v) = jsTrim ([' '] ++ v) from rfl]
    rw [jsTrim_ws_append (by intro c hc; rw [List.mem_singleton] at hc; subst hc; decide)]
    rw [hvtr]
    simp only [List.filter_singleton]
    simp [isEmpty_false_of_ne hvne]
  | v :: w :: t, hall, _ => by
    obtain ⟨hvne, hvtr, hvch, _⟩ := hall v (by simp)
    rw [joinWithSep_cons_cons]
    rw [show ' ' :: ((v ++ (" | ").data) ++ joinWithSep ((" | ").data) (w :: t))
      = (' ' :: (v ++ [' '])) ++ '|' :: (' ' :: joinWithSep ((" | ").data) (w :: t))
      from by
        rw [show (" | ").data = [' ', '|', ' '] from rfl]
        simp]
    rw [jsSplit_break _ (by
      intro c hc
      rcases List.mem_cons.mp hc with rfl | hc2
      · decide
      · rcases List.mem_append.mp hc2 with hc3 | hc3
        · exact (hvch c hc3).2.2.2.1
        · rw [List.mem_singleton] at hc3
          subst hc3
          decide)]
    rw [List.map_cons]
    rw [show jsTrim (' ' :: (v ++ [' '])) = jsTrim ([' '] ++ (v ++ [' '])) from rfl]
    rw [jsTrim_ws_append (by intro c hc; rw [List.mem_singleton] at hc; subst hc; decide)]
    rw [jsTrim_append_ws (trim_fix_head hvtr) (trim_fix_last hvtr)
      (by intro c hc; rw [List.mem_singleton] at hc; subst hc; decide)]
    rw [List.filter_cons_of_pos (by simp [isEmpty_false_of_ne hvne])]
    rw [split_join_aux (w :: t) (fun u hu => hall u (List.mem_cons_of_mem v hu))
      (by simp)]

/-- Splitting the rebuilt metadata join at the pipes recovers the parts. -/
theorem split_join : ∀ (ps : List Str), (∀ v ∈ ps, PartOk v) → ps ≠ [] →
    ((jsSplit '|' (joinWithSep ((" | ").data) ps)).map jsTrim).filter
      (¬ ·.isEmpty) = ps
  | [], _, hne => absurd rfl hne
  | [v], hall, _ => by
    obtain ⟨hvne, hvtr, hvch, _⟩ := hall v (by simp)
    rw [show joinWithSep ((" | ").data) [v] = v from rfl]
    rw [jsSplit_no_sep (fun c hc => (hvch c hc).2.2.2.1)]
    rw [List.map_singleton, hvtr]
    simp only [List.filter_singleton]
    simp [isEmpty_false_of_ne hvne]
  | v :: w :: t, hall, _ => by
    obtain ⟨hvne, hvtr, hvch, _⟩ := hall v (by simp)
    rw [joinWithSep_cons_cons]
    rw [show (v ++ (" | ").data) ++ joinWithSep ((" | ").data) (w :: t)
      = (v ++ [' ']) ++ '|' :: (' ' :: joinWithSep ((" | ").data) (w :: t))
      from by
        rw [show (" | ").data = [' ', '|', ' '] from rfl]
        simp]
    rw [jsSplit_break _ (by
      intro c hc
      rcases List.mem_append.mp hc with hc2 | hc2
      · exact (hvch c hc2).2.2.2.1
      · rw [List.mem_singleton] at hc2
        subst hc2
        decide)]
    rw [List.map_cons]
    rw [jsTrim_append_ws (trim_fix_head hvtr) (trim_fix_last hvtr)
      (by intro c hc; rw [List.mem_singleton] at hc; subst hc; decide)]
    rw [List.filter_cons_of_pos (by simp [isEmpty_false_of_ne hvne])]
    rw [split_join_aux (w :: t) (fun u hu => hall u (List.mem_cons_of_mem v hu))
      (by simp)]


/-- A part that fails the date, stage and priority tests and validates as an
owner fills a free owner slot. -/
theorem classify_owner {A : List Str} {acc : ParsedMetadata} {v : Str}
    (h1 : matchDueDate v = none) (h2 : A.contains v = false)
    (h3 : priorityFromLower (toLowerStr v) = none)
    (h4 : validateOwner v = { isValid := true, error := none, sanitizedValue := some v })
    (hacc : acc.owner = none) :
    classifyPart A acc v = { acc with owner := some v } := by
  have h2m : v ∉ A := by simpa using h2
  simp [classifyPart, h1, h2m, h3, h4, hacc]

/-- A date-shaped, calendar-valid part fills the due-date slot. -/
theorem classify_due {A : List Str} {acc : ParsedMetadata} {v : Str}
    (hd : dateShape v = true)
    (h4 : validateDate v = { isValid := true, error := none, sanitizedValue := some v }) :
    classifyPart A acc v = { acc with dueDate := some v } := by
  have h1 : matchDueDate v = some v := by
    unfold matchDueDate
    rw [if_pos hd]
  simp [classifyPart, h1, h4]

/-- A known stage name fills the stage slot. -/
theorem classify_stage {A : List Str} {acc : ParsedMetadata} {v : Str}
    (h1 : matchDueDate v = none) (h2 : A.contains v = true) :
    classifyPart A acc v = { acc with stage := some v } := by
  have h2m : v ∈ A := by simpa using h2
  simp [classifyPart, h1, h2m]

/-- With the owner slot taken, a part that validates as a project fills a
free project slot. -/
theorem classify_proj {A : List Str} {acc : ParsedMetadata} {v w : Str}
    (h1 : matchDueDate v = none) (h2 : A.contains v = false)
    (h3 : priorityFromLower (toLowerStr v) = none)
    (h4 : validateProject v = { isValid := true, error := none, sanitizedValue := some v })
    (hacc : acc.owner = some w) (hpacc : acc.project = none) :
    classifyPart A acc v = { acc with project := some v } := by
  have h2m : v ∉ A := by simpa using h2
  simp [classifyPart, tryProjectPart, h1, h2m, h3, h4, hacc, hpacc]

/-- The single-value branch sends a canonical owner back to the owner
slot. -/
theorem parseMeta_single_owner (cs : List Str) {v : Str} (h : OwnerOk cs v) :
    parseMetadataString v cs = { owner := some v } := by
  obtain ⟨⟨hvne, hvtr, hvch, hvchn⟩, h1, h2, h3, h4⟩ := h
  have hnb : containsChar '|' v = false := by
    unfold containsChar
    rw [List.any_eq_false]
    intro c hc
    simpa using (hvch c hc).2.2.2.1
  have hds : dateShape v = false := dateShape_false_of_mddnone h1
  have h2m : ¬ v ∈ STAGES ++ cs := by simpa using h2
  simp [parseMetadataString, hnb, hds, h2m, h3]

/-- The single-value branch sends a canonical due date back to the date
slot. -/
theorem parseMeta_single_due (cs : List Str) {v : Str} (h : DueOk v) :
    parseMetadataString v cs = { dueDate := some v } := by
  obtain ⟨⟨hvne, hvtr, hvch, hvchn⟩, hd, h4⟩ := h
  have hnb : containsChar '|' v = false := by
    unfold containsChar
    rw [List.any_eq_false]
    intro c hc
    simpa using (hvch c hc).2.2.2.1
  simp [parseMetadataString, hnb, hd]

/-- The single-value branch sends a canonical stage back to the stage
slot. -/
theorem parseMeta_single_stage (cs : List Str) {v : Str} (h : StageOk cs v) :
    parseMetadataString v cs = { stage := some v } := by
  obtain ⟨⟨hvne, hvtr, hvch, hvchn⟩, h1, h2⟩ := h
  have hnb : containsChar '|' v = false := by
    unfold containsChar
    rw [List.any_eq_false]
    intro c hc
    simpa using (hvch c hc).2.2.2.1
  have hds : dateShape v = false := dateShape_false_of_mddnone h1
  have h2m : v ∈ STAGES ++ cs := by simpa using h2
  simp [parseMetadataString, hnb, hds, h2m]

/-- On a join of two or more parts the delimited branch folds the
classification over exactly those parts. -/
theorem parseMeta_delim (cs : List Str) {a b : Str} {t : List Str}
    (hall : ∀ v ∈ a :: b :: t, PartOk v) :
    parseMetadataString (joinWithSep ((" | ").data) (a :: b :: t)) cs
      = (a :: b :: t).foldl (classifyPart (STAGES ++ cs)) {} := by
  have hcon : containsChar '|' (joinWithSep ((" | ").data) (a :: b :: t)) = true := by
    rw [joinWithSep_cons_cons]
    rw [show (" | ").data = [' ', '|', ' '] from rfl]
    simp [containsChar]
  unfold parseMetadataString
  rw [hcon]
  simp only [if_true]
  rw [split_join (a :: b :: t) hall (by simp)]


/-- Re-parsing the rebuilt metadata join re-classifies every part back to
its own slot. -/
theorem parseMeta_parts (cs : List Str) (o d s p : Option Str)
    (ho : OptOk (OwnerOk cs) o) (hd : OptOk DueOk d) (hs : OptOk (StageOk cs) s)
    (hp : OptOk (ProjOk cs) p) (hpo : p.isSome = true → o.isSome = true)
    (hne : metadataParts o d s p ≠ []) :
    parseMetadataString (joinWithSep ((" | ").data) (metadataParts o d s p)) cs
      = { owner := o, dueDate := d, stage := s, project := p } := by
  cases o with
  | none =>
    cases d with
    | none =>
      cases s with
      | none =>
        cases p with
        | none =>
          exact absurd rfl hne
        | some vp =>
          exact Bool.noConfusion (hpo rfl)
      | some vs =>
        cases p with
        | none =>
          have hs2 : StageOk cs vs := hs
          have hmp : metadataParts none none (some vs) none = [vs] := by
            simp [metadataParts, hs2.1.1]
          rw [hmp]
          rw [show joinWithSep ((" | ").data) [vs] = vs from rfl]
          exact parseMeta_single_stage cs hs2
        | some vp =>
          exact Bool.noConfusion (hpo rfl)
    | some vd =>
      cases s with
      | none =>
        cases p with
        | none =>
          have hd2 : DueOk vd := hd
          have hmp : metadataParts none (some vd) none none = [vd] := by
            simp [metadataParts, hd2.1.1]
          rw [hmp]
          rw [show joinWithSep ((" | ").data) [vd] = vd from rfl]
          exact parseMeta_single_due cs hd2
        | some vp =>
          exact Bool.noConfusion (hpo rfl)
      | some vs =>
        cases p with
        | none =>
          have hd2 : DueOk vd := hd
          have hs2 : StageOk cs vs := hs
          have hmp : metadataParts none (some vd) (some vs) none = [vd, vs] := by
            simp [metadataParts, hd2.1.1, hs2.1.1]
          rw [hmp]
          rw [parseMeta_delim cs (by
            intro u hu
            simp only [List.mem_cons, List.not_mem_nil, or_false] at hu
            rcases hu with rfl | rfl
            · exact hd2.1
            · exact hs2.1
            )]
          simp only [List.foldl_cons, List.foldl_nil]
          rw [classify_due hd2.2.1 hd2.2.2]
          rw [classify_stage hs2.2.1 hs2.2.2]
        | some vp =>
          exact Bool.noConfusion (hpo rfl)
  | some vo =>
    cases d with
    | none =>
      cases s with
      | none =>
        cases p with
        | none =>
          have ho2 : OwnerOk cs vo := ho
          have hmp : metadataParts (some vo) none none none = [vo] := by
            simp [metadataParts, ho2.1.1]
          rw [hmp]
          rw [show joinWithSep ((" | ").data) [vo] = vo from rfl]
          exact parseMeta_single_owner cs ho2
        | some vp =>
          have ho2 : OwnerOk cs vo := ho
          have hp2 : ProjOk cs vp := hp
          have hmp : metadataParts (some vo) none none (some vp) = [vo, vp] := by
            simp [metadataParts, ho2.1.1, hp2.1.1]
          rw [hmp]
          rw [parseMeta_delim cs (by
            intro u hu
            simp only [List.mem_cons, List.not_mem_nil, or_false] at hu
            rcases hu with rfl | rfl
            · exact ho2.1
            · exact hp2.1
            )]
          simp only [List.foldl_cons, List.foldl_nil]
          rw [classify_owner ho2.2.1 ho2.2.2.1 ho2.2.2.2.1 ho2.2.2.2.2 rfl]
          rw [classify_proj hp2.2.1 hp2.2.2.1 hp2.2.2.2.1 hp2.2.2.2.2 rfl rfl]
      | some vs =>
        cases p with
        | none =>
          have ho2 : OwnerOk cs vo := ho
          have hs2 : StageOk cs vs := hs
          have hmp : metadataParts (some vo) none (some vs) none = [vo, vs] := by
            simp [metadataParts, ho2.1.1, hs2.1.1]
          rw [hmp]
          rw [parseMeta_delim cs (by
            intro u hu
            simp only [List.mem_cons, List.not_mem_nil, or_false] at hu
            rcases hu with rfl | rfl
            · exact ho2.1
            · exact hs2.1
            )]
          simp only [List.foldl_cons, List.foldl_nil]
          rw [classify_owner ho2.2.1 ho2.2.2.1 ho2.2.2.2.1 ho2.2.2.2.2 rfl]
          rw [classify_stage hs2.2.1 hs2.2.2]
        | some vp =>
          have ho2 : OwnerOk cs vo := ho
          have hs2 : StageOk cs vs := hs
          have hp2 : ProjOk cs vp := hp
          have hmp : metadataParts (some vo) none (some vs) (some vp) = [vo, vs, vp] := by
            simp [metadataParts, ho2.1.1, hs2.1.1, hp2.1.1]
          rw [hmp]
          rw [parseMeta_delim cs (by
            intro u hu
            simp only [List.mem_cons, List.not_mem_nil, or_false] at hu
            rcases hu with rfl | rfl | rfl
            · exact ho2.1
            · exact hs2.1
            · exact hp2.1
            )]
          simp only [List.foldl_cons, List.foldl_nil]
          rw [classify_owner ho2.2.1 ho2.2.2.1 ho2.2.2.2.1 ho2.2.2.2.2 rfl]
          rw [classify_stage hs2.2.1 hs2.2.2]
          rw [classify_proj hp2.2.1 hp2.2.2.1 hp2.2.2.2.1 hp2.2.2.2.2 rfl rfl]
    | some vd =>
      cases s with
      | none =>
        cases p with
        | none =>
          have ho2 : OwnerOk cs vo := ho
          have hd2 : DueOk vd := hd
          have hmp : metadataParts (some vo) (some vd) none none = [vo, vd] := by
            simp [metadataParts, ho2.1.1, hd2.1.1]
          rw [hmp]
          rw [parseMeta_delim cs (by
            intro u hu
            simp only [List.mem_cons, List.not_mem_nil, or_false] at hu
            rcases hu with rfl | rfl
            · exact ho2.1
            · exact hd2.1
            )]
          simp only [List.foldl_cons, List.foldl_nil]
          rw [classify_owner ho2.2.1 ho2.2.2.1 ho2.2.2.2.1 ho2.2.2.2.2 rfl]
          rw [classify_due hd2.2.1 hd2.2.2]
        | some vp =>
          have ho2 : OwnerOk cs vo := ho
          have hd2 : DueOk vd := hd
          have hp2 : ProjOk cs vp := hp
          have hmp : metadataParts (some vo) (some vd) none (some vp) = [vo, vd, vp] := by
            simp [metadataParts, ho2.1.1, hd2.1.1, hp2.1.1]
          rw [hmp]
          rw [parseMeta_delim cs (by
            intro u hu
            simp only [List.mem_cons, List.not_mem_nil, or_false] at hu
            rcases hu with rfl | rfl | rfl
            · exact ho2.1
            · exact hd2.1
            · exact hp2.1
            )]
          simp only [List.foldl_cons, List.foldl_nil]
          rw [classify_owner ho2.2.1 ho2.2.2.1 ho2.2.2.2.1 ho2.2.2.2.2 rfl]
          rw [classify_due hd2.2.1 hd2.2.2]
          rw [classify_proj hp2.2.1 hp2.2.2.1 hp2.2.2.2.1 hp2.2.2.2.2 rfl rfl]
      | some vs =>
        cases p with
        | none =>
          have ho2 : OwnerOk cs vo := ho
          have hd2 : DueOk vd := hd
          have hs2 : StageOk cs vs := hs
          have hmp : metadataParts (some vo) (some vd) (some vs) none = [vo, vd, vs] := by
            simp [metadataParts, ho2.1.1, hd2.1.1, hs2.1.1]
          rw [hmp]
          rw [parseMeta_delim cs (by
            intro u hu
            simp only [List.mem_cons, List.not_mem_nil, or_false] at hu
            rcases hu with rfl | rfl | rfl
            · exact ho2.1
            · exact hd2.1
            · exact hs2.1
            )]
          simp only [List.foldl_cons, List.foldl_nil]
          rw [classify_owner ho2.2.1 ho2.2.2.1 ho2.2.2.2.1 ho2.2.2.2.2 rfl]
          rw [classify_due hd2.2.1 hd2.2.2]
          rw [classify_stage hs2.2.1 hs2.2.2]
        | some vp =>
          have ho2 : OwnerOk cs vo := ho
          have hd2 : DueOk vd := hd
          have hs2 : StageOk cs vs := hs
          have hp2 : ProjOk cs vp := hp
          have hmp : metadataParts (some vo) (some vd) (some vs) (some vp) = [vo, vd, vs, vp] := by
            simp [metadataParts, ho2.1.1, hd2.1.1, hs2.1.1, hp2.1.1]
          rw [hmp]
          rw [parseMeta_delim cs (by
            intro u hu
            simp only [List.mem_cons, List.not_mem_nil, or_false] at hu
            rcases hu with rfl | rfl | rfl | rfl
            · exact ho2.1
            · exact hd2.1
            · exact hs2.1
            · exact hp2.1
            )]
          simp only [List.foldl_cons, List.foldl_nil]
          rw [classify_owner ho2.2.1 ho2.2.2.1 ho2.2.2.2.1 ho2.2.2.2.2 rfl]
          rw [classify_due hd2.2.1 hd2.2.2]
          rw [classify_stage hs2.2.1 hs2.2.2]
          rw [classify_proj hp2.2.1 hp2.2.2.1 hp2.2.2.2.1 hp2.2.2.2.2 rfl rfl]


/-- The lazy metadata group scan stops exactly at the emitted colon-stars
junction. -/
theorem metaFindGo_run : ∀ (g : Str) (X : Str), g ≠ [] →
    (∀ c ∈ g, isDotChar c = true ∧ c ≠ ':') →
    (∀ c, X.head? = some c → isWsChar c = false) →
    (∀ c ∈ X, isDotChar c = true) →
    metaFindGo (g ++ ':' :: '*' :: '*' :: ' ' :: X) = some (g, X)
  | [], _, hne, _, _, _ => absurd rfl hne
  | [c], X, _, hg, hxh, hxd => by
    rw [List.singleton_append]
    unfold metaFindGo
    rw [if_pos (hg c (by simp)).1]
    have hXdw : X.dropWhile isWsChar = X := by
      cases X with
      | nil => rfl
      | cons a as => exact List.dropWhile_cons_of_neg (by simp [hxh a rfl])
    have hdw : ((':' :: '*' :: '*' :: ' ' :: X).drop 3).dropWhile isWsChar = X := by
      rw [show (':' :: '*' :: '*' :: ' ' :: X).drop 3 = ' ' :: X from rfl]
      rw [List.dropWhile_cons_of_pos (by decide)]
      exact hXdw
    rw [if_pos (by
      rw [Bool.and_eq_true]
      refine ⟨?_, ?_⟩
      · rw [show ':' :: '*' :: '*' :: ' ' :: X = ((":**").data) ++ (' ' :: X) from rfl]
        exact isPrefixOf_self_append _ _
      · rw [hdw]
        exact List.all_eq_true.mpr hxd)]
    rw [hdw]
  | c :: c2 :: g', X, _, hg, hxh, hxd => by
    rw [List.cons_append]
    unfold metaFindGo
    rw [if_pos (hg c (by simp)).1]
    have hpf : ((":**").data).isPrefixOf ((c2 :: g') ++ ':' :: '*' :: '*' :: ' ' :: X)
        = false := by
      rw [show (":**").data = ':' :: (("**").data) from rfl, List.cons_append]
      exact isPrefixOf_cons_false _ _ (fun h => ((hg c2 (by simp)).2) h.symm)
    rw [hpf]
    rw [show (false && (((((c2 :: g') ++ ':' :: '*' :: '*' :: ' ' :: X).drop 3).dropWhile
      isWsChar).all isDotChar)) = false from Bool.false_and _]
    rw [if_neg (by simp)]
    rw [metaFindGo_run (c2 :: g') X (by simp)
      (fun u hu => hg u (List.mem_cons_of_mem c hu)) hxh hxd]


/-- A separator join of nonempty parts is nonempty. -/
theorem join_ne_nil (sep : Str) : ∀ {ps : List Str}, (∀ v ∈ ps, v ≠ []) →
    ps ≠ [] → joinWithSep sep ps ≠ []
  | [], _, hne => absurd rfl hne
  | [v], h, _ => h v (by simp)
  | v :: w :: t, h, _ => by
    rw [joinWithSep_cons_cons]
    intro hc
    exact h v (by simp) (List.append_eq_nil.mp (List.append_eq_nil.mp hc).1).1

/-- The head of a part join is the head of its first part. -/
theorem join_head (sep : Str) (v : Str) (t : List Str) (hv : v ≠ []) :
    (joinWithSep sep (v :: t)).head? = v.head? := by
  cases t with
  | nil => rfl
  | cons w t2 =>
    rw [joinWithSep_cons_cons, List.append_assoc]
    exact List.head?_append_of_ne_nil _ hv

/-- A part join whose parts end well ends well. -/
theorem join_lastOk (sep : Str) : ∀ {ps : List Str},
    (∀ v ∈ ps, lastOk v ∧ v ≠ []) → lastOk (joinWithSep sep ps)
  | [], _ => lastOk_nil
  | [v], h => (h v (by simp)).1
  | v :: w :: t, h => by
    rw [joinWithSep_cons_cons, List.append_assoc]
    have htail : lastOk (joinWithSep sep (w :: t)) :=
      join_lastOk sep (fun u hu => h u (List.mem_cons_of_mem v hu))
    have hjne : joinWithSep sep (w :: t) ≠ [] :=
      join_ne_nil sep (fun u hu => (h u (List.mem_cons_of_mem v hu)).2) (by simp)
    refine lastOk_append_right ?_ (lastOk_append_right hjne htail)
    intro hc
    exact hjne (List.append_eq_nil.mp hc).2

/-- Membership in a part join. -/
theorem mem_join (sep : Str) : ∀ {ps : List Str} {c : Char},
    c ∈ joinWithSep sep ps → c ∈ sep ∨ ∃ v ∈ ps, c ∈ v
  | [], c, h => absurd h (by simp [joinWithSep])
  | [v], c, h => Or.inr ⟨v, by simp, h⟩
  | v :: w :: t, c, h => by
    rw [joinWithSep_cons_cons, List.append_assoc] at h
    rcases List.mem_append.mp h with h2 | h2
    · exact Or.inr ⟨v, by simp, h2⟩
    · rcases List.mem_append.mp h2 with h3 | h3
      · exact Or.inl h3
      · rcases mem_join sep h3 with h4 | ⟨u, hu, hcu⟩
        · exact Or.inl h4
        · exact Or.inr ⟨u, List.mem_cons_of_mem v hu, hcu⟩

/-- No adjacent whitespace pair inside the rebuilt metadata join. -/
theorem chain_join : ∀ {ps : List Str},
    (∀ v ∈ ps, List.Chain' wsPair v ∧ (∀ c, v.head? = some c → isWsChar c = false) ∧
      lastOk v ∧ v ≠ []) →
    List.Chain' wsPair (joinWithSep ((" | ").data) ps)
  | [], _ => List.chain'_nil
  | [v], h => (h v (by simp)).1
  | v :: w :: t, h => by
    rw [joinWithSep_cons_cons, List.append_assoc]
    obtain ⟨hcv, hhv, hlv, hnv⟩ := h v (by simp)
    have htail := chain_join (fun u hu => h u (List.mem_cons_of_mem v hu))
    have hsep : List.Chain' wsPair ((" | ").data) := by
      rw [show (" | ").data = [' ', '|', ' '] from rfl]
      exact List.chain'_cons.mpr ⟨Or.inr (by decide),
        List.chain'_cons.mpr ⟨Or.inl (by decide), List.chain'_singleton _⟩⟩
    refine List.Chain'.append hcv (List.Chain'.append hsep htail ?_) ?_
    · intro x hx y hy
      obtain ⟨hcw, hhw, hlw, hnw⟩ := h w (by simp)
      rw [join_head _ w t hnw] at hy
      exact Or.inr (hhw y (Option.mem_def.mp hy))
    · intro x hx y hy
      exact Or.inl (hlv x (Option.mem_def.mp hx))

/-- The structured-metadata pattern recovers the group and the text from the
rebuilt block. -/
theorem matchMetadata_block {g X : Str} (hg : g ≠ [])
    (hgc : ∀ c ∈ g, isDotChar c = true ∧ c ≠ ':')
    (hxh : ∀ c, X.head? = some c → isWsChar c = false)
    (hxd : ∀ c ∈ X, isDotChar c = true) :
    matchMetadata (('*' :: '*' :: g) ++ (':' :: '*' :: '*' :: ' ' :: X))
      = some (g, X) := by
  rw [show ('*' :: '*' :: g) ++ (':' :: '*' :: '*' :: ' ' :: X)
    = '*' :: '*' :: (g ++ ':' :: '*' :: '*' :: ' ' :: X) from rfl]
  unfold matchMetadata
  exact metaFindGo_run g X hg hgc hxh hxd


/-- Every emitted metadata part is canonical. -/
theorem metadataParts_partOk {cs : List Str} {o d s p : Option Str} {tags : List Str}
    (hm : MetaOk cs o d s p tags) : ∀ v ∈ metadataParts o d s p, PartOk v := by
  intro v hv
  unfold metadataParts at hv
  have hv2 := List.mem_of_mem_filter hv
  rw [List.mem_filterMap] at hv2
  obtain ⟨a, ha, hav⟩ := hv2
  have hav2 : a = some v := hav
  subst hav2
  simp only [List.mem_cons, List.not_mem_nil, or_false] at ha
  obtain ⟨hmo, hmd, hms, hmp, _, _⟩ := hm
  rcases ha with rfl | rfl | rfl | rfl
  · exact (show OwnerOk cs v from hmo).1
  · exact (show DueOk v from hmd).1
  · exact (show StageOk cs v from hms).1
  · exact (show ProjOk cs v from hmp).1

/-- The nonempty metadata block followed by anything, in scan form. -/
theorem mPart4_expand {o d s p : Option Str} (hne : metadataParts o d s p ≠ [])
    (X : Str) :
    mPart4 o d s p ++ X =
      ('*' :: '*' :: joinWithSep ((" | ").data) (metadataParts o d s p)) ++
        (':' :: '*' :: '*' :: ' ' :: X) := by
  unfold mPart4
  rw [if_pos (by simp [isEmpty_false_of_ne hne])]
  rw [show ("**").data = ['*', '*'] from rfl]
  rw [show ((":** ").data) = [':', '*', '*', ' '] from rfl]
  simp

/-- Every character of the metadata block respects the pipeline
discipline. -/
theorem mPart4_chars {cs : List Str} {o d s p : Option Str} {tags : List Str}
    (hm : MetaOk cs o d s p tags) : ∀ c ∈ mPart4 o d s p, metaTextChar c = true := by
  intro c hc
  unfold mPart4 at hc
  split at hc
  · rcases List.mem_append.mp hc with hc2 | hc2
    · have hcc : ∀ u ∈ (("**").data : Str), metaTextChar u = true := by decide
      exact hcc c hc2
    · rcases List.mem_append.mp hc2 with hc3 | hc3
      · rcases mem_join _ hc3 with hsep | ⟨v, hv, hcv⟩
        · have hcc : ∀ u ∈ (((" | ").data) : Str), metaTextChar u = true := by decide
          exact hcc c hsep
        · exact ((metadataParts_partOk hm v hv).2.2.1 c hcv).1
      · have hcc : ∀ u ∈ (((":** ").data) : Str), metaTextChar u = true := by decide
        exact hcc c hc3
  · exact absurd hc (by simp)

/-- Every whitespace character of the metadata block is a plain space. -/
theorem mPart4_space {cs : List Str} {o d s p : Option Str} {tags : List Str}
    (hm : MetaOk cs o d s p tags) :
    ∀ c ∈ mPart4 o d s p, isWsChar c = true → c = ' ' := by
  intro c hc
  unfold mPart4 at hc
  split at hc
  · rcases List.mem_append.mp hc with hc2 | hc2
    · have hcc : ∀ u ∈ (("**").data : Str), isWsChar u = true → u = ' ' := by decide
      exact hcc c hc2
    · rcases List.mem_append.mp hc2 with hc3 | hc3
      · rcases mem_join _ hc3 with hsep | ⟨v, hv, hcv⟩
        · have hcc : ∀ u ∈ (((" | ").data) : Str), isWsChar u = true → u = ' ' := by
            decide
          exact hcc c hsep
        · exact ((metadataParts_partOk hm v hv).2.2.1 c hcv).2.2.2.2
      · have hcc : ∀ u ∈ (((":** ").data) : Str), isWsChar u = true → u = ' ' := by
          decide
        exact hcc c hc3
  · exact absurd hc (by simp)

/-- No adjacent whitespace pair across the metadata block and the display
text. -/
theorem mPart4_text_chain {cs : List Str} {o d s p : Option Str} {tags : List Str}
    (hm : MetaOk cs o d s p tags) (hnp : metadataParts o d s p ≠ [])
    {text : Str} (htrim : jsTrim text = text) (hcoll : collapseWs text = text) :
    List.Chain' wsPair (mPart4 o d s p ++ text) := by
  rw [mPart4_expand hnp]
  have hpok := metadataParts_partOk hm
  have hJ : List.Chain' wsPair (joinWithSep ((" | ").data) (metadataParts o d s p)) :=
    chain_join (fun v hv => ⟨(hpok v hv).2.2.2,
      trim_fix_head (hpok v hv).2.1, trim_fix_last (hpok v hv).2.1, (hpok v hv).1⟩)
  refine List.Chain'.append ?_ ?_ ?_
  · refine List.chain'_cons.mpr ⟨Or.inl (by decide), ?_⟩
    refine List.chain'_cons'.mpr ⟨fun y _ => Or.inl (by decide), hJ⟩
  · refine List.chain'_cons.mpr ⟨Or.inl (by decide), ?_⟩
    refine List.chain'_cons.mpr ⟨Or.inl (by decide), ?_⟩
    refine List.chain'_cons.mpr ⟨Or.inl (by decide), ?_⟩
    refine List.chain'_cons'.mpr ⟨?_, collapseWs_fix_chain text hcoll⟩
    intro y hy
    exact Or.inr (trim_fix_head htrim y (Option.mem_def.mp hy))
  · intro x hx y hy
    have hy2 : y = ':' := by
      have := Option.mem_def.mp hy
      injection this with h1
      exact h1.symm
    rw [hy2]
    exact Or.inr (by decide)



/-- The line the updater rebuilds with no field changes: indent, checkbox,
the structured-metadata block, text, then the emitted priority, recurrence,
hashtag and date segments. -/
theorem buildUpdatedLine_shape2 (today : CivilDate) (t : Task)
    (hcrd : match t.createdDate with | some c => dateShape c = true | none => True)
    (hcd : match t.completedDate with
      | some d => dateShape d = true ∧ t.completed = true ∧ t.createdDate = none
      | none => True) :
    buildUpdatedLine today t {} = t.indent ++ (("- [").data ++ (((if t.completed then 'x' else ' ') :: ("] ").data) ++ ((mPart4 t.owner t.dueDate t.stage t.project ++ t.text) ++ (pPart t.priority ++ (rPart t.recurrence ++ (gPart t.tags ++ dPart t.completed t.completedDate t.createdDate)))))) := by
  cases hpe : metadataParts t.owner t.dueDate t.stage t.project with
  | nil =>
    have hpe2 : (([t.owner, t.dueDate, t.stage, t.project].filterMap id).filter
      (¬ ·.isEmpty)) = [] := hpe
    cases hcdv : t.completedDate with
    | some d =>
      rw [hcdv] at hcd
      obtain ⟨hd, hcompl, hcrdn⟩ := hcd
      have hdne : d.isEmpty = false := dateShape_not_empty hd
      simp only [buildUpdatedLine, Option.getD_none]
      rw [hpe2]
      cases hpr : t.priority <;> cases hro : t.recurrence <;> cases htg : t.tags <;>
        simp [mPart4, pPart, rPart, gPart, dPart, truthyS,
          hpe, hcdv, hcrdn, hcompl, hdne, hpr, hro, htg, List.append_assoc]
    | none =>
      cases hcrdv : t.createdDate with
      | some c2 =>
        rw [hcrdv] at hcrd
        have hcne : c2.isEmpty = false := dateShape_not_empty hcrd
        simp only [buildUpdatedLine, Option.getD_none]
        rw [hpe2]
        cases hpr : t.priority <;> cases hro : t.recurrence <;> cases htg : t.tags <;>
          simp [mPart4, pPart, rPart, gPart, dPart, truthyS,
            hpe, hcdv, hcrdv, hcne, hpr, hro, htg, List.append_assoc]
      | none =>
        simp only [buildUpdatedLine, Option.getD_none]
        rw [hpe2]
        cases hpr : t.priority <;> cases hro : t.recurrence <;> cases htg : t.tags <;>
          simp [mPart4, pPart, rPart, gPart, dPart, truthyS,
            hpe, hcdv, hcrdv, hpr, hro, htg, List.append_assoc]
  | cons v vs =>
    have hpe2 : (([t.owner, t.dueDate, t.stage, t.project].filterMap id).filter
      (¬ ·.isEmpty)) = v :: vs := hpe
    cases hcdv : t.completedDate with
    | some d =>
      rw [hcdv] at hcd
      obtain ⟨hd, hcompl, hcrdn⟩ := hcd
      have hdne : d.isEmpty = false := dateShape_not_empty hd
      simp only [buildUpdatedLine, Option.getD_none]
      rw [hpe2]
      cases hpr : t.priority <;> cases hro : t.recurrence <;> cases htg : t.tags <;>
        simp [mPart4, pPart, rPart, gPart, dPart, truthyS,
          hpe, hcdv, hcrdn, hcompl, hdne, hpr, hro, htg, List.append_assoc]
    | none =>
      cases hcrdv : t.createdDate with
      | some c2 =>
        rw [hcrdv] at hcrd
        have hcne : c2.isEmpty = false := dateShape_not_empty hcrd
        simp only [buildUpdatedLine, Option.getD_none]
        rw [hpe2]
        cases hpr : t.priority <;> cases hro : t.recurrence <;> cases htg : t.tags <;>
          simp [mPart4, pPart, rPart, gPart, dPart, truthyS,
            hpe, hcdv, hcrdv, hcne, hpr, hro, htg, List.append_assoc]
      | none =>
        simp only [buildUpdatedLine, Option.getD_none]
        rw [hpe2]
        cases hpr : t.priority <;> cases hro : t.recurrence <;> cases htg : t.tags <;>
          simp [mPart4, pPart, rPart, gPart, dPart, truthyS,
            hpe, hcdv, hcrdv, hpr, hro, htg, List.append_assoc]


/-- Adjacent-pair whitespace freedom is decidable. -/
instance : DecidableRel wsPair :=
  fun a b => inferInstanceAs (Decidable (_ ∨ _))

/-- A value forced into the emitted metadata parts. -/
theorem mem_metadataParts_of {o d s p : Option Str} {v : Str} (hv : v ≠ [])
    (h : o = some v ∨ d = some v ∨ s = some v ∨ p = some v) :
    v ∈ metadataParts o d s p := by
  unfold metadataParts
  refine List.mem_filter.mpr ⟨?_, by simp [isEmpty_false_of_ne hv]⟩
  rw [List.mem_filterMap]
  refine ⟨some v, ?_, rfl⟩
  rcases h with h | h | h | h <;> simp [h]

/-- With no emitted metadata part, every canonical structured field is
absent. -/
theorem metadataParts_empty_fields {cs : List Str} {o d s p : Option Str}
    {tags : List Str} (hm : MetaOk cs o d s p tags)
    (hpe : metadataParts o d s p = []) :
    o = none ∧ d = none ∧ s = none ∧ p = none := by
  obtain ⟨hmo, hmd, hms, hmp, _, _⟩ := hm
  refine ⟨?_, ?_, ?_, ?_⟩
  · cases hov : o with
    | none => rfl
    | some v =>
      rw [hov] at hmo
      have := mem_metadataParts_of (o := o) (d := d) (s := s) (p := p)
        (show OwnerOk cs v from hmo).1.1 (Or.inl hov)
      rw [hpe] at this
      exact absurd this (by simp)
  · cases hov : d with
    | none => rfl
    | some v =>
      rw [hov] at hmd
      have := mem_metadataParts_of (o := o) (d := d) (s := s) (p := p)
        (show DueOk v from hmd).1.1 (Or.inr (Or.inl hov))
      rw [hpe] at this
      exact absurd this (by simp)
  · cases hov : s with
    | none => rfl
    | some v =>
      rw [hov] at hms
      have := mem_metadataParts_of (o := o) (d := d) (s := s) (p := p)
        (show StageOk cs v from hms).1.1 (Or.inr (Or.inr (Or.inl hov)))
      rw [hpe] at this
      exact absurd this (by simp)
  · cases hov : p with
    | none => rfl
    | some v =>
      rw [hov] at hmp
      have := mem_metadataParts_of (o := o) (d := d) (s := s) (p := p)
        (show ProjOk cs v from hmp).1.1 (Or.inr (Or.inr (Or.inr hov)))
      rw [hpe] at this
      exact absurd this (by simp)

/-- The task shapes for which the updater's rebuilt line reparses to the
same task: empty dependency lists, canonical display text, whitespace
indent, canonical hashtags, recurrence and structured-metadata fields, and
dates that the serializer can actually emit (a completion date only on a
completed task that carries no created date). -/
def SafeTask (cs : List Str) (t : Task) : Prop :=
  t.blockedBy = [] ∧ t.blocks = [] ∧
  t.text ≠ [] ∧ (∀ c ∈ t.text, safeTextChar c = true) ∧
  jsTrim t.text = t.text ∧ collapseWs t.text = t.text ∧
  (∀ c ∈ t.indent, isWsChar c = true) ∧
  TagsOk t.tags ∧ RecOk t.recurrence ∧
  MetaOk cs t.owner t.dueDate t.stage t.project t.tags ∧
  (match t.completedDate with
   | some d => dateShape d = true ∧ t.completed = true ∧ t.createdDate = none
   | none => True) ∧
  (match t.createdDate with | some c => dateShape c = true | none => True)


/-- Claim C1 (amended): for a task in the canonical parser-producible shape
(empty dependency lists, canonical text, tags, recurrence, structured
metadata fields and emittable dates), updating it with an empty change set
rebuilds a markdown line that parseTaskLine parses back to a task with the
same text, completion flag, dates, owner, project, stage, priority, tags,
recurrence and dependency lists. -/
theorem roundTrip_amended (t : Task) (today : CivilDate) (f2 : TFile)
    (ln : Nat) (cs : List Str) (hsafe : SafeTask cs t) :
    ∃ t2, parseTaskLine (buildUpdatedLine today t {}) f2 ln cs = some t2 ∧
      t2.text = t.text ∧ t2.completed = t.completed ∧ t2.dueDate = t.dueDate ∧
      t2.completedDate = t.completedDate ∧ t2.createdDate = t.createdDate ∧
      t2.owner = t.owner ∧ t2.project = t.project ∧ t2.stage = t.stage ∧
      t2.priority = t.priority ∧ t2.tags = t.tags ∧
      t2.recurrence = t.recurrence ∧ t2.blockedBy = t.blockedBy ∧
      t2.blocks = t.blocks := by
  obtain ⟨hbb, hbl, hne, hchars, htrim, hcoll, hind, htags, hro, hmeta, hcd, hcrd⟩ :=
    hsafe
  have hm : (if t.completed then 'x' else ' ') = ' ' ∨
      (if t.completed then 'x' else ' ') = 'x' := by
    cases t.completed
    · exact Or.inl rfl
    · exact Or.inr rfl
  have hcb : (decide ((if t.completed then 'x' else ' ').toLower = 'x')) = t.completed := by
    cases t.completed <;> decide
  rw [buildUpdatedLine_shape2 today t hcrd hcd]
  cases hpe : metadataParts t.owner t.dueDate t.stage t.project with
  | nil =>
    obtain ⟨hono, hdno, hsno, hpno⟩ := metadataParts_empty_fields hmeta hpe
    have hM : mPart4 t.owner t.dueDate t.stage t.project = [] := by
      unfold mPart4
      rw [hpe]
      rfl
    rw [hM, List.nil_append]
    have hSne : t.text ++ (pPart t.priority ++ (rPart t.recurrence ++
        (gPart t.tags ++ dPart t.completed t.completedDate t.createdDate))) ≠ [] :=
      fun h => hne (List.append_eq_nil.mp h).1
    have hShead := head?_text_append (pPart t.priority ++ (rPart t.recurrence ++
        (gPart t.tags ++ dPart t.completed t.completedDate t.createdDate)))
        hne (trim_fix_head htrim)
    have hSdot : ∀ c ∈ t.text ++ (pPart t.priority ++ (rPart t.recurrence ++
        (gPart t.tags ++ dPart t.completed t.completedDate t.createdDate))),
        isDotChar c = true := by
      intro c hc
      rcases List.mem_append.mp hc with h | h
      · exact (safeTextChar_spec (hchars c h)).1
      rcases List.mem_append.mp h with h | h
      · exact pPart_dot t.priority c h
      rcases List.mem_append.mp h with h | h
      · exact rPart_dot hro c h
      rcases List.mem_append.mp h with h | h
      · exact gPart_dot htags c h
      · exact dPart_dot t.completed hcrd hcd c h
    unfold parseTaskLine
    rw [matchTaskLine_build t.indent _ _ hind hm hSne hShead hSdot]
    dsimp only
    rw [extract_roundtrip t.text t.priority t.recurrence t.tags t.completed
      t.completedDate t.createdDate hne (fun c hc => safeTextChar_meta (hchars c hc))
      htrim hcoll htags hro hcrd hcd]
    dsimp only
    rw [matchMetadata_none hne hchars]
    dsimp only
    rw [hcb]
    exact ⟨_, rfl, rfl, rfl, hdno.symm, rfl, rfl, hono.symm, hpno.symm,
      hsno.symm, rfl, rfl, rfl, hbb.symm, hbl.symm⟩
  | cons v vs =>
    have hpne : metadataParts t.owner t.dueDate t.stage t.project ≠ [] := by
      rw [hpe]
      simp
    have hpok := metadataParts_partOk hmeta
    have hch := mPart4_chars hmeta
    have hsp := mPart4_space hmeta
    have hchn := mPart4_text_chain hmeta hpne htrim hcoll
    have hvmem : v ∈ metadataParts t.owner t.dueDate t.stage t.project := by
      rw [hpe]
      simp
    have hxe := mPart4_expand hpne t.text
    have hxne : mPart4 t.owner t.dueDate t.stage t.project ++ t.text ≠ [] :=
      fun h => hne (List.append_eq_nil.mp h).2
    have hxhead : ∀ c, (mPart4 t.owner t.dueDate t.stage t.project ++ t.text).head?
        = some c → isWsChar c = false := by
      intro c hc
      rw [hxe] at hc
      have h2 : c = '*' := by
        have h3 : (('*' :: '*' :: joinWithSep ((" | ").data)
            (metadataParts t.owner t.dueDate t.stage t.project)) ++
            (':' :: '*' :: '*' :: ' ' :: t.text)).head? = some '*' := rfl
        rw [h3] at hc
        injection hc with h4
        exact h4.symm
      subst h2
      decide
    have hxlast : lastOk (mPart4 t.owner t.dueDate t.stage t.project ++ t.text) :=
      lastOk_append_right hne (trim_fix_last htrim)
    have hxtrim := jsTrim_eq_self hxhead hxlast
    have hxcoll : collapseWs (mPart4 t.owner t.dueDate t.stage t.project ++ t.text)
        = mPart4 t.owner t.dueDate t.stage t.project ++ t.text := by
      refine collapseWs_fix_of _ hchn ?_
      intro c hc hw
      rcases List.mem_append.mp hc with h | h
      · exact hsp c h hw
      · exact collapseWs_fix_space t.text hcoll c h hw
    have hxchars : ∀ c ∈ mPart4 t.owner t.dueDate t.stage t.project ++ t.text,
        metaTextChar c = true := by
      intro c hc
      rcases List.mem_append.mp hc with h | h
      · exact hch c h
      · exact safeTextChar_meta (hchars c h)
    obtain ⟨hmo, hmd, hms, hmp, hpo2, hdedup⟩ := hmeta
    have hSne : (mPart4 t.owner t.dueDate t.stage t.project ++ t.text) ++
        (pPart t.priority ++ (rPart t.recurrence ++
        (gPart t.tags ++ dPart t.completed t.completedDate t.createdDate))) ≠ [] :=
      fun h => hxne (List.append_eq_nil.mp h).1
    have hShead := head?_text_append (pPart t.priority ++ (rPart t.recurrence ++
        (gPart t.tags ++ dPart t.completed t.completedDate t.createdDate)))
        hxne hxhead
    have hSdot : ∀ c ∈ (mPart4 t.owner t.dueDate t.stage t.project ++ t.text) ++
        (pPart t.priority ++ (rPart t.recurrence ++
        (gPart t.tags ++ dPart t.completed t.completedDate t.createdDate))),
        isDotChar c = true := by
      intro c hc
      rcases List.mem_append.mp hc with h | h
      · exact (metaTextChar_spec (hxchars c h)).1
      rcases List.mem_append.mp h with h | h
      · exact pPart_dot t.priority c h
      rcases List.mem_append.mp h with h | h
      · exact rPart_dot hro c h
      rcases List.mem_append.mp h with h | h
      · exact gPart_dot htags c h
      · exact dPart_dot t.completed hcrd hcd c h
    unfold parseTaskLine
    rw [matchTaskLine_build t.indent _ _ hind hm hSne hShead hSdot]
    dsimp only
    rw [extract_roundtrip (mPart4 t.owner t.dueDate t.stage t.project ++ t.text)
      t.priority t.recurrence t.tags t.completed t.completedDate t.createdDate
      hxne hxchars hxtrim hxcoll htags hro hcrd hcd]
    dsimp only
    have hJne : joinWithSep ((" | ").data)
        (metadataParts t.owner t.dueDate t.stage t.project) ≠ [] :=
      join_ne_nil _ (fun u hu => (hpok u hu).1) hpne
    have hJc : ∀ c ∈ joinWithSep ((" | ").data)
        (metadataParts t.owner t.dueDate t.stage t.project),
        isDotChar c = true ∧ c ≠ ':' := by
      intro c hc
      rcases mem_join _ hc with hs2 | ⟨u, hu, hcu⟩
      · have hcc : ∀ u2 ∈ (((" | ").data) : Str), isDotChar u2 = true ∧ u2 ≠ ':' := by
          decide
        exact hcc c hs2
      · exact ⟨(metaTextChar_spec ((hpok u hu).2.2.1 c hcu).1).1,
          ((hpok u hu).2.2.1 c hcu).2.2.1⟩
    rw [hxe]
    rw [matchMetadata_block hJne hJc (trim_fix_head htrim)
      (fun c hc => (safeTextChar_spec (hchars c hc)).1)]
    dsimp only
    have hJhead : ∀ c, (joinWithSep ((" | ").data)
        (metadataParts t.owner t.dueDate t.stage t.project)).head? = some c →
        isWsChar c = false := by
      intro c hc
      rw [hpe, join_head _ v vs (hpok v hvmem).1] at hc
      exact trim_fix_head (hpok v hvmem).2.1 c hc
    have hJlast : lastOk (joinWithSep ((" | ").data)
        (metadataParts t.owner t.dueDate t.stage t.project)) :=
      join_lastOk _ (fun u hu => ⟨trim_fix_last (hpok u hu).2.1, (hpok u hu).1⟩)
    rw [jsTrim_eq_self hJhead hJlast]
    rw [htrim]
    rw [parseMeta_parts cs t.owner t.dueDate t.stage t.project hmo hmd hms hmp
      hpo2 hpne]
    dsimp only
    simp only [orO_none, List.append_nil]
    rw [hdedup hpne]
    rw [hcb]
    exact ⟨_, rfl, rfl, rfl, rfl, rfl, rfl, rfl, rfl, rfl, rfl, rfl, rfl,
      hbb.symm, hbl.symm⟩


/-- A safe task for the round-trip witness: completed, with an owner, a due
date, a completion date, a priority and a hashtag. -/
def exWitC1 : Task :=
  { defaultTask with text := ("Call mom").data, completed := true, completedDate := some (("2025-01-02").data), priority := some Priority.high, tags := [("urgent").data], owner := some (("John Smith").data), dueDate := some (("2025-03-01").data) }

/-- Witness: the amended round trip evaluated on the concrete safe task. -/
theorem roundTrip_amended_witness :
    SafeTask [] exWitC1 ∧
    (∃ t2, parseTaskLine (buildUpdatedLine exDate exWitC1 {}) exFile 1 [] = some t2 ∧
      t2.text = exWitC1.text ∧ t2.completed = exWitC1.completed ∧
      t2.dueDate = exWitC1.dueDate ∧ t2.completedDate = exWitC1.completedDate ∧
      t2.createdDate = exWitC1.createdDate ∧ t2.owner = exWitC1.owner ∧
      t2.project = exWitC1.project ∧ t2.stage = exWitC1.stage ∧
      t2.priority = exWitC1.priority ∧ t2.tags = exWitC1.tags ∧
      t2.recurrence = exWitC1.recurrence ∧ t2.blockedBy = exWitC1.blockedBy ∧
      t2.blocks = exWitC1.blocks) := by
  have hsafe : SafeTask [] exWitC1 :=
    ⟨rfl, rfl, by decide, by decide, by decide, by decide, by decide,
     by unfold TagsOk; decide, by unfold RecOk; exact trivial,
     ⟨⟨⟨by decide, by decide, by decide, collapseWs_fix_chain _ (by decide)⟩,
       by decide, by decide, by decide, by decide⟩,
      ⟨⟨by decide, by decide, by decide, collapseWs_fix_chain _ (by decide)⟩,
       by decide, by decide⟩,
      trivial, trivial, fun _ => rfl, fun _ => by decide⟩,
     ⟨by decide, rfl, rfl⟩, trivial⟩
  exact ⟨hsafe, roundTrip_amended exWitC1 exDate exFile 1 [] hsafe⟩

end TC
